import Mathlib

/-!
Raphael v2.0 search core (`src/Raphael/Raphaelv2.0.cpp`)

A shallow embedding of the iterative-deepening driver, the negamax walk, the
quiescence search and the move ordering of `Raphael::v2_0`.

* The collaborators whose code is not part of the file (the rules engine
  `chess.hpp`, the evaluator `net`, the transposition table `tt`, the killer
  and history tables, `SEE`, and the constants of `consts.h`) are the fields
  of `Ext`; every definition takes them as the parameter `X`.
* The member variables of `v2_0` are the fields of `State`.
* `whiteturn` is never declared or assigned in the file and is used only
  where a `board` is in scope: it is whether White is to move on that board,
  the field `Ext.whiteturn`.
* `volatile bool& halt` is the field `halt` of `State`.  The host writes it
  asynchronously; every read of the flag in the source is `observe`, which
  merges what the host has written by then (`Ext.hostHalt`, indexed by the
  number of reads and clock samples made so far, `State.tick`).
* `int` values are `Int`, taken without overflow; the search depth is an
  `Int`, `ply` is a `Nat`.
* The recursion of `negamax` and `quiescence` is on fuel.  The wrappers
  `negamax` and `quiescence` start it with `MAX_DEPTH - ply`, which is the
  number of plies left before the ceiling `ply == MAX_DEPTH - 1` is hit.
-/

namespace Raphael

/-- The largest value of the 32-bit `int`. -/
def INT_MAX : Int := 2147483647

/-- The largest value of `int16_t`, the type of a move's ordering score. -/
def INT16_MAX : Int := 32767

/-- Conversion of an `int` to `int16_t` (two's complement wrap). -/
def wrap16 (x : Int) : Int := (x + 32768) % 65536 - 32768

/-- Modelled from the spec: the bound kind of a transposition entry
(`TranspositionTable::Flag`, whose header is absent); the source names only
`EXACT`. -/
inductive Flag where
  | INVALID
  | LOWER
  | EXACT
  | UPPER
  deriving DecidableEq, Repr

/-- The aggregate `{ key, depth, flag, move, eval }` handed to `tt.set`. -/
structure Entry (M : Type) where
  key : Nat
  depth : Int
  flag : Flag
  move : M
  eval : Int

/-- The fields of `v2_0::RaphaelParams` read by the file; `PVAL i` is
`PVAL[i][1]`. -/
structure RaphaelParams where
  ASPIRATION_WINDOW : Int
  MAX_EXTENSIONS : Int
  MIN_SKIP_EVAL : Int
  PV_STABLE_COUNT : Int
  PVAL : Int → Int
  GOOD_CAPTURE_WEIGHT : Int
  KILLER_WEIGHT : Int

/-- The fields of `SearchOptions` read by the file; `-1` means "not set". -/
structure SearchOptions where
  maxdepth : Int
  maxnodes : Int
  movetime : Int
  movestogo : Int
  infinite : Bool

/-- The collaborators of the search core: `B` boards, `M` moves, `N` the
evaluator `net`, `T` the transposition table, `K` the killer table, `H` the
history table. -/
structure Ext (B M N T K H : Type) where
  /-- Models `board.hash()` -/
  hash : B → Nat
  /-- Models `movegen::legalmoves<ALL>` -/
  legalAll : B → List M
  /-- Models `movegen::legalmoves<CAPTURE>` -/
  legalCaptures : B → List M
  /-- Models `board.makeMove(mv)` -/
  makeMove : B → M → B
  /-- Models `board.unmakeMove(mv)` -/
  unmakeMove : B → M → B
  /-- Models `board.inCheck()` -/
  inCheck : B → Bool
  /-- Models `board.isRepetition(1)` -/
  isRepetition : B → Bool
  /-- Models `board.isHalfMoveDraw()` -/
  isHalfMoveDraw : B → Bool
  /-- Models `board.halfMoveClock()` -/
  halfMoveClock : B → Int
  /-- Models `whiteturn` where `board` is the board in scope: whether White is
  to move on it -/
  whiteturn : B → Bool
  /-- Models `chess::Move::NO_MOVE` -/
  NO_MOVE : M
  /-- Models `Movelist::sort()` on the moves paired with their scores -/
  sortMoves : List (M × Int) → List (M × Int)
  /-- Models `(int)board.at(move.from())` -/
  pieceFrom : B → M → Int
  /-- Models `(int)board.at(move.to())` -/
  pieceTo : B → M → Int
  /-- Models `board.isCapture(move)` -/
  isCapture : B → M → Bool
  /-- Models `move.typeOf() == chess::Move::PROMOTION` -/
  isPromotion : M → Bool
  /-- Models `(int)move.promotionType()` -/
  promotionType : M → Int
  /-- Models `SEE::goodCapture(move, board, threshold)` -/
  goodCapture : M → B → Int → Bool
  /-- Models `killers.isKiller(move, ply)` -/
  isKiller : K → M → Nat → Bool
  /-- Models `history.get(move, whiteturn)` -/
  historyGet : H → M → Bool → Int
  /-- Models `history.clear()` -/
  historyClear : H → H
  /-- Models `net.set_board(board)` -/
  set_board : N → B → N
  /-- Models `net.make_move(ply, mv, board)` -/
  make_move : N → Nat → M → B → N
  /-- Models `net.evaluate(ply, side)` -/
  evaluate : N → Nat → Bool → Int
  /-- Models `tt.get(key, ply)` -/
  ttGet : T → Nat → Int → Entry M
  /-- Models `tt.set(entry, ply)` -/
  ttSet : T → Entry M → Int → T
  /-- Models `tt.valid(entry, key, depth)` -/
  ttValid : T → Entry M → Nat → Int → Bool
  /-- Models `tt.isMate(eval)` -/
  isMate : Int → Bool
  /-- Models `MAX_DEPTH` of `consts.h` -/
  MAX_DEPTH : Nat
  /-- Models `MATE_EVAL` of `consts.h` -/
  MATE_EVAL : Int
  /-- Lines 269-273 of `start_search_timer`: the floating-point estimate
  `duration` from the board, `t_remain` and `t_inc`. -/
  baseDuration : B → Int → Int → Int
  /-- What the host has written to `halt` by the time of the `t`-th sample. -/
  hostHalt : Nat → Bool
  /-- The clock: milliseconds since `start_t` read at the `t`-th sample. -/
  dtime : Nat → Int

/-- The member variables of `v2_0` together with the cancellation flag. -/
structure State (M N T K H : Type) where
  tt : T
  net : N
  killers : K
  history : H
  itermove : M
  prevPlay : M
  consecutives : Int
  nodes : Int
  ponderkey : Nat
  pondereval : Int
  ponderdepth : Int
  search_t : Int
  searchopt : SearchOptions
  params : RaphaelParams
  /-- the referent of `volatile bool& halt` -/
  halt : Bool
  /-- number of samples of the flag and of the clock taken so far -/
  tick : Nat

variable {B M N T K H : Type}

/-- A read of `halt`: the host's write, if any, becomes visible. -/
def observe (X : Ext B M N T K H) (s : State M N T K H) : State M N T K H :=
  { s with halt := s.halt || X.hostHalt s.tick, tick := s.tick + 1 }

/-- Models `v2_0::is_time_over` (lines 280-293). -/
def is_time_over (X : Ext B M N T K H) (s : State M N T K H) :
    Bool × State M N T K H :=
  if s.searchopt.maxnodes ≠ -1 ∧ s.nodes ≥ s.searchopt.maxnodes then
    (true, { s with halt := true })
  else
    let s1 :=
      if s.search_t ≠ 0 ∧ s.nodes % 2048 = 0 then
        if X.dtime s.tick ≥ s.search_t then
          { s with halt := true, tick := s.tick + 1 }
        else { s with tick := s.tick + 1 }
      else s
    let s2 := observe X s1
    (s2.halt, s2)

/-- Models `v2_0::score_move` (lines 375-404): the value given to `move.setScore`. -/
def score_move [DecidableEq M] (X : Ext B M N T K H) (s : State M N T K H)
    (move : M) (board : B) (ply : Nat) : Int :=
  if move = (X.ttGet s.tt (X.hash board) 0).move then INT16_MAX
  else
    let frm := X.pieceFrom board move
    let dst := X.pieceTo board move
    let score1 :=
      if X.isCapture board move then
        let a := wrap16 (0 + (|s.params.PVAL dst| - Int.tmod frm 6))
        wrap16 (a + (if X.goodCapture move board (-12) then 1 else 0)
          * s.params.GOOD_CAPTURE_WEIGHT)
      else
        let a :=
          if ply > 0 ∧ X.isKiller s.killers move ply then
            wrap16 (0 + s.params.KILLER_WEIGHT)
          else 0
        wrap16 (a + X.historyGet s.history move (X.whiteturn board))
    if X.isPromotion move then
      wrap16 (score1 + |s.params.PVAL (X.promotionType move)|)
    else score1

/-- Models `v2_0::order_moves` (lines 370-373): score every move, then sort. -/
def order_moves [DecidableEq M] (X : Ext B M N T K H) (s : State M N T K H)
    (movelist : List M) (board : B) (ply : Nat) : List M :=
  (X.sortMoves (movelist.map (fun m => (m, score_move X s m board ply)))).map
    Prod.fst

/-- The loop of `quiescence` (lines 358-365); `child` is the recursive call.
The result is the value returned by `quiescence`: `0` after a cancellation,
the maximum kept in `bestEval` otherwise. -/
def quiescenceLoop (X : Ext B M N T K H)
    (child : B → State M N T K H → Option (Int × B × State M N T K H))
    (ply : Nat) :
    List M → B → Int → State M N T K H → Option (Int × B × State M N T K H)
  | [], board, bestEval, s => some (bestEval, board, s)
  | mv :: rest, board, bestEval, s =>
    let s1 := { s with net := X.make_move s.net (ply + 1) mv board }
    match child (X.makeMove board mv) s1 with
    | none => none
    | some (v, b2, s2) =>
      let eval := -v
      let b3 := X.unmakeMove b2 mv
      let s3 := observe X s2
      if s3.halt then some (0, b3, s3)
      else
        quiescenceLoop X child ply rest b3
          (if eval > bestEval then eval else bestEval) s3

/-- Models `v2_0::quiescence` (lines 342-367) with the recursion depth as fuel.
`whiteturn` of line 347 is read on the `board` of the call.  The product of
line 347 is taken in `Int`: the `int` arithmetic of the source is assumed not
to overflow. -/
def quiescenceF [DecidableEq M] (X : Ext B M N T K H) :
    Nat → B → Nat → State M N T K H → Option (Int × B × State M N T K H)
  | 0, _, _, _ => none
  | fuel + 1, board, ply, s =>
    let (over, s0) := is_time_over X s
    if over then some (0, board, s0)
    else
      let s1 := { s0 with nodes := s0.nodes + 1 }
      let bestEval :=
        Int.tdiv (X.evaluate s1.net ply (X.whiteturn board)
          * (100 - X.halfMoveClock board)) 100
      if (ply : Int) = (X.MAX_DEPTH : Int) - 1 then some (bestEval, board, s1)
      else
        let movelist := order_moves X s1 (X.legalCaptures board) board ply
        quiescenceLoop X (fun b t => quiescenceF X fuel b (ply + 1) t) ply
          movelist board bestEval s1

/-- Models `v2_0::quiescence`: the fuel is the number of plies up to the ceiling. -/
def quiescence [DecidableEq M] (X : Ext B M N T K H) (board : B) (ply : Nat)
    (s : State M N T K H) : Option (Int × B × State M N T K H) :=
  quiescenceF X (X.MAX_DEPTH - ply) board ply s

/-- The loop of `negamax` (lines 325-335); `child` is the recursive call.
The first component is `none` when the loop left through `return 0`, and the
final `bestEval` otherwise. -/
def negamaxLoop (X : Ext B M N T K H)
    (child : B → State M N T K H → Option (Int × B × State M N T K H))
    (ply : Nat) :
    List M → B → Int → State M N T K H →
      Option (Option Int × B × State M N T K H)
  | [], board, bestEval, s => some (some bestEval, board, s)
  | mv :: rest, board, bestEval, s =>
    let s1 := { s with net := X.make_move s.net (ply + 1) mv board }
    match child (X.makeMove board mv) s1 with
    | none => none
    | some (v, b2, s2) =>
      let eval := -v
      let b3 := X.unmakeMove b2 mv
      let s3 := observe X s2
      if s3.halt then some (none, b3, s3)
      else if eval > bestEval then
        negamaxLoop X child ply rest b3 eval
          (if ply = 0 then { s3 with itermove := mv } else s3)
      else negamaxLoop X child ply rest b3 bestEval s3

/-- Models `v2_0::negamax` (lines 296-340) with the recursion depth as fuel. -/
def negamaxF [DecidableEq M] (X : Ext B M N T K H) :
    Nat → B → Int → Nat → Int → State M N T K H →
      Option (Int × B × State M N T K H)
  | 0, _, _, _, _, _ => none
  | fuel + 1, board, depth, ply, ext, s =>
    let (over, s0) := is_time_over X s
    if over then some (0, board, s0)
    else
      let s1 := { s0 with nodes := s0.nodes + 1 }
      if depth ≤ 0 ∨ (ply : Int) = (X.MAX_DEPTH : Int) - 1 then
        quiescence X board ply s1
      else if ply ≠ 0 ∧ (X.isRepetition board ∨ X.isHalfMoveDraw board) then
        some (0, board, s1)
      else
        let movelist := X.legalAll board
        if movelist.isEmpty then
          some (if X.inCheck board then -X.MATE_EVAL + ply else 0, board, s1)
        else
          let ordered := order_moves X s1 movelist board ply
          let bestmove := ordered.headD X.NO_MOVE
          let s2 := if ply = 0 then { s1 with itermove := bestmove } else s1
          match negamaxLoop X
              (fun b t => negamaxF X fuel b (depth - 1) (ply + 1) ext t) ply
              ordered board (-INT_MAX) s2 with
          | none => none
          | some (none, b3, s3) => some (0, b3, s3)
          | some (some bestEval, b3, s3) =>
            let entry : Entry M :=
              ⟨X.hash b3, depth, Flag.EXACT, s3.itermove, bestEval⟩
            some (bestEval, b3, { s3 with tt := X.ttSet s3.tt entry ply })

/-- Models `v2_0::negamax`: the fuel is the number of plies up to the ceiling. -/
def negamax [DecidableEq M] (X : Ext B M N T K H) (board : B) (depth : Int)
    (ply : Nat) (ext : Int) (s : State M N T K H) :
    Option (Int × B × State M N T K H) :=
  negamaxF X (X.MAX_DEPTH - ply) board depth ply ext s

/-- Models `v2_0::start_search_timer` (lines 254-278).  Resetting `start_t` restarts
the clock read by `is_time_over`, which is `Ext.dtime`. -/
def start_search_timer (X : Ext B M N T K H) (s : State M N T K H) (board : B)
    (t_remain t_inc : Int) : State M N T K H :=
  if s.searchopt.movetime ≠ -1 then { s with search_t := s.searchopt.movetime }
  else if s.searchopt.maxdepth ≠ -1 ∨ s.searchopt.maxnodes ≠ -1
      ∨ s.searchopt.infinite then
    { s with search_t := 0 }
  else
    let duration := X.baseDuration board t_remain t_inc
    let duration :=
      if s.searchopt.movestogo > 1 then
        duration + Int.tdiv (t_remain - duration) s.searchopt.movestogo
      else duration
    { s with search_t := min duration t_remain }

/-- One pass through the body of the iterative-deepening loop, as a record:
the arguments of the `negamax` call made at the root, what it returned, the
flag as read by `if (!halt)` after the call and `itermove` at that point. -/
structure Iter (M : Type) where
  depth : Int
  alpha : Int
  beta : Int
  score : Int
  halted : Bool
  itermove : M
  deriving DecidableEq

/-- The local variables of `get_move` at the head of its loop together with
the engine state. -/
structure Loop (M N T K H : Type) where
  depth : Int
  eval : Int
  alpha : Int
  beta : Int
  st : State M N T K H

/-- What `get_move` leaves behind: the returned move, the engine state (with
the flag) and the record of the iterations it ran, oldest first. -/
structure Outcome (M N T K H : Type) where
  move : M
  st : State M N T K H
  iters : List (Iter M)

/-- Prepend an iteration record to the outcome of the rest of the loop. -/
def Outcome.push (it : Iter M) : Option (Outcome M N T K H) →
    Option (Outcome M N T K H)
  | none => none
  | some o => some { o with iters := it :: o.iters }

/-- Lines 45-68 of `get_move`: the loop variables and the state with which
the iterative deepening starts. -/
def get_move_init (X : Ext B M N T K H) (s : State M N T K H) (board : B)
    (t_remain t_inc : Int) : Loop M N T K H :=
  let s0 := { s with history := X.historyClear s.history,
                     net := X.set_board s.net board }
  if X.hash board ≠ s0.ponderkey then
    { depth := 1, eval := 0, alpha := -INT_MAX, beta := INT_MAX,
      st := start_search_timer X
        { s0 with itermove := X.NO_MOVE, prevPlay := X.NO_MOVE,
                  consecutives := 1, nodes := 0 } board t_remain t_inc }
  else
    { depth := s0.ponderdepth, eval := s0.pondereval,
      alpha := s0.pondereval - s0.params.ASPIRATION_WINDOW,
      beta := s0.pondereval + s0.params.ASPIRATION_WINDOW,
      st := start_search_timer X s0 board t_remain t_inc }

/-- Lines 97-103: count the consecutive iterations with the same best move. -/
def countConsecutive [DecidableEq M] (s : State M N T K H) : State M N T K H :=
  if s.itermove = s.prevPlay then { s with consecutives := s.consecutives + 1 }
  else { s with prevPlay := s.itermove, consecutives := 1 }

/-- The effect of one pass through the `while` loop of `get_move`: either
the function returns (the loop condition fails, the `break` of line 73, or
the `return` of line 130), or the loop goes round again. -/
inductive Pass (B M N T K H : Type) where
  | leave (move : M) (st : State M N T K H) (it : Option (Iter M))
  | again (it : Iter M) (board : B) (l : Loop M N T K H)

/-- Lines 75-78 of `get_move`: the stable-PV skip sets the flag itself. -/
def skipIfStable (eval : Int) (s : State M N T K H) : State M N T K H :=
  if eval ≥ s.params.MIN_SKIP_EVAL ∧ s.consecutives ≥ s.params.PV_STABLE_COUNT
      ∧ ¬ s.searchopt.infinite then
    { s with halt := true }
  else s

/-- Lines 81-140 of `get_move`: what the loop does with the value `itereval`
returned by the `negamax` call of line 79. -/
def get_move_after [DecidableEq M] (X : Ext B M N T K H) (l : Loop M N T K H)
    (itereval : Int) (b2 : B) (s2 : State M N T K H) : Pass B M N T K H :=
  let s3 := observe X s2
  let it : Iter M :=
    { depth := l.depth, alpha := l.alpha, beta := l.beta,
      score := itereval, halted := s3.halt, itermove := s3.itermove }
  if ¬ s3.halt then
    if itereval ≤ l.alpha ∨ itereval ≥ l.beta then
      Pass.again it b2
        { depth := l.depth, eval := itereval, alpha := -INT_MAX,
          beta := INT_MAX, st := s3 }
    else
      let s4 := countConsecutive s3
      if X.isMate itereval then
        Pass.leave s4.itermove { s4 with halt := true } (some it)
      else
        Pass.again it b2
          { depth := l.depth + 1, eval := itereval,
            alpha := itereval - s4.params.ASPIRATION_WINDOW,
            beta := itereval + s4.params.ASPIRATION_WINDOW, st := s4 }
  else if X.isMate l.eval then
    Pass.leave s3.itermove { s3 with halt := true } (some it)
  else
    Pass.again it b2 { l with st := s3 }

/-- One pass through the `while` loop of `get_move` (lines 71-141), the final
`return itermove` of line 157 included. -/
def get_move_pass [DecidableEq M] (X : Ext B M N T K H) (board : B)
    (l : Loop M N T K H) : Option (Pass B M N T K H) :=
  let s0 := observe X l.st
  if s0.halt ∨ ¬ l.depth ≤ (X.MAX_DEPTH : Int) then
    some (Pass.leave s0.itermove s0 none)
  else if s0.searchopt.maxdepth ≠ -1 ∧ l.depth > s0.searchopt.maxdepth then
    some (Pass.leave s0.itermove s0 none)
  else
    let s1 := skipIfStable l.eval s0
    match negamax X board l.depth 0 s1.params.MAX_EXTENSIONS s1 with
    | none => none
    | some (itereval, b2, s2) => some (get_move_after X l itereval b2 s2)

/-- The `while` loop of `get_move`; the fuel bounds the number of passes. -/
def get_move_loop [DecidableEq M] (X : Ext B M N T K H) :
    Nat → B → Loop M N T K H → Option (Outcome M N T K H)
  | 0, _, _ => none
  | fuel + 1, board, l =>
    match get_move_pass X board l with
    | none => none
    | some (Pass.leave move st it) =>
      some { move := move, st := st, iters := it.toList }
    | some (Pass.again it b2 l2) =>
      Outcome.push it (get_move_loop X fuel b2 l2)

/-- Models `v2_0::get_move` (lines 38-158); the progress reports written to `cout`
are left out. -/
def get_move [DecidableEq M] (X : Ext B M N T K H) (fuel : Nat)
    (s : State M N T K H) (board : B) (t_remain t_inc : Int) :
    Option (Outcome M N T K H) :=
  get_move_loop X fuel board (get_move_init X s board t_remain t_inc)

/-- What `ponder` leaves behind: the engine state and the record of the
iterations it ran. -/
structure PonderOutcome (M N T K H : Type) where
  st : State M N T K H
  iters : List (Iter M)

/-- Prepend an iteration record to the outcome of the rest of the loop. -/
def PonderOutcome.push (it : Iter M) : Option (PonderOutcome M N T K H) →
    Option (PonderOutcome M N T K H)
  | none => none
  | some o => some { o with iters := it :: o.iters }

/-- The `while` loop of `ponder` (lines 190-219). -/
def ponder_loop [DecidableEq M] (X : Ext B M N T K H) :
    Nat → B → Int → Int → State M N T K H → Option (PonderOutcome M N T K H)
  | 0, _, _, _, _ => none
  | fuel + 1, board, alpha, beta, s =>
    let s0 := observe X s
    if s0.halt ∨ ¬ s0.ponderdepth ≤ (X.MAX_DEPTH : Int) then
      some { st := s0, iters := [] }
    else
      match negamax X board s0.ponderdepth 0 s0.params.MAX_EXTENSIONS s0 with
      | none => none
      | some (itereval, b2, s2) =>
        let s3 := observe X s2
        let it : Iter M :=
          { depth := s0.ponderdepth, alpha := alpha, beta := beta,
            score := itereval, halted := s3.halt, itermove := s3.itermove }
        if ¬ s3.halt then
          let s4 := { s3 with pondereval := itereval }
          if itereval ≤ alpha ∨ itereval ≥ beta then
            PonderOutcome.push it (ponder_loop X fuel b2 (-INT_MAX) INT_MAX s4)
          else
            let s5 := countConsecutive { s4 with ponderdepth := s4.ponderdepth + 1 }
            if X.isMate itereval then some { st := s5, iters := [it] }
            else
              PonderOutcome.push it (ponder_loop X fuel b2
                (itereval - s5.params.ASPIRATION_WINDOW)
                (itereval + s5.params.ASPIRATION_WINDOW) s5)
        else if X.isMate s3.pondereval then some { st := s3, iters := [it] }
        else PonderOutcome.push it (ponder_loop X fuel b2 alpha beta s3)

/-- Models `v2_0::ponder` (lines 160-220). -/
def ponder [DecidableEq M] (X : Ext B M N T K H) (fuel : Nat)
    (s : State M N T K H) (board : B) : Option (PonderOutcome M N T K H) :=
  let s0 := { s with ponderdepth := 1, pondereval := 0, itermove := X.NO_MOVE,
                     search_t := 0 }
  let ttkey := X.hash board
  let ttentry := X.ttGet s0.tt ttkey 0
  let s1 := observe X s0
  if s1.halt ∨ ¬ X.ttValid s1.tt ttentry ttkey 0 then
    some { st := { s1 with consecutives := 1 }, iters := [] }
  else
    let board2 := X.makeMove board ttentry.move
    let s2 := { s1 with ponderkey := X.hash board2,
                        history := X.historyClear s1.history,
                        net := X.set_board s1.net board2,
                        nodes := 0, consecutives := 1 }
    ponder_loop X fuel board2 (-INT_MAX) INT_MAX s2

/-! ## A small concrete instance

Boards are the list of moves played from the root, newest first; the
evaluator keeps one board per ply; the transposition table keeps every entry
stored, newest first, and looks an entry up by its key. -/

/-- The data of a small game tree. -/
structure Tree where
  /-- the legal moves of a position -/
  legal : List Nat → List Nat
  /-- the capturing moves among them -/
  caps : List Nat → List Nat
  /-- the static evaluation of a position for the given side -/
  sev : List Nat → Bool → Int
  /-- whether the side to move is in check -/
  check : List Nat → Bool
  /-- the half-move clock of a position -/
  clock : List Nat → Int
  /-- the depth ceiling -/
  maxDepth : Nat
  /-- the host's writes to the cancellation flag -/
  host : Nat → Bool

/-- The evaluation for `side` of a position `b` that is worth `v` to its side
to move; White is to move after an even number of moves. -/
def Tree.relative (b : List Nat) (side : Bool) (v : Int) : Int :=
  if side = decide (b.length % 2 = 0) then v else -v

/-- The entry returned for a key that was never stored. -/
def Tree.noEntry : Entry Nat := ⟨0, 0, Flag.INVALID, 99, 0⟩

/-- Look a key up in the list of stored entries. -/
def Tree.lookup (t : List (Entry Nat)) (key : Nat) : Entry Nat :=
  (t.find? (fun e => e.key == key)).getD Tree.noEntry

/-- The collaborators built from a game tree. -/
def Tree.ext (G : Tree) :
    Ext (List Nat) Nat (Nat → List Nat) (List (Entry Nat)) Unit Unit where
  hash b := b.foldr (fun m h => 10 * h + m + 1) 0
  legalAll := G.legal
  legalCaptures := G.caps
  makeMove b m := m :: b
  unmakeMove b _ := b.tail
  inCheck := G.check
  isRepetition _ := false
  isHalfMoveDraw _ := false
  halfMoveClock := G.clock
  whiteturn b := decide (b.length % 2 = 0)
  NO_MOVE := 99
  sortMoves l := l.insertionSort (fun a b => a.2 ≥ b.2)
  pieceFrom _ _ := 0
  pieceTo _ _ := 0
  isCapture b m := decide (m ∈ G.caps b)
  isPromotion _ := false
  promotionType _ := 0
  goodCapture _ _ _ := false
  isKiller _ _ _ := false
  historyGet _ _ _ := 0
  historyClear h := h
  set_board n b := fun p => if p = 0 then b else n p
  make_move n p m b := fun q => if q = p then m :: b else n q
  evaluate n p side := G.sev (n p) side
  ttGet t key _ := Tree.lookup t key
  ttSet t e _ := e :: t
  ttValid _ e key depth := decide (e.flag ≠ Flag.INVALID ∧ e.key = key ∧ e.depth ≥ depth)
  isMate v := decide (|v| > 99000)
  MAX_DEPTH := G.maxDepth
  MATE_EVAL := 100000
  baseDuration _ _ _ := 0
  hostHalt := G.host
  dtime _ := 0

/-- Parameters for the concrete instance. -/
def Tree.params : RaphaelParams where
  ASPIRATION_WINDOW := 50
  MAX_EXTENSIONS := 0
  MIN_SKIP_EVAL := 200
  PV_STABLE_COUNT := 6
  PVAL _ := 0
  GOOD_CAPTURE_WEIGHT := 0
  KILLER_WEIGHT := 0

/-- A freshly reset engine with the given search options. -/
def Tree.fresh (opt : SearchOptions) :
    State Nat (Nat → List Nat) (List (Entry Nat)) Unit Unit where
  tt := []
  net := fun _ => []
  killers := ()
  history := ()
  itermove := 99
  prevPlay := 99
  consecutives := 0
  nodes := 0
  ponderkey := 12345
  pondereval := 0
  ponderdepth := 1
  search_t := 0
  searchopt := opt
  params := Tree.params
  halt := false
  tick := 0

/-- Search options with nothing set. -/
def noLimits : SearchOptions := ⟨-1, -1, -1, 0, false⟩

/-! ## Relations between the state before and after a call -/

/-- What a search call may change in the engine state: the fields below are
kept, the counters only grow, the flag is never cleared, and it stays unset
when nothing can set it. -/
structure Frame (X : Ext B M N T K H) (s t : State M N T K H) : Prop where
  searchopt : t.searchopt = s.searchopt
  params : t.params = s.params
  search_t : t.search_t = s.search_t
  killers : t.killers = s.killers
  history : t.history = s.history
  prevPlay : t.prevPlay = s.prevPlay
  consecutives : t.consecutives = s.consecutives
  ponderkey : t.ponderkey = s.ponderkey
  pondereval : t.pondereval = s.pondereval
  ponderdepth : t.ponderdepth = s.ponderdepth
  halt_mono : s.halt = true → t.halt = true
  tick_mono : s.tick ≤ t.tick
  nodes_mono : s.nodes ≤ t.nodes
  halt_keep : (∀ k, X.hostHalt k = false) → s.search_t = 0 →
    s.searchopt.maxnodes = -1 → s.halt = false → t.halt = false

/-- What a call below the root may change: as `Frame`, and `itermove` is kept. -/
def Kept (X : Ext B M N T K H) (s t : State M N T K H) : Prop :=
  Frame X s t ∧ t.itermove = s.itermove


/-- A recursive call that returns and hands the board back as it got it. -/
def Restores (child : B → State M N T K H → Option (Int × B × State M N T K H)) : Prop :=
  ∀ b t, ∃ r, child b t = some r ∧ r.2.1 = b

/-! ## The evaluator contract and the full-width reference values -/

/-- The contract of the incremental evaluator: `Sync n p b` says that the
evaluator `n` holds at ply `p` the data of board `b`.  It is told the root
position by `set_board`, told every move by `make_move` (which fills ply
`p + 1` from ply `p` and touches no lower ply), and then `evaluate` is the
static evaluation `sev` of the board. -/
structure Tracks (X : Ext B M N T K H) (sev : B → Bool → Int)
    (Sync : N → Nat → B → Prop) : Prop where
  eval : ∀ n p b side, Sync n p b → X.evaluate n p side = sev b side
  step : ∀ n p m b, Sync n p b →
    Sync (X.make_move n (p + 1) m b) (p + 1) (X.makeMove b m)
  frame : ∀ n p m b q c, q ≤ p → Sync n q c →
    Sync (X.make_move n (p + 1) m b) q c
  init : ∀ n b, Sync (X.set_board n b) 0 b

/-- The standing-pat value of line 347: the static evaluation of the board
for its side to move, scaled down with the half-move clock. -/
def standPat (X : Ext B M N T K H) (sev : B → Bool → Int) (b : B) : Int :=
  Int.tdiv (sev b (X.whiteturn b) * (100 - X.halfMoveClock b)) 100

/-- Reference value of `quiescence` with `k` plies left below the ceiling:
the maximum of the standing pat and the negated values after each capture. -/
def quiescenceValue (X : Ext B M N T K H) (sev : B → Bool → Int) :
    Nat → B → Int
  | 0, b => standPat X sev b
  | k + 1, b =>
    (X.legalCaptures b).foldl
      (fun acc mv => max acc (-(quiescenceValue X sev k (X.makeMove b mv))))
      (standPat X sev b)

/-- Reference value of `negamax` with `k` plies left below the ceiling: the
plain full-width recursion. -/
def negamaxValue (X : Ext B M N T K H) (sev : B → Bool → Int) :
    Nat → Int → Nat → B → Int
  | 0, _, _, b => standPat X sev b
  | k + 1, depth, ply, b =>
    if depth ≤ 0 then quiescenceValue X sev (k + 1) b
    else if ply ≠ 0 ∧ (X.isRepetition b ∨ X.isHalfMoveDraw b) then 0
    else if (X.legalAll b).isEmpty then
      (if X.inCheck b then -X.MATE_EVAL + ply else 0)
    else
      (X.legalAll b).foldl
        (fun acc mv =>
          max acc (-(negamaxValue X sev k (depth - 1) (ply + 1) (X.makeMove b mv))))
        (-INT_MAX)

/-- What the search loops need of a recursive call at ply `ply`: the board is
handed back, the evaluator still holds the lower plies, and an uncancelled
call returns `val`. -/
def ChildSpec (Sync : N → Nat → B → Prop) (ply : Nat)
    (val : B → Int)
    (child : B → State M N T K H → Option (Int × B × State M N T K H)) : Prop :=
  ∀ b t r, Sync t.net ply b → child b t = some r →
    r.2.1 = b
      ∧ (∀ q c, q ≤ ply → Sync t.net q c → Sync r.2.2.net q c)
      ∧ (r.2.2.halt = false → r.1 = val b)

/-- A three-ply tree: three root moves, two replies each, one capture. -/
def demoTree : Tree where
  legal b := match b with
    | [] => [0, 1, 2]
    | [_] => [0, 1]
    | _ => []
  caps b := match b with
    | [1, 0] => [0]
    | _ => []
  sev b side := Tree.relative b side <| match b with
    | [0, 0] => 5
    | [1, 0] => -3
    | [0, 1] => 7
    | [1, 1] => 2
    | [0, 2] => 9
    | [1, 2] => 1
    | [0, 1, 0] => -20
    | _ => 0
  check _ := false
  clock _ := 0
  maxDepth := 6
  host _ := false

/-- A root position without legal moves whose side to move is in check. -/
def matedTree : Tree where
  legal _ := []
  caps _ := []
  sev b side := Tree.relative b side 7
  check _ := true
  clock _ := 0
  maxDepth := 4
  host _ := false

/-- Two root moves; after the first the opponent has a winning capture. -/
def captureTree : Tree where
  legal b := match b with
    | [] => [0, 1]
    | [0] => [7]
    | _ => []
  caps b := match b with
    | [0] => [7]
    | _ => []
  sev b side := Tree.relative b side <| match b with
    | [0] => -5
    | [1] => 2
    | [7, 0] => -30
    | _ => 0
  check _ := false
  clock _ := 0
  maxDepth := 4
  host _ := false

/-- The evaluator of the concrete instance holds board `b` at ply `p`. -/
def Tree.sync (n : Nat → List Nat) (p : Nat) (b : List Nat) : Prop := n p = b

/-- The iteration record of a pass, if the pass called `negamax`. -/
def Pass.iter : Pass B M N T K H → Option (Iter M)
  | Pass.leave _ _ it => it
  | Pass.again it _ _ => some it

/-- A recursive call that returns. -/
def Returns (child : B → State M N T K H → Option (Int × B × State M N T K H)) : Prop :=
  ∀ b t, ∃ r, child b t = some r

/-- The three-ply tree with a host that raises the flag once, at sample 14. -/
def ponderTree : Tree := { demoTree with host := fun t => t == 14 }

/-- An engine whose table holds the move 0 for the root of the tree. -/
def ponderState : State Nat (Nat → List Nat) (List (Entry Nat)) Unit Unit :=
  { Tree.fresh noLimits with tt := [⟨ponderTree.ext.hash [], 1, Flag.EXACT, 0, 5⟩] }

/-- What pondering on the root leaves behind. -/
def pondered : PonderOutcome Nat (Nat → List Nat) (List (Entry Nat)) Unit Unit :=
  (ponder ponderTree.ext 20 ponderState []).get (by decide)

/-- The engine at the next `get_move`: the host has lowered the flag. -/
def ponderedReady : State Nat (Nat → List Nat) (List (Entry Nat)) Unit Unit :=
  { pondered.st with halt := false }

/-- A tree on which the best root move changes between depth 1 and depth 2,
with a host that raises the flag from sample 32 on, in the middle of the
depth-2 iteration. -/
def cancelTree : Tree where
  legal b := match b with
    | [] => [0, 1, 2]
    | [_] => [0, 1]
    | _ => []
  caps _ := []
  sev b side := Tree.relative b side <| match b with
    | [0] => -5
    | [1] => -3
    | [2] => 0
    | [0, 0] => 1
    | [1, 0] => 2
    | [0, 1] => 4
    | [1, 1] => 6
    | [0, 2] => 10
    | [1, 2] => 10
    | _ => 0
  check _ := false
  clock _ := 0
  maxDepth := 6
  host t := decide (32 ≤ t)

/-- The outcome of `get_move` at the root of `cancelTree`. -/
def cancelOutcome : Outcome Nat (Nat → List Nat) (List (Entry Nat)) Unit Unit :=
  (get_move cancelTree.ext 10 (Tree.fresh noLimits) [] 0 0).get (by decide)

/-- Two root moves 0 and 1; the replies to either are the moves 5 and 6. -/
def storeTree : Tree where
  legal b := match b with
    | [] => [0, 1]
    | [_] => [5, 6]
    | _ => []
  caps _ := []
  sev b side := Tree.relative b side <| match b with
    | [5, 0] => 3
    | [6, 0] => 4
    | [5, 1] => 1
    | [6, 1] => 2
    | _ => 0
  check _ := false
  clock _ := 0
  maxDepth := 6
  host _ := false

/-- One root move; the evaluator says +40 for White and -40 for Black in
every position.  White is to move at the root, Black after the root move. -/
def sideTree : Tree where
  legal b := match b with
    | [] => [0]
    | _ => []
  caps _ := []
  sev _ side := if side then 40 else -40
  check _ := false
  clock _ := 0
  maxDepth := 6
  host _ := false

/-- The root call with depth `d` reaches the move loop: it is not handed to
quiescence and the root has a legal move. -/
def rootLoops (X : Ext B M N T K H) (board : B) (d : Int) : Prop :=
  ¬ (d ≤ 0 ∨ ((0 : Nat) : Int) = (X.MAX_DEPTH : Int) - 1) ∧ X.legalAll board ≠ []

/-- The full-width value of root move `m` in a search of depth `d`. -/
def rootChild (X : Ext B M N T K H) (sev : B → Bool → Int) (d : Int)
    (board : B) (m : M) : Int :=
  -(negamaxValue X sev (X.MAX_DEPTH - 2) (d - 1) 1 (X.makeMove board m))

/-- The engine state after a completed root search of depth `d` with value
`v` and best move `m`: `itermove` is `m`, and if the root reached its move
loop the table holds `m` for the root, `m` is legal, and `m` attains `v`. -/
structure Settled (X : Ext B M N T K H) (sev : B → Bool → Int) (board : B)
    (d : Int) (v : Int) (m : M) (st : State M N T K H) : Prop where
  itermove : st.itermove = m
  value : negamaxValue X sev (X.MAX_DEPTH - 1) d 0 board = v
  table : rootLoops X board d →
    (X.ttGet st.tt (X.hash board) 0).move = m ∧ m ∈ X.legalAll board
      ∧ (-INT_MAX < v → rootChild X sev d board m = v)

/-- The first pass of the root loop followed by the rest, as `negamax` runs
them at ply 0 once the root has reached its move loop. -/
def rootSearch [DecidableEq M] (X : Ext B M N T K H) (board : B) (d : Int)
    (ext : Int) (s1 : State M N T K H) :
    Option (Option Int × B × State M N T K H) :=
  negamaxLoop X (fun b t => negamaxF X (X.MAX_DEPTH - 1) b (d - 1) 1 ext t) 0
    (order_moves X s1 (X.legalAll board) board 0) board (-INT_MAX)
    { s1 with itermove := (order_moves X s1 (X.legalAll board) board 0).headD X.NO_MOVE }

/-- The state of the `get_move` loop keeps what the ordering and the
evaluation depend on: the evaluator holds the root position, and the
parameters, killer table and (cleared) history table are those the run
started with. -/
structure Tuned (X : Ext B M N T K H) (Sync : N → Nat → B → Prop)
    (s : State M N T K H) (board : B) (st : State M N T K H) : Prop where
  sync : Sync st.net 0 board
  params : st.params = s.params
  killers : st.killers = s.killers
  history : st.history = X.historyClear s.history

/-- The ordering puts the table move first: in every state of the run, if the
move the table holds for the root is a legal root move, `order_moves` at the
root starts with it. -/
def TableMoveFirst [DecidableEq M] (X : Ext B M N T K H) (s : State M N T K H)
    (board : B) : Prop :=
  ∀ s1 : State M N T K H, s1.params = s.params → s1.killers = s.killers →
    s1.history = X.historyClear s.history →
    (X.ttGet s1.tt (X.hash board) 0).move ∈ X.legalAll board →
    (order_moves X s1 (X.legalAll board) board 0).head?
      = some (X.ttGet s1.tt (X.hash board) 0).move

/-- A step relation on engine states that every elementary action of the
search core respects: the relation is then respected by whole calls. -/
structure Respected (X : Ext B M N T K H)
    (R : State M N T K H → State M N T K H → Prop) : Prop where
  refl : ∀ s, R s s
  trans : ∀ s t u, R s t → R t u → R s u
  over : ∀ s, R s (is_time_over X s).2
  enter : ∀ s, (is_time_over X s).1 = false →
    R s { (is_time_over X s).2 with nodes := (is_time_over X s).2.nodes + 1 }
  net : ∀ s n, R s { s with net := n }
  seen : ∀ s, R s (observe X s)
  published : ∀ s m, R s { s with itermove := m }
  stored : ∀ s e p, R s { s with tt := X.ttSet s.tt e p }

/-- Search options with a node limit of three and nothing else set. -/
def nodeCap : SearchOptions := ⟨-1, 3, -1, 0, false⟩

/-- Piece values for the ordering examples: piece 1 is worth 100, piece 2 is
worth 98, piece 3 is worth 32767. -/
def orderParams : RaphaelParams :=
  { Tree.params with
    PVAL := fun i => if i = 1 then 100 else if i = 2 then 98
      else if i = 3 then 32767 else 0 }

/-- The collaborators for the ordering examples: move 0 captures piece 1 with
piece 4, move 1 promotes to piece 2, move 2 promotes to piece 3, every other
move is quiet. -/
def orderExt : Ext (List Nat) Nat (Nat → List Nat) (List (Entry Nat)) Unit Unit :=
  { demoTree.ext with
    pieceFrom := fun _ m => if m = 0 then 4 else 0
    pieceTo := fun _ m => if m = 0 then 1 else 0
    isCapture := fun _ m => m == 0
    isPromotion := fun m => m == 1 || m == 2
    promotionType := fun m => if m = 1 then 2 else 3 }

/-- The fresh engine with the piece values of the ordering examples. -/
def orderState : State Nat (Nat → List Nat) (List (Entry Nat)) Unit Unit :=
  { Tree.fresh noLimits with params := orderParams }

/-- The engine of the ordering examples after move 5 was stored for the
position with hash 0. -/
def orderStored : State Nat (Nat → List Nat) (List (Entry Nat)) Unit Unit :=
  { orderState with tt := [⟨0, 1, Flag.EXACT, 5, 0⟩] }

/-- The priority `score_move` computes for a capture that is not the table
move (lines 390-401). -/
def capturePriority (X : Ext B M N T K H) (s : State M N T K H) (move : M)
    (board : B) : Int :=
  let a := wrap16 (wrap16 (|s.params.PVAL (X.pieceTo board move)|
      - Int.tmod (X.pieceFrom board move) 6)
    + (if X.goodCapture move board (-12) then 1 else 0)
      * s.params.GOOD_CAPTURE_WEIGHT)
  if X.isPromotion move then
    wrap16 (a + |s.params.PVAL (X.promotionType move)|)
  else a

/-- A table with a single slot: `get` returns whatever entry was stored last,
under whichever key; `valid` compares the entry's key with the key asked for. -/
def slotExt : Ext (List Nat) Nat (Nat → List Nat) (List (Entry Nat)) Unit Unit :=
  { demoTree.ext with ttGet := fun t _ _ => t.headD Tree.noEntry }

/-- The fresh engine after an entry with move 1 was stored for another
position, whose key is 17. -/
def slotState : State Nat (Nat → List Nat) (List (Entry Nat)) Unit Unit :=
  { Tree.fresh noLimits with tt := [⟨17, 1, Flag.EXACT, 1, 0⟩] }

/-- The table `t2` is the table `t1` after a sequence of `tt.set` calls, each
made with a ply argument of at least `p`. -/
inductive StoredFrom (X : Ext B M N T K H) (p : Nat) : T → T → Prop where
  | same (t : T) : StoredFrom X p t t
  | store (t1 t2 : T) (e : Entry M) (q : Nat) :
      StoredFrom X p t1 t2 → p ≤ q → StoredFrom X p t1 (X.ttSet t2 e (q : Int))

/-- The three-ply tree with the host setting the flag at the twelfth sample. -/
def haltTree : Tree := { demoTree with host := fun t => decide (12 ≤ t) }

/-- The fresh engine whose evaluator holds the position after root move 0. -/
def afterZero : State Nat (Nat → List Nat) (List (Entry Nat)) Unit Unit :=
  { Tree.fresh noLimits with net := fun _ => [0] }

/-- A single line of play whose value swings with the depth: 0 at depth 1,
300 at depth 2, 0 at depth 3. -/
def swingTree : Tree where
  legal b := match b with
    | [] => [0]
    | [_] => [0]
    | _ => []
  caps _ := []
  sev b side := Tree.relative b side <| match b with
    | [0, 0] => 300
    | _ => 0
  check _ := false
  clock _ := 0
  maxDepth := 6
  host _ := false

/-- The outcome of `get_move` at the root of `swingTree` with depth limit 3. -/
def swingOutcome : Outcome Nat (Nat → List Nat) (List (Entry Nat)) Unit Unit :=
  (get_move swingTree.ext 10 (Tree.fresh ⟨3, -1, -1, 0, false⟩) [] 0 0).get (by decide)

/-- An uncancelled iteration record of the swinging line, whose only root
move is 0. -/
def swingIter (depth alpha beta score : Int) : Iter Nat :=
  ⟨depth, alpha, beta, score, false, 0⟩

/-- The collaborators `X` with another `Movelist::sort`. -/
def withSort (X : Ext B M N T K H) (sort : List (M × Int) → List (M × Int)) :
    Ext B M N T K H :=
  { X with sortMoves := sort }

/-- The fresh engine after move 2 was stored for the root position. -/
def preferTwo : State Nat (Nat → List Nat) (List (Entry Nat)) Unit Unit :=
  { Tree.fresh noLimits with tt := [⟨0, 1, Flag.EXACT, 2, 0⟩] }

/-- The evaluator `n2` is the evaluator `n1` after a sequence of
`net.make_move` calls, each made with an index below `bound`. -/
inductive UpdatedBelow (X : Ext B M N T K H) (bound : Nat) : N → N → Prop where
  | same (n : N) : UpdatedBelow X bound n n
  | step (n1 n2 : N) (p : Nat) (m : M) (b : B) :
      UpdatedBelow X bound n1 n2 → p < bound →
        UpdatedBelow X bound n1 (X.make_move n2 p m b)

/-- The outcome of the `get_move` that follows the pondering. -/
def ponderHit : Outcome Nat (Nat → List Nat) (List (Entry Nat)) Unit Unit :=
  (get_move ponderTree.ext 20 ponderedReady [0] 0 0).get (by decide)

/-- What the root loop has published in `itermove` by the time it ends,
cancelled or not, when it ran over the list `ordered` in a search of depth
`d`: the head of the list, or a later move of the list whose completed score
is above `-INT_MAX` and above the completed score of every move before it. -/
def Published (X : Ext B M N T K H) (sev : B → Bool → Int) (board : B) (d : Int)
    (ordered : List M) (m : M) : Prop :=
  ordered.head? = some m
  ∨ ∃ before after, ordered = before ++ m :: after
      ∧ -INT_MAX < rootChild X sev d board m
      ∧ ∀ x ∈ before, rootChild X sev d board x < rootChild X sev d board m
/-- The fresh engine after move 0 was stored for the root position. -/
def preferZero : State Nat (Nat → List Nat) (List (Entry Nat)) Unit Unit :=
  { Tree.fresh noLimits with tt := [⟨0, 1, Flag.EXACT, 0, 0⟩] }

/-! ## Properties -/

theorem frame_refl (X : Ext B M N T K H) (s : State M N T K H) : Frame X s s :=
  ⟨rfl, rfl, rfl, rfl, rfl, rfl, rfl, rfl, rfl, rfl, id, le_rfl, le_rfl,
    fun _ _ _ h => h⟩

theorem frame_trans {X : Ext B M N T K H} {s t u : State M N T K H}
    (h1 : Frame X s t) (h2 : Frame X t u) : Frame X s u where
  searchopt := h2.searchopt.trans h1.searchopt
  params := h2.params.trans h1.params
  search_t := h2.search_t.trans h1.search_t
  killers := h2.killers.trans h1.killers
  history := h2.history.trans h1.history
  prevPlay := h2.prevPlay.trans h1.prevPlay
  consecutives := h2.consecutives.trans h1.consecutives
  ponderkey := h2.ponderkey.trans h1.ponderkey
  pondereval := h2.pondereval.trans h1.pondereval
  ponderdepth := h2.ponderdepth.trans h1.ponderdepth
  halt_mono := fun h => h2.halt_mono (h1.halt_mono h)
  tick_mono := le_trans h1.tick_mono h2.tick_mono
  nodes_mono := le_trans h1.nodes_mono h2.nodes_mono
  halt_keep := fun hh ht hn h =>
    h2.halt_keep hh (h1.search_t.trans ht) (by rw [h1.searchopt]; exact hn)
      (h1.halt_keep hh ht hn h)

theorem frame_observe (X : Ext B M N T K H) (s : State M N T K H) :
    Frame X s (observe X s) where
  searchopt := rfl
  params := rfl
  search_t := rfl
  killers := rfl
  history := rfl
  prevPlay := rfl
  consecutives := rfl
  ponderkey := rfl
  pondereval := rfl
  ponderdepth := rfl
  halt_mono := fun h => by simp [Raphael.observe, h]
  tick_mono := by simp [Raphael.observe]
  nodes_mono := le_rfl
  halt_keep := fun hh _ _ h => by simp [Raphael.observe, h, hh]

theorem frame_is_time_over (X : Ext B M N T K H) (s : State M N T K H) :
    Frame X s (is_time_over X s).2 := by
  unfold Raphael.is_time_over
  split
  · rename_i h
    refine ⟨rfl, rfl, rfl, rfl, rfl, rfl, rfl, rfl, rfl, rfl, fun _ => rfl,
      le_rfl, le_rfl, ?_⟩
    intro _ _ hn _
    exact absurd hn h.1
  · split
    · rename_i h
      split
      · refine ⟨rfl, rfl, rfl, rfl, rfl, rfl, rfl, rfl, rfl, rfl, ?_, ?_, le_rfl, ?_⟩
        · intro _; simp [Raphael.observe]
        · simp [Raphael.observe]; omega
        · intro _ ht _ _; exact absurd ht h.1
      · refine ⟨rfl, rfl, rfl, rfl, rfl, rfl, rfl, rfl, rfl, rfl, ?_, ?_, le_rfl, ?_⟩
        · intro hh; simp [Raphael.observe, hh]
        · simp [Raphael.observe]; omega
        · intro _ ht _ _; exact absurd ht h.1
    · exact frame_observe X s



theorem frame_set_net (X : Ext B M N T K H) (s : State M N T K H) (n : N) :
    Frame X s { s with net := n } :=
  ⟨rfl, rfl, rfl, rfl, rfl, rfl, rfl, rfl, rfl, rfl, id, le_rfl, le_rfl,
    fun _ _ _ h => h⟩

theorem frame_set_itermove (X : Ext B M N T K H) (s : State M N T K H) (m : M) :
    Frame X s { s with itermove := m } :=
  ⟨rfl, rfl, rfl, rfl, rfl, rfl, rfl, rfl, rfl, rfl, id, le_rfl, le_rfl,
    fun _ _ _ h => h⟩

theorem frame_set_tt (X : Ext B M N T K H) (s : State M N T K H) (t : T) :
    Frame X s { s with tt := t } :=
  ⟨rfl, rfl, rfl, rfl, rfl, rfl, rfl, rfl, rfl, rfl, id, le_rfl, le_rfl,
    fun _ _ _ h => h⟩

theorem frame_count_node (X : Ext B M N T K H) (s : State M N T K H) :
    Frame X s { s with nodes := s.nodes + 1 } :=
  ⟨rfl, rfl, rfl, rfl, rfl, rfl, rfl, rfl, rfl, rfl, id, le_rfl,
    by show s.nodes ≤ s.nodes + 1; omega, fun _ _ _ h => h⟩

theorem kept_trans {X : Ext B M N T K H} {s t u : State M N T K H}
    (h1 : Kept X s t) (h2 : Kept X t u) : Kept X s u :=
  ⟨frame_trans h1.1 h2.1, h2.2.trans h1.2⟩

theorem is_time_over_itermove (X : Ext B M N T K H) (s : State M N T K H) :
    (is_time_over X s).2.itermove = s.itermove := by
  unfold Raphael.is_time_over
  split
  · rfl
  · split
    · split <;> rfl
    · rfl

theorem quiescenceLoop_kept (X : Ext B M N T K H)
    (child : B → State M N T K H → Option (Int × B × State M N T K H))
    (hc : ∀ b t r, child b t = some r → Kept X t r.2.2) (ply : Nat)
    (moves : List M) :
    ∀ board bestEval s r,
      quiescenceLoop X child ply moves board bestEval s = some r →
        Kept X s r.2.2 := by
  induction moves with
  | nil =>
    intro board bestEval s r h
    simp only [quiescenceLoop, Option.some.injEq] at h
    subst h
    exact ⟨frame_refl X s, rfl⟩
  | cons mv rest ih =>
    intro board bestEval s r h
    simp only [quiescenceLoop] at h
    split at h
    · exact absurd h (by simp)
    · rename_i v b2 s2 hch
      have h1 : Kept X s s2 :=
        kept_trans ⟨frame_set_net X s (X.make_move s.net (ply + 1) mv board), rfl⟩
          (hc _ _ _ hch)
      have h2 : Kept X s (observe X s2) :=
        kept_trans h1 ⟨frame_observe X s2, rfl⟩
      split at h
      · simp only [Option.some.injEq] at h
        subst h
        exact h2
      · exact kept_trans h2 (ih _ _ _ _ h)

theorem quiescenceF_kept [DecidableEq M] (X : Ext B M N T K H) (fuel : Nat) :
    ∀ board ply s r, quiescenceF X fuel board ply s = some r →
      Kept X s r.2.2 := by
  induction fuel with
  | zero => intro board ply s r h; simp [quiescenceF] at h
  | succ fuel ih =>
    intro board ply s r h
    simp only [quiescenceF] at h
    have h0 : Kept X s (is_time_over X s).2 :=
      ⟨frame_is_time_over X s, is_time_over_itermove X s⟩
    rcases hto : is_time_over X s with ⟨over, s0⟩
    rw [hto] at h h0
    simp only at h h0
    split at h
    · simp only [Option.some.injEq] at h
      subst h
      exact h0
    · have h1 : Kept X s { s0 with nodes := s0.nodes + 1 } :=
        kept_trans h0 ⟨frame_count_node X s0, rfl⟩
      split at h
      · simp only [Option.some.injEq] at h
        subst h
        exact h1
      · exact kept_trans h1
          (quiescenceLoop_kept X _ (fun b t r hr => ih b (ply + 1) t r hr) ply _ _ _ _ _ h)

theorem negamaxLoop_frame (X : Ext B M N T K H)
    (child : B → State M N T K H → Option (Int × B × State M N T K H))
    (hc : ∀ b t r, child b t = some r → Kept X t r.2.2) (ply : Nat)
    (moves : List M) :
    ∀ board bestEval s r,
      negamaxLoop X child ply moves board bestEval s = some r →
        Frame X s r.2.2 ∧ (ply ≠ 0 → r.2.2.itermove = s.itermove) := by
  induction moves with
  | nil =>
    intro board bestEval s r h
    simp only [negamaxLoop, Option.some.injEq] at h
    subst h
    exact ⟨frame_refl X s, fun _ => rfl⟩
  | cons mv rest ih =>
    intro board bestEval s r h
    simp only [negamaxLoop] at h
    split at h
    · exact absurd h (by simp)
    · rename_i v b2 s2 hch
      have h1 : Kept X s s2 :=
        kept_trans ⟨frame_set_net X s (X.make_move s.net (ply + 1) mv board), rfl⟩
          (hc _ _ _ hch)
      have h2 : Kept X s (observe X s2) :=
        kept_trans h1 ⟨frame_observe X s2, rfl⟩
      split at h
      · simp only [Option.some.injEq] at h
        subst h
        exact ⟨h2.1, fun _ => h2.2⟩
      · split at h
        · obtain ⟨hf, hi⟩ := ih _ _ _ _ h
          by_cases hp : ply = 0
          · rw [if_pos hp] at hf
            exact ⟨frame_trans h2.1 (frame_trans (frame_set_itermove X _ mv) hf),
              fun hne => absurd hp hne⟩
          · rw [if_neg hp] at hf hi
            exact ⟨frame_trans h2.1 hf, fun hne => (hi hne).trans h2.2⟩
        · obtain ⟨hf, hi⟩ := ih _ _ _ _ h
          exact ⟨frame_trans h2.1 hf, fun hne => (hi hne).trans h2.2⟩

theorem negamaxF_frame [DecidableEq M] (X : Ext B M N T K H) (fuel : Nat) :
    ∀ board depth ply ext s r, negamaxF X fuel board depth ply ext s = some r →
      Frame X s r.2.2 ∧ (ply ≠ 0 → r.2.2.itermove = s.itermove) := by
  induction fuel with
  | zero => intro board depth ply ext s r h; simp [negamaxF] at h
  | succ fuel ih =>
    intro board depth ply ext s r h
    simp only [negamaxF] at h
    have h0 : Kept X s (is_time_over X s).2 :=
      ⟨frame_is_time_over X s, is_time_over_itermove X s⟩
    rcases hto : is_time_over X s with ⟨over, s0⟩
    rw [hto] at h h0
    simp only at h h0
    split at h
    · simp only [Option.some.injEq] at h
      subst h
      exact ⟨h0.1, fun _ => h0.2⟩
    · have h1 : Kept X s { s0 with nodes := s0.nodes + 1 } :=
        kept_trans h0 ⟨frame_count_node X s0, rfl⟩
      split at h
      · have := kept_trans h1 (quiescenceF_kept X _ _ _ _ _ h)
        exact ⟨this.1, fun _ => this.2⟩
      · split at h
        · simp only [Option.some.injEq] at h
          subst h
          exact ⟨h1.1, fun _ => h1.2⟩
        · split at h
          · simp only [Option.some.injEq] at h
            subst h
            exact ⟨h1.1, fun _ => h1.2⟩
          · have hc : ∀ b t r,
                negamaxF X fuel b (depth - 1) (ply + 1) ext t = some r →
                  Kept X t r.2.2 := by
              intro b t r hr
              obtain ⟨hf, hi⟩ := ih b (depth - 1) (ply + 1) ext t r hr
              exact ⟨hf, hi (by omega)⟩
            split at h
            · exact absurd h (by simp)
            · rename_i b3 s3 hl
              simp only [Option.some.injEq] at h
              subst h
              obtain ⟨hf, hi⟩ := negamaxLoop_frame X _ hc ply _ _ _ _ _ hl
              by_cases hp : ply = 0
              · rw [if_pos hp] at hf
                exact ⟨frame_trans h1.1 (frame_trans (frame_set_itermove X _ _) hf),
                  fun hne => absurd hp hne⟩
              · rw [if_neg hp] at hf hi
                exact ⟨frame_trans h1.1 hf, fun hne => (hi hne).trans h1.2⟩
            · rename_i bestEval b3 s3 hl
              simp only [Option.some.injEq] at h
              subst h
              obtain ⟨hf, hi⟩ := negamaxLoop_frame X _ hc ply _ _ _ _ _ hl
              by_cases hp : ply = 0
              · rw [if_pos hp] at hf
                exact ⟨frame_trans h1.1 (frame_trans (frame_set_itermove X _ _)
                  (frame_trans hf (frame_set_tt X _ _))), fun hne => absurd hp hne⟩
              · rw [if_neg hp] at hf hi
                exact ⟨frame_trans h1.1 (frame_trans hf (frame_set_tt X _ _)),
                  fun hne => (hi hne).trans h1.2⟩

theorem quiescenceLoop_restores (X : Ext B M N T K H)
    (hundo : ∀ b m, X.unmakeMove (X.makeMove b m) m = b)
    (child : B → State M N T K H → Option (Int × B × State M N T K H))
    (hc : Restores child) (ply : Nat) (moves : List M) :
    ∀ board bestEval s, ∃ r,
      quiescenceLoop X child ply moves board bestEval s = some r ∧ r.2.1 = board := by
  induction moves with
  | nil => intro board bestEval s; exact ⟨_, rfl, rfl⟩
  | cons mv rest ih =>
    intro board bestEval s
    obtain ⟨⟨v, b2, s2⟩, hr, hb⟩ := hc (X.makeMove board mv)
      { s with net := X.make_move s.net (ply + 1) mv board }
    simp only at hb
    subst hb
    simp only [quiescenceLoop, hr, hundo]
    split
    · exact ⟨_, rfl, rfl⟩
    · exact ih _ _ _

theorem quiescenceF_restores [DecidableEq M] (X : Ext B M N T K H)
    (hundo : ∀ b m, X.unmakeMove (X.makeMove b m) m = b) (fuel : Nat) :
    ∀ ply, ply < X.MAX_DEPTH → X.MAX_DEPTH ≤ ply + fuel → ∀ board s, ∃ r,
      quiescenceF X fuel board ply s = some r ∧ r.2.1 = board := by
  induction fuel with
  | zero => intro ply h1 h2; omega
  | succ fuel ih =>
    intro ply h1 h2 board s
    simp only [quiescenceF]
    rcases is_time_over X s with ⟨over, s0⟩
    simp only
    split
    · exact ⟨_, rfl, rfl⟩
    · split
      · exact ⟨_, rfl, rfl⟩
      · rename_i hne
        apply quiescenceLoop_restores X hundo
        intro b t
        exact ih (ply + 1) (by omega) (by omega) b t

theorem negamaxLoop_restores (X : Ext B M N T K H)
    (hundo : ∀ b m, X.unmakeMove (X.makeMove b m) m = b)
    (child : B → State M N T K H → Option (Int × B × State M N T K H))
    (hc : Restores child) (ply : Nat) (moves : List M) :
    ∀ board bestEval s, ∃ r,
      negamaxLoop X child ply moves board bestEval s = some r ∧ r.2.1 = board := by
  induction moves with
  | nil => intro board bestEval s; exact ⟨_, rfl, rfl⟩
  | cons mv rest ih =>
    intro board bestEval s
    obtain ⟨⟨v, b2, s2⟩, hr, hb⟩ := hc (X.makeMove board mv)
      { s with net := X.make_move s.net (ply + 1) mv board }
    simp only at hb
    subst hb
    simp only [negamaxLoop, hr, hundo]
    split
    · exact ⟨_, rfl, rfl⟩
    · split
      · exact ih _ _ _
      · exact ih _ _ _

theorem negamaxF_restores [DecidableEq M] (X : Ext B M N T K H)
    (hundo : ∀ b m, X.unmakeMove (X.makeMove b m) m = b) (fuel : Nat) :
    ∀ ply, ply < X.MAX_DEPTH → X.MAX_DEPTH = ply + fuel → ∀ board depth ext s,
      ∃ r, negamaxF X fuel board depth ply ext s = some r ∧ r.2.1 = board := by
  induction fuel with
  | zero => intro ply h1 h2; omega
  | succ fuel ih =>
    intro ply h1 h2 board depth ext s
    simp only [negamaxF]
    rcases is_time_over X s with ⟨over, s0⟩
    simp only
    split
    · exact ⟨_, rfl, rfl⟩
    · split
      · exact quiescenceF_restores X hundo _ ply h1 (by omega) board _
      · rename_i hne
        split
        · exact ⟨_, rfl, rfl⟩
        · split
          · exact ⟨_, rfl, rfl⟩
          · have hc : Restores
                (fun b t => negamaxF X fuel b (depth - 1) (ply + 1) ext t) := by
              intro b t
              exact ih (ply + 1) (by omega) (by omega) b (depth - 1) ext t
            obtain ⟨⟨o, b3, s3⟩, hl, hb⟩ :=
              negamaxLoop_restores X hundo _ hc ply
                (order_moves X { s0 with nodes := s0.nodes + 1 } (X.legalAll board) board ply)
                board (-INT_MAX)
                (if ply = 0 then
                  { ({ s0 with nodes := s0.nodes + 1 } : State M N T K H) with
                    itermove := (order_moves X { s0 with nodes := s0.nodes + 1 }
                      (X.legalAll board) board ply).headD X.NO_MOVE }
                 else { s0 with nodes := s0.nodes + 1 })
            simp only at hb
            subst hb
            rw [hl]
            cases o with
            | none => exact ⟨_, rfl, rfl⟩
            | some v => exact ⟨_, rfl, rfl⟩

theorem observe_halt_false (X : Ext B M N T K H) (s : State M N T K H)
    (h : (observe X s).halt = false) : s.halt = false := by
  simp only [observe, Bool.or_eq_false_iff] at h
  exact h.1

theorem ite_gt_eq_max (a b : Int) : (if a > b then a else b) = max b a := by
  split
  · rw [max_eq_right]; omega
  · rw [max_eq_left]; omega

theorem quiescenceLoop_value (X : Ext B M N T K H) (sev : B → Bool → Int)
    (Sync : N → Nat → B → Prop)
    (hundo : ∀ b m, X.unmakeMove (X.makeMove b m) m = b)
    (hT : Tracks X sev Sync) (ply : Nat) (val : B → Int)
    (child : B → State M N T K H → Option (Int × B × State M N T K H))
    (hc : ChildSpec Sync (ply + 1) val child) (moves : List M) :
    ∀ board bestEval s r, Sync s.net ply board →
      quiescenceLoop X child ply moves board bestEval s = some r →
      r.2.1 = board
        ∧ (∀ q c, q ≤ ply → Sync s.net q c → Sync r.2.2.net q c)
        ∧ (r.2.2.halt = false → r.1 = moves.foldl
            (fun acc mv => max acc (-(val (X.makeMove board mv))))
            bestEval) := by
  induction moves with
  | nil =>
    intro board bestEval s r _ h
    simp only [quiescenceLoop, Option.some.injEq] at h
    subst h
    exact ⟨rfl, fun _ _ _ h => h, fun _ => rfl⟩
  | cons mv rest ih =>
    intro board bestEval s r hs h
    simp only [quiescenceLoop] at h
    split at h
    · exact absurd h (by simp)
    · rename_i v b2 s2 hch
      obtain ⟨hb, hk, hv⟩ := hc _ _ _ (hT.step _ _ mv _ hs) hch
      simp only at hb hk hv
      subst hb
      rw [hundo] at h
      have hkeep : ∀ q c, q ≤ ply → Sync s.net q c → Sync (observe X s2).net q c :=
        fun q c hq hsq => hk q c (by omega) (hT.frame _ _ mv board q c hq hsq)
      split at h
      · rename_i hh
        simp only [Option.some.injEq] at h
        subst h
        exact ⟨rfl, hkeep, fun hf => absurd (hh.symm.trans hf) (by simp)⟩
      · rename_i hh
        have hh2 : s2.halt = false :=
          observe_halt_false X s2 (by simpa using hh)
        obtain ⟨hb3, hk3, hv3⟩ := ih _ _ _ _ (hkeep ply board le_rfl hs) h
        refine ⟨hb3, fun q c hq hsq => hk3 q c hq (hkeep q c hq hsq), ?_⟩
        intro hf
        rw [hv3 hf, hv hh2, ite_gt_eq_max]
        rfl


theorem order_moves_perm [DecidableEq M] (X : Ext B M N T K H)
    (hperm : ∀ l, (X.sortMoves l).Perm l) (s : State M N T K H)
    (movelist : List M) (board : B) (ply : Nat) :
    (order_moves X s movelist board ply).Perm movelist := by
  unfold order_moves
  have h := (hperm (movelist.map (fun m => (m, score_move X s m board ply)))).map Prod.fst
  simpa [List.map_map, Function.comp_def] using h

theorem foldl_max_perm {α : Type} (g : α → Int) {l₁ l₂ : List α}
    (h : l₁.Perm l₂) (init : Int) :
    l₁.foldl (fun acc x => max acc (g x)) init
      = l₂.foldl (fun acc x => max acc (g x)) init := by
  apply List.Perm.foldl_eq' h
  intro x _ y _ z
  simp only [max_assoc, max_comm (g x) (g y)]

theorem is_time_over_fst (X : Ext B M N T K H) (s : State M N T K H) :
    (is_time_over X s).1 = (is_time_over X s).2.halt := by
  unfold is_time_over
  split
  · rfl
  · rfl

theorem is_time_over_net (X : Ext B M N T K H) (s : State M N T K H) :
    (is_time_over X s).2.net = s.net := by
  unfold is_time_over
  split
  · rfl
  · split
    · split <;> rfl
    · rfl

theorem quiescenceF_value [DecidableEq M] (X : Ext B M N T K H)
    (sev : B → Bool → Int) (Sync : N → Nat → B → Prop)
    (hundo : ∀ b m, X.unmakeMove (X.makeMove b m) m = b)
    (hT : Tracks X sev Sync) (hperm : ∀ l, (X.sortMoves l).Perm l)
    (fuel : Nat) :
    ∀ ply, X.MAX_DEPTH = ply + fuel →
      ChildSpec Sync ply (fun b => quiescenceValue X sev (fuel - 1) b)
        (fun b t => quiescenceF X fuel b ply t) := by
  induction fuel with
  | zero => intro ply _ b t r _ h; simp [quiescenceF] at h
  | succ fuel ih =>
    intro ply hm board s r hs h
    simp only [quiescenceF] at h
    have hfst := is_time_over_fst X s
    have hnet := is_time_over_net X s
    have hfr := frame_is_time_over X s
    rcases hto : is_time_over X s with ⟨over, s0⟩
    rw [hto] at h hfst hnet hfr
    simp only at h hfst hnet hfr
    have hkeep0 : ∀ q c, q ≤ ply → Sync s.net q c → Sync s0.net q c := by
      intro q c _ hq; rw [hnet]; exact hq
    split at h
    · rename_i hover
      simp only [Option.some.injEq] at h
      subst h
      refine ⟨rfl, hkeep0, fun hf => ?_⟩
      simp only at hf
      rw [← hfst, hover] at hf
      exact absurd hf (by simp)
    · split at h
      · rename_i hceil
        simp only [Option.some.injEq] at h
        subst h
        refine ⟨rfl, hkeep0, fun _ => ?_⟩
        have hf0 : fuel = 0 := by omega
        subst hf0
        simp only [quiescenceValue, standPat, Nat.zero_add, Nat.sub_self]
        rw [hT.eval _ _ board _ (hkeep0 ply board le_rfl hs)]
      · rename_i hceil
        have hfpos : fuel = (fuel - 1) + 1 := by omega
        obtain ⟨hb, hk, hv⟩ :=
          quiescenceLoop_value X sev Sync hundo hT ply _ _
            (ih (ply + 1) (by omega)) _ board _ { s0 with nodes := s0.nodes + 1 } r
            (hkeep0 ply board le_rfl hs) h
        refine ⟨hb, fun q c hq hsq => hk q c hq (hkeep0 q c hq hsq), ?_⟩
        intro hf
        rw [hv hf]
        simp only [Nat.add_sub_cancel]
        conv_rhs => rw [hfpos, quiescenceValue]
        rw [foldl_max_perm _ (order_moves_perm X hperm _ _ board ply)]
        simp only [standPat]
        rw [hT.eval _ _ board _ (hkeep0 ply board le_rfl hs)]


theorem negamaxLoop_value (X : Ext B M N T K H) (sev : B → Bool → Int)
    (Sync : N → Nat → B → Prop)
    (hundo : ∀ b m, X.unmakeMove (X.makeMove b m) m = b)
    (hT : Tracks X sev Sync) (ply : Nat) (val : B → Int)
    (child : B → State M N T K H → Option (Int × B × State M N T K H))
    (hc : ChildSpec Sync (ply + 1) val child) (moves : List M) :
    ∀ board bestEval s r, Sync s.net ply board →
      negamaxLoop X child ply moves board bestEval s = some r →
      r.2.1 = board
        ∧ (∀ q c, q ≤ ply → Sync s.net q c → Sync r.2.2.net q c)
        ∧ (r.2.2.halt = false → r.1 = some (moves.foldl
            (fun acc mv => max acc (-(val (X.makeMove board mv))))
            bestEval)) := by
  induction moves with
  | nil =>
    intro board bestEval s r _ h
    simp only [negamaxLoop, Option.some.injEq] at h
    subst h
    exact ⟨rfl, fun _ _ _ h => h, fun _ => rfl⟩
  | cons mv rest ih =>
    intro board bestEval s r hs h
    simp only [negamaxLoop] at h
    split at h
    · exact absurd h (by simp)
    · rename_i v b2 s2 hch
      obtain ⟨hb, hk, hv⟩ := hc _ _ _ (hT.step _ _ mv _ hs) hch
      simp only at hb hk hv
      subst hb
      rw [hundo] at h
      have hkeep : ∀ q c, q ≤ ply → Sync s.net q c → Sync (observe X s2).net q c :=
        fun q c hq hsq => hk q c (by omega) (hT.frame _ _ mv board q c hq hsq)
      split at h
      · rename_i hh
        simp only [Option.some.injEq] at h
        subst h
        exact ⟨rfl, hkeep, fun hf => absurd (hh.symm.trans hf) (by simp)⟩
      · rename_i hh
        have hh2 : s2.halt = false :=
          observe_halt_false X s2 (by simpa using hh)
        split at h
        · rename_i hgt
          have hs3 : Sync (if ply = 0 then { observe X s2 with itermove := mv }
              else observe X s2).net ply board := by
            split
            · exact hkeep ply board le_rfl hs
            · exact hkeep ply board le_rfl hs
          have hn3 : (if ply = 0 then { observe X s2 with itermove := mv }
              else observe X s2).net = (observe X s2).net := by
            split <;> rfl
          obtain ⟨hb3, hk3, hv3⟩ := ih _ _ _ _ hs3 h
          refine ⟨hb3, fun q c hq hsq => hk3 q c hq
            (by rw [hn3]; exact hkeep q c hq hsq), ?_⟩
          intro hf
          rw [hv3 hf]
          simp only [List.foldl_cons]
          rw [max_eq_right (by rw [← hv hh2]; omega), hv hh2]
        · rename_i hgt
          obtain ⟨hb3, hk3, hv3⟩ := ih _ _ _ _ (hkeep ply board le_rfl hs) h
          refine ⟨hb3, fun q c hq hsq => hk3 q c hq (hkeep q c hq hsq), ?_⟩
          intro hf
          rw [hv3 hf]
          simp only [List.foldl_cons]
          rw [max_eq_left (by rw [← hv hh2]; omega)]


theorem negamaxF_value [DecidableEq M] (X : Ext B M N T K H)
    (sev : B → Bool → Int) (Sync : N → Nat → B → Prop)
    (hundo : ∀ b m, X.unmakeMove (X.makeMove b m) m = b)
    (hT : Tracks X sev Sync) (hperm : ∀ l, (X.sortMoves l).Perm l)
    (fuel : Nat) :
    ∀ ply, X.MAX_DEPTH = ply + fuel → ∀ depth ext,
      ChildSpec Sync ply (fun b => negamaxValue X sev (fuel - 1) depth ply b)
        (fun b t => negamaxF X fuel b depth ply ext t) := by
  induction fuel with
  | zero => intro ply _ depth ext b t r _ h; simp [negamaxF] at h
  | succ fuel ih =>
    intro ply hm depth ext board s r hs h
    simp only [negamaxF] at h
    have hfst := is_time_over_fst X s
    have hnet := is_time_over_net X s
    have hfr := frame_is_time_over X s
    rcases hto : is_time_over X s with ⟨over, s0⟩
    rw [hto] at h hfst hnet hfr
    simp only at h hfst hnet hfr
    have hkeep0 : ∀ q c, q ≤ ply → Sync s.net q c → Sync s0.net q c := by
      intro q c _ hq; rw [hnet]; exact hq
    split at h
    · rename_i hover
      simp only [Option.some.injEq] at h
      subst h
      refine ⟨rfl, hkeep0, fun hf => ?_⟩
      simp only at hf
      rw [← hfst, hover] at hf
      exact absurd hf (by simp)
    · split at h
      · rename_i hq
        have hmd : X.MAX_DEPTH - ply = fuel + 1 := by omega
        simp only [quiescence, hmd] at h
        obtain ⟨hb, hk, hv⟩ :=
          quiescenceF_value X sev Sync hundo hT hperm (fuel + 1) ply hm board
            { s0 with nodes := s0.nodes + 1 } r (hkeep0 ply board le_rfl hs) h
        refine ⟨hb, fun q c hq hsq => hk q c hq (hkeep0 q c hq hsq), ?_⟩
        intro hf
        rw [hv hf]
        simp only [Nat.add_sub_cancel]
        cases fuel with
        | zero => simp only [quiescenceValue, negamaxValue]
        | succ k =>
          have hd : depth ≤ 0 := by
            rcases hq with hq | hq
            · exact hq
            · omega
          simp only [negamaxValue, hd, if_true]
      · rename_i hq
        have hd : ¬ depth ≤ 0 := fun hd => hq (Or.inl hd)
        have hfpos : fuel = (fuel - 1) + 1 := by
          have : ¬ ((ply : Int) = (X.MAX_DEPTH : Int) - 1) := fun hc => hq (Or.inr hc)
          omega
        split at h
        · rename_i hrep
          simp only [Option.some.injEq] at h
          subst h
          refine ⟨rfl, hkeep0, fun _ => ?_⟩
          simp only [Nat.add_sub_cancel]
          rw [hfpos]
          simp only [negamaxValue]
          rw [if_neg hd, if_pos hrep]
        · rename_i hrep
          split at h
          · rename_i hemp
            simp only [Option.some.injEq] at h
            subst h
            refine ⟨rfl, hkeep0, fun _ => ?_⟩
            simp only [Nat.add_sub_cancel]
            rw [hfpos]
            simp only [negamaxValue]
            rw [if_neg hd, if_neg hrep, if_pos hemp]
          · rename_i hemp
            have hs2 : Sync (if ply = 0 then
                  { ({ s0 with nodes := s0.nodes + 1 } : State M N T K H) with
                    itermove := (order_moves X { s0 with nodes := s0.nodes + 1 }
                      (X.legalAll board) board ply).headD X.NO_MOVE }
                 else { s0 with nodes := s0.nodes + 1 }).net ply board := by
              split
              · exact hkeep0 ply board le_rfl hs
              · exact hkeep0 ply board le_rfl hs
            have hn2 : (if ply = 0 then
                  { ({ s0 with nodes := s0.nodes + 1 } : State M N T K H) with
                    itermove := (order_moves X { s0 with nodes := s0.nodes + 1 }
                      (X.legalAll board) board ply).headD X.NO_MOVE }
                 else { s0 with nodes := s0.nodes + 1 }).net = s0.net := by
              split <;> rfl
            have hval : ∀ (o : Option Int) (b3 : B) (s3 : State M N T K H),
                negamaxLoop X (fun b t => negamaxF X fuel b (depth - 1) (ply + 1) ext t)
                  ply (order_moves X { s0 with nodes := s0.nodes + 1 }
                      (X.legalAll board) board ply) board (-INT_MAX)
                  (if ply = 0 then
                    { ({ s0 with nodes := s0.nodes + 1 } : State M N T K H) with
                      itermove := (order_moves X { s0 with nodes := s0.nodes + 1 }
                        (X.legalAll board) board ply).headD X.NO_MOVE }
                   else { s0 with nodes := s0.nodes + 1 }) = some (o, b3, s3) →
                b3 = board
                  ∧ (∀ q c, q ≤ ply → Sync s.net q c → Sync s3.net q c)
                  ∧ (s3.halt = false → o = some
                      (negamaxValue X sev fuel depth ply board)) := by
              intro o b3 s3 hl
              obtain ⟨hb, hk, hv⟩ :=
                negamaxLoop_value X sev Sync hundo hT ply _ _
                  (ih (ply + 1) (by omega) (depth - 1) ext) _ board _ _ _ hs2 hl
              refine ⟨hb, fun q c hq hsq => hk q c hq
                (by rw [hn2]; exact hkeep0 q c hq hsq), ?_⟩
              intro hf
              have hv2 := hv hf
              simp only at hv2
              rw [hv2]
              conv_rhs => rw [hfpos, negamaxValue]
              rw [if_neg hd, if_neg hrep, if_neg hemp]
              rw [foldl_max_perm _ (order_moves_perm X hperm _ _ board ply)]
            split at h
            · exact absurd h (by simp)
            · rename_i b3 s3 hl
              simp only [Option.some.injEq] at h
              subst h
              obtain ⟨hb, hk, hv⟩ := hval _ _ _ hl
              refine ⟨hb, hk, fun hf => ?_⟩
              have := hv hf
              exact absurd this (by simp)
            · rename_i bestEval b3 s3 hl
              simp only [Option.some.injEq] at h
              subst h
              obtain ⟨hb, hk, hv⟩ := hval _ _ _ hl
              refine ⟨hb, hk, fun hf => ?_⟩
              have := hv hf
              simp only [Option.some.injEq] at this
              simpa using this

theorem tree_undo (G : Tree) (b : List Nat) (m : Nat) :
    G.ext.unmakeMove (G.ext.makeMove b m) m = b := rfl

theorem tree_tracks (G : Tree) : Tracks G.ext G.sev Tree.sync where
  eval := by
    intro n p b side h
    show G.sev (n p) side = G.sev b side
    rw [h]
  step := by
    intro n p m b _
    show (if p + 1 = p + 1 then m :: b else n (p + 1)) = m :: b
    simp
  frame := by
    intro n p m b q c hq h
    show (if q = p + 1 then m :: b else n q) = c
    rw [if_neg (by omega)]
    exact h
  init := by
    intro n b
    show (if (0 : Nat) = 0 then b else n 0) = b
    simp

theorem tree_sort_perm (G : Tree) (l : List (Nat × Int)) :
    (G.ext.sortMoves l).Perm l :=
  List.perm_insertionSort _ l

/-- C3 as stated fails: at depth budget 0 the call on a checkmated position
is not cancelled and returns the standing-pat value 7 of quiescence, not
`-MATE_EVAL + ply = -100000`. -/
theorem terminal_scoring_counterexample :
    (negamax matedTree.ext [] 0 0 0 (Tree.fresh noLimits)).map
        (fun r => (r.1, r.2.2.halt)) = some (7, false)
    ∧ matedTree.ext.legalAll [] = []
    ∧ matedTree.ext.inCheck [] = true
    ∧ -matedTree.ext.MATE_EVAL + ((0 : Nat) : Int) = -100000 := by
  decide

/-- C3 (terminal scoring, amended): on a position without legal moves, with a
depth budget of at least 1, below the ply ceiling, and at the root or at a
position that is neither a repetition nor a half-move draw, `negamax` returns,
and when it was not cancelled the score is `-MATE_EVAL + ply` if the side to
move is in check and `0` otherwise. -/
theorem terminal_scoring [DecidableEq M] (X : Ext B M N T K H) (board : B)
    (depth : Int) (ply : Nat) (ext : Int) (s : State M N T K H)
    (hdepth : 1 ≤ depth) (hply : ply + 1 < X.MAX_DEPTH)
    (hroot : ply = 0 ∨ (X.isRepetition board = false ∧ X.isHalfMoveDraw board = false))
    (hnone : X.legalAll board = []) :
    ∃ r, negamax X board depth ply ext s = some r ∧ r.2.1 = board
      ∧ (r.2.2.halt = false →
          r.1 = if X.inCheck board then -X.MATE_EVAL + ply else 0) := by
  obtain ⟨k, hk⟩ : ∃ k, X.MAX_DEPTH - ply = k + 1 := ⟨X.MAX_DEPTH - ply - 1, by omega⟩
  simp only [negamax, hk, negamaxF]
  have hfst := is_time_over_fst X s
  rcases hto : is_time_over X s with ⟨over, s0⟩
  rw [hto] at hfst
  simp only at hfst ⊢
  split
  · rename_i hover
    refine ⟨_, rfl, rfl, fun hf => ?_⟩
    simp only at hf
    rw [← hfst, hover] at hf
    exact absurd hf (by simp)
  · rw [if_neg (by omega), if_neg (by
      rcases hroot with h | ⟨h1, h2⟩
      · simp [h]
      · simp [h1, h2]), hnone]
    exact ⟨_, rfl, rfl, fun _ => rfl⟩

/-- C3 (amended), witnessed on the checkmated root at depth 1. -/
theorem terminal_scoring_witness :
    (1 : Int) ≤ 1 ∧ 0 + 1 < matedTree.ext.MAX_DEPTH
    ∧ matedTree.ext.legalAll [] = []
    ∧ ∃ r, negamax matedTree.ext [] 1 0 0 (Tree.fresh noLimits) = some r
        ∧ r.2.1 = []
        ∧ (r.2.2.halt = false →
            r.1 = if matedTree.ext.inCheck [] then
              -matedTree.ext.MATE_EVAL + ((0 : Nat) : Int) else 0) :=
  ⟨by decide, by decide, rfl,
    terminal_scoring matedTree.ext [] 1 0 0 (Tree.fresh noLimits) (by decide)
      (by decide) (Or.inl rfl) rfl⟩


theorem negamaxValue_leaf (X : Ext B M N T K H) (sev : B → Bool → Int)
    (k : Nat) (depth : Int) (ply : Nat) (b : B) (hd : depth ≤ 0) :
    negamaxValue X sev k depth ply b = quiescenceValue X sev k b := by
  cases k with
  | zero => simp only [negamaxValue, quiescenceValue]
  | succ k => simp only [negamaxValue, hd, if_true]

/-- C4 as stated fails: with root moves 0 and 1 the negated static evaluations
of the two children, each for its side to move, are 5 and -2, so the best
immediate static evaluation is 5, but the uncancelled depth-1 call returns -2,
because quiescence on the first child follows the capture that refutes it. -/
theorem depth_one_counterexample :
    (negamax captureTree.ext [] 1 0 0 (Tree.fresh noLimits)).map
        (fun r => (r.1, r.2.2.halt)) = some (-2, false)
    ∧ captureTree.ext.legalAll [] = [0, 1]
    ∧ (captureTree.ext.legalAll []).map
        (fun m => -(captureTree.sev (captureTree.ext.makeMove [] m)
          (captureTree.ext.whiteturn (captureTree.ext.makeMove [] m)))) = [5, -2] := by
  decide

/-- C4 (depth-1 exhaustiveness, amended): for a position with at least one
legal move, below the ply ceiling, at the root or not a repetition or
half-move draw, `negamax` with depth 1 returns, and when it was not cancelled
the score is the maximum (starting from `-INT_MAX`) over all legal moves of the
negated quiescence value of the position reached by the move: the standing
pat for the side to move there, scaled by the half-move clock, raised by the
capture lines. -/
theorem depth_one_value [DecidableEq M] (X : Ext B M N T K H)
    (sev : B → Bool → Int) (Sync : N → Nat → B → Prop)
    (hundo : ∀ b m, X.unmakeMove (X.makeMove b m) m = b)
    (hT : Tracks X sev Sync) (hperm : ∀ l, (X.sortMoves l).Perm l)
    (board : B) (ply : Nat) (ext : Int) (s : State M N T K H)
    (hply : ply + 1 < X.MAX_DEPTH)
    (hroot : ply = 0 ∨ (X.isRepetition board = false ∧ X.isHalfMoveDraw board = false))
    (hlegal : X.legalAll board ≠ []) (hs : Sync s.net ply board) :
    ∃ r, negamax X board 1 ply ext s = some r
      ∧ (r.2.2.halt = false →
          r.1 = (X.legalAll board).foldl
            (fun acc mv => max acc
              (-(quiescenceValue X sev (X.MAX_DEPTH - ply - 2)
                  (X.makeMove board mv))))
            (-INT_MAX)) := by
  obtain ⟨r, hr, _⟩ := negamaxF_restores X hundo (X.MAX_DEPTH - ply) ply
    (by omega) (by omega) board 1 ext s
  refine ⟨r, hr, fun hf => ?_⟩
  obtain ⟨_, _, hv⟩ := negamaxF_value X sev Sync hundo hT hperm
    (X.MAX_DEPTH - ply) ply (by omega) 1 ext board s r hs hr
  rw [hv hf]
  obtain ⟨k, hk⟩ : ∃ k, X.MAX_DEPTH - ply - 1 = k + 1 :=
    ⟨X.MAX_DEPTH - ply - 2, by omega⟩
  have hk2 : X.MAX_DEPTH - ply - 2 = k := by omega
  simp only [hk, hk2, negamaxValue]
  rw [if_neg (by omega), if_neg (by
      rcases hroot with h | ⟨h1, h2⟩
      · simp [h]
      · simp [h1, h2]), if_neg (by simpa using hlegal)]
  congr 1
  funext acc mv
  rw [negamaxValue_leaf X sev k (1 - 1) (ply + 1) _ (by omega)]

/-- C4 (amended), witnessed on the capture tree: the depth-1 value is the
maximum of the negated quiescence values. -/
theorem depth_one_value_witness :
    (∀ b m, captureTree.ext.unmakeMove (captureTree.ext.makeMove b m) m = b)
    ∧ 0 + 1 < captureTree.ext.MAX_DEPTH
    ∧ captureTree.ext.legalAll [] ≠ []
    ∧ Tree.sync (Tree.fresh noLimits).net 0 []
    ∧ ∃ r, negamax captureTree.ext [] 1 0 0 (Tree.fresh noLimits) = some r
      ∧ (r.2.2.halt = false →
          r.1 = (captureTree.ext.legalAll []).foldl
            (fun acc mv => max acc
              (-(quiescenceValue captureTree.ext captureTree.sev
                  (captureTree.ext.MAX_DEPTH - 0 - 2)
                  (captureTree.ext.makeMove [] mv))))
            (-INT_MAX)) :=
  ⟨tree_undo captureTree, by decide, by decide, rfl,
    depth_one_value captureTree.ext captureTree.sev Tree.sync
      (tree_undo captureTree) (tree_tracks captureTree)
      (tree_sort_perm captureTree) [] 0 0 (Tree.fresh noLimits) (by decide)
      (Or.inl rfl) (by decide) rfl⟩

theorem quiescenceLoop_returns (X : Ext B M N T K H)
    (child : B → State M N T K H → Option (Int × B × State M N T K H))
    (hc : Returns child) (ply : Nat) (moves : List M) :
    ∀ board bestEval s, ∃ r,
      quiescenceLoop X child ply moves board bestEval s = some r := by
  induction moves with
  | nil => intro board bestEval s; exact ⟨_, rfl⟩
  | cons mv rest ih =>
    intro board bestEval s
    obtain ⟨⟨v, b2, s2⟩, hr⟩ := hc (X.makeMove board mv)
      { s with net := X.make_move s.net (ply + 1) mv board }
    simp only [quiescenceLoop, hr]
    split
    · exact ⟨_, rfl⟩
    · exact ih _ _ _

theorem quiescenceF_returns [DecidableEq M] (X : Ext B M N T K H) (fuel : Nat) :
    ∀ ply, ply < X.MAX_DEPTH → X.MAX_DEPTH ≤ ply + fuel → ∀ board s, ∃ r,
      quiescenceF X fuel board ply s = some r := by
  induction fuel with
  | zero => intro ply h1 h2; omega
  | succ fuel ih =>
    intro ply h1 h2 board s
    simp only [quiescenceF]
    rcases is_time_over X s with ⟨over, s0⟩
    simp only
    split
    · exact ⟨_, rfl⟩
    · split
      · exact ⟨_, rfl⟩
      · apply quiescenceLoop_returns X
        intro b t
        exact ih (ply + 1) (by omega) (by omega) b t

theorem negamaxLoop_returns (X : Ext B M N T K H)
    (child : B → State M N T K H → Option (Int × B × State M N T K H))
    (hc : Returns child) (ply : Nat) (moves : List M) :
    ∀ board bestEval s, ∃ r,
      negamaxLoop X child ply moves board bestEval s = some r := by
  induction moves with
  | nil => intro board bestEval s; exact ⟨_, rfl⟩
  | cons mv rest ih =>
    intro board bestEval s
    obtain ⟨⟨v, b2, s2⟩, hr⟩ := hc (X.makeMove board mv)
      { s with net := X.make_move s.net (ply + 1) mv board }
    simp only [negamaxLoop, hr]
    split
    · exact ⟨_, rfl⟩
    · split
      · exact ih _ _ _
      · exact ih _ _ _

theorem negamaxF_returns [DecidableEq M] (X : Ext B M N T K H) (fuel : Nat) :
    ∀ ply, ply < X.MAX_DEPTH → X.MAX_DEPTH = ply + fuel → ∀ board depth ext s,
      ∃ r, negamaxF X fuel board depth ply ext s = some r := by
  induction fuel with
  | zero => intro ply h1 h2; omega
  | succ fuel ih =>
    intro ply h1 h2 board depth ext s
    simp only [negamaxF]
    rcases is_time_over X s with ⟨over, s0⟩
    simp only
    split
    · exact ⟨_, rfl⟩
    · split
      · exact quiescenceF_returns X _ ply h1 (by omega) board _
      · split
        · exact ⟨_, rfl⟩
        · split
          · exact ⟨_, rfl⟩
          · have hc : Returns
                (fun b t => negamaxF X fuel b (depth - 1) (ply + 1) ext t) := by
              intro b t
              exact ih (ply + 1) (by omega) (by omega) b (depth - 1) ext t
            obtain ⟨⟨o, b3, s3⟩, hl⟩ :=
              negamaxLoop_returns X _ hc ply
                (order_moves X { s0 with nodes := s0.nodes + 1 } (X.legalAll board) board ply)
                board (-INT_MAX)
                (if ply = 0 then
                  { ({ s0 with nodes := s0.nodes + 1 } : State M N T K H) with
                    itermove := (order_moves X { s0 with nodes := s0.nodes + 1 }
                      (X.legalAll board) board ply).headD X.NO_MOVE }
                 else { s0 with nodes := s0.nodes + 1 })
            rw [hl]
            cases o with
            | none => exact ⟨_, rfl⟩
            | some v => exact ⟨_, rfl⟩

theorem negamax_returns [DecidableEq M] (X : Ext B M N T K H)
    (hpos : 0 < X.MAX_DEPTH) (board : B) (depth : Int) (ext : Int)
    (s : State M N T K H) : ∃ r, negamax X board depth 0 ext s = some r :=
  negamaxF_returns X (X.MAX_DEPTH - 0) 0 hpos (by omega) board depth ext s

theorem start_search_timer_frame (X : Ext B M N T K H) (s : State M N T K H)
    (board : B) (t_remain t_inc : Int) :
    (start_search_timer X s board t_remain t_inc).itermove = s.itermove
    ∧ (start_search_timer X s board t_remain t_inc).nodes = s.nodes
    ∧ (start_search_timer X s board t_remain t_inc).searchopt = s.searchopt
    ∧ (start_search_timer X s board t_remain t_inc).net = s.net
    ∧ (start_search_timer X s board t_remain t_inc).tt = s.tt
    ∧ (start_search_timer X s board t_remain t_inc).halt = s.halt
    ∧ (start_search_timer X s board t_remain t_inc).params = s.params
    ∧ (start_search_timer X s board t_remain t_inc).killers = s.killers
    ∧ (start_search_timer X s board t_remain t_inc).consecutives = s.consecutives := by
  unfold start_search_timer
  split
  · exact ⟨rfl, rfl, rfl, rfl, rfl, rfl, rfl, rfl, rfl⟩
  · split
    · exact ⟨rfl, rfl, rfl, rfl, rfl, rfl, rfl, rfl, rfl⟩
    · exact ⟨rfl, rfl, rfl, rfl, rfl, rfl, rfl, rfl, rfl⟩

theorem get_move_pass_break [DecidableEq M] (X : Ext B M N T K H) (board : B)
    (l : Loop M N T K H) (hne : l.st.searchopt.maxdepth ≠ -1)
    (hgt : l.depth > l.st.searchopt.maxdepth) :
    get_move_pass X board l = some (Pass.leave l.st.itermove (observe X l.st) none) := by
  simp only [get_move_pass]
  by_cases h1 : (observe X l.st).halt = true ∨ ¬ l.depth ≤ (X.MAX_DEPTH : Int)
  · rw [if_pos h1]
    rfl
  · rw [if_neg h1, if_pos ⟨hne, hgt⟩]
    rfl

/-- C9 as stated fails: with a depth ceiling of 0 `get_move` returns without
a single `negamax` or `quiescence` call (no iteration is recorded and the node
counter is still 0) and hands back `NO_MOVE` (99 here). -/
theorem zero_depth_counterexample :
    (get_move demoTree.ext 5 (Tree.fresh ⟨0, -1, -1, 0, false⟩) [] 0 0).map
        (fun o => (o.move, o.iters.length, o.st.nodes, o.st.halt))
      = some (99, 0, 0, false)
    ∧ demoTree.ext.NO_MOVE = 99 := by
  decide

/-- C9 (zero depth ceiling, amended): with a depth ceiling of 0 a `get_move`
that is not a ponder hit does not fail, but it evaluates nothing: the guard of
line 73 leaves the loop before the first `negamax` call, so no iteration is
run, the node counter is 0, the table is untouched, the evaluator has only
been told the root position, and the move returned is `NO_MOVE`. -/
theorem zero_depth_ceiling [DecidableEq M] (X : Ext B M N T K H) (fuel : Nat)
    (s : State M N T K H) (board : B) (t_remain t_inc : Int)
    (hmax : s.searchopt.maxdepth = 0) (hmiss : X.hash board ≠ s.ponderkey) :
    ∃ o, get_move X (fuel + 1) s board t_remain t_inc = some o
      ∧ o.iters = [] ∧ o.move = X.NO_MOVE ∧ o.st.nodes = 0
      ∧ o.st.tt = s.tt ∧ o.st.net = X.set_board s.net board := by
  obtain ⟨h1, h2, h3, h4, h5, _⟩ := start_search_timer_frame X
    { s with history := X.historyClear s.history, net := X.set_board s.net board,
             itermove := X.NO_MOVE, prevPlay := X.NO_MOVE, consecutives := 1,
             nodes := 0 } board t_remain t_inc
  simp only [get_move, get_move_init, get_move_loop]
  rw [if_pos hmiss, get_move_pass_break X board _ (by
      show (start_search_timer X _ board t_remain t_inc).searchopt.maxdepth ≠ -1
      rw [h3]
      show s.searchopt.maxdepth ≠ -1
      rw [hmax]
      decide) (by
      show (1 : Int) > (start_search_timer X _ board t_remain t_inc).searchopt.maxdepth
      rw [h3]
      show (1 : Int) > s.searchopt.maxdepth
      rw [hmax]
      decide)]
  exact ⟨_, rfl, rfl, h1, h2, h5, h4⟩

/-- C9 (amended), witnessed on the three-ply tree with ceiling 0. -/
theorem zero_depth_ceiling_witness :
    (⟨0, -1, -1, 0, false⟩ : SearchOptions).maxdepth = 0
    ∧ demoTree.ext.hash [] ≠ (Tree.fresh ⟨0, -1, -1, 0, false⟩).ponderkey
    ∧ ∃ o, get_move demoTree.ext (4 + 1) (Tree.fresh ⟨0, -1, -1, 0, false⟩) [] 0 0
          = some o
        ∧ o.iters = [] ∧ o.move = demoTree.ext.NO_MOVE ∧ o.st.nodes = 0
        ∧ o.st.tt = (Tree.fresh ⟨0, -1, -1, 0, false⟩).tt
        ∧ o.st.net = demoTree.ext.set_board (Tree.fresh ⟨0, -1, -1, 0, false⟩).net [] :=
  ⟨rfl, by decide,
    zero_depth_ceiling demoTree.ext 4 (Tree.fresh ⟨0, -1, -1, 0, false⟩) [] 0 0
      rfl (by decide)⟩

theorem countConsecutive_frame [DecidableEq M] (s : State M N T K H) :
    (countConsecutive s).ponderkey = s.ponderkey
    ∧ (countConsecutive s).itermove = s.itermove
    ∧ (countConsecutive s).halt = s.halt
    ∧ (countConsecutive s).searchopt = s.searchopt
    ∧ (countConsecutive s).params = s.params
    ∧ (countConsecutive s).search_t = s.search_t
    ∧ (countConsecutive s).killers = s.killers
    ∧ (countConsecutive s).net = s.net
    ∧ ((countConsecutive s).consecutives = s.consecutives + 1
        ∨ (countConsecutive s).consecutives = 1) := by
  unfold countConsecutive
  split
  · exact ⟨rfl, rfl, rfl, rfl, rfl, rfl, rfl, rfl, Or.inl rfl⟩
  · exact ⟨rfl, rfl, rfl, rfl, rfl, rfl, rfl, rfl, Or.inr rfl⟩

theorem ponderOutcome_push_some {it : Iter M} {x : Option (PonderOutcome M N T K H)}
    {po : PonderOutcome M N T K H} (h : PonderOutcome.push it x = some po) :
    ∃ o, x = some o ∧ po.st = o.st := by
  cases x with
  | none => simp [PonderOutcome.push] at h
  | some o =>
    simp only [PonderOutcome.push, Option.some.injEq] at h
    subst h
    exact ⟨o, rfl, rfl⟩

theorem ponder_loop_ponderkey [DecidableEq M] (X : Ext B M N T K H) (fuel : Nat) :
    ∀ board alpha beta s po, ponder_loop X fuel board alpha beta s = some po →
      po.st.ponderkey = s.ponderkey := by
  induction fuel with
  | zero => intro board alpha beta s po h; simp [ponder_loop] at h
  | succ fuel ih =>
    intro board alpha beta s po h
    simp only [ponder_loop] at h
    split at h
    · simp only [Option.some.injEq] at h
      subst h
      rfl
    · split at h
      · exact absurd h (by simp)
      · rename_i itereval b2 s2 hn
        have hk2 : s2.ponderkey = s.ponderkey :=
          (negamaxF_frame X _ _ _ _ _ _ _ hn).1.ponderkey
        split at h
        · split at h
          · obtain ⟨o, ho, hst⟩ := ponderOutcome_push_some h
            rw [hst, ih _ _ _ _ _ ho]
            exact hk2
          · split at h
            · simp only [Option.some.injEq] at h
              subst h
              exact (countConsecutive_frame _).1.trans hk2
            · obtain ⟨o, ho, hst⟩ := ponderOutcome_push_some h
              rw [hst, ih _ _ _ _ _ ho]
              exact (countConsecutive_frame _).1.trans hk2
        · split at h
          · simp only [Option.some.injEq] at h
            subst h
            exact hk2
          · obtain ⟨o, ho, hst⟩ := ponderOutcome_push_some h
            rw [hst, ih _ _ _ _ _ ho]
            exact hk2

theorem ponder_ponderkey [DecidableEq M] (X : Ext B M N T K H) (fuel : Nat)
    (s : State M N T K H) (P : B) (po : PonderOutcome M N T K H)
    (hponder : ponder X fuel s P = some po)
    (hvalid : X.ttValid s.tt (X.ttGet s.tt (X.hash P) 0) (X.hash P) 0 = true)
    (hrun : s.halt = false ∧ X.hostHalt s.tick = false) :
    po.st.ponderkey = X.hash (X.makeMove P (X.ttGet s.tt (X.hash P) 0).move) := by
  simp only [ponder] at hponder
  rw [if_neg (by
    simp only [observe, hrun.1, hrun.2, hvalid]
    simp)] at hponder
  exact ponder_loop_ponderkey X fuel _ _ _ _ _ hponder

theorem get_move_after_iter [DecidableEq M] (X : Ext B M N T K H)
    (l : Loop M N T K H) (v : Int) (b2 : B) (s2 : State M N T K H) :
    (get_move_after X l v b2 s2).iter
      = some { depth := l.depth, alpha := l.alpha, beta := l.beta, score := v,
               halted := (observe X s2).halt, itermove := (observe X s2).itermove } := by
  simp only [get_move_after]
  split
  · split
    · rfl
    · split <;> rfl
  · split <;> rfl

theorem get_move_pass_cases [DecidableEq M] (X : Ext B M N T K H) (board : B)
    (l : Loop M N T K H) (p : Pass B M N T K H)
    (hp : get_move_pass X board l = some p) :
    p = Pass.leave l.st.itermove (observe X l.st) none
    ∨ ((observe X l.st).halt = false ∧ l.depth ≤ (X.MAX_DEPTH : Int)
        ∧ (l.st.searchopt.maxdepth = -1 ∨ l.depth ≤ l.st.searchopt.maxdepth)
        ∧ ∃ v b2 s2,
          negamax X board l.depth 0
            (skipIfStable l.eval (observe X l.st)).params.MAX_EXTENSIONS
            (skipIfStable l.eval (observe X l.st)) = some (v, b2, s2)
          ∧ p = get_move_after X l v b2 s2) := by
  simp only [get_move_pass] at hp
  split at hp
  · simp only [Option.some.injEq] at hp
    exact Or.inl hp.symm
  · rename_i h1
    split at hp
    · simp only [Option.some.injEq] at hp
      exact Or.inl hp.symm
    · rename_i h2
      split at hp
      · exact absurd hp (by simp)
      · rename_i v b2 s2 hn
        simp only [Option.some.injEq] at hp
        refine Or.inr ⟨by simpa using (not_or.mp h1).1, by
          have := (not_or.mp h1).2
          simpa using this, ?_, v, b2, s2, hn, hp.symm⟩
        by_cases hm : l.st.searchopt.maxdepth = -1
        · exact Or.inl hm
        · right
          have h3 : ¬ (l.st.searchopt.maxdepth ≠ -1 ∧ l.depth > l.st.searchopt.maxdepth) := h2
          have : ¬ l.depth > l.st.searchopt.maxdepth := fun hgt => h3 ⟨hm, hgt⟩
          omega

theorem get_move_pass_iter [DecidableEq M] (X : Ext B M N T K H) (board : B)
    (l : Loop M N T K H) (p : Pass B M N T K H) (it : Iter M)
    (hp : get_move_pass X board l = some p) (hit : p.iter = some it) :
    it.depth = l.depth ∧ it.alpha = l.alpha ∧ it.beta = l.beta := by
  rcases get_move_pass_cases X board l p hp with h | ⟨_, _, _, v, b2, s2, _, h⟩
  · subst h
    simp [Pass.iter] at hit
  · subst h
    rw [get_move_after_iter] at hit
    simp only [Option.some.injEq] at hit
    subst hit
    exact ⟨rfl, rfl, rfl⟩

theorem get_move_pass_calls [DecidableEq M] (X : Ext B M N T K H) (board : B)
    (l : Loop M N T K H) (hpos : 0 < X.MAX_DEPTH)
    (hrun : (observe X l.st).halt = false) (hd : l.depth ≤ (X.MAX_DEPTH : Int))
    (hmax : l.st.searchopt.maxdepth = -1 ∨ l.depth ≤ l.st.searchopt.maxdepth) :
    ∃ v b2 s2,
      negamax X board l.depth 0
        (skipIfStable l.eval (observe X l.st)).params.MAX_EXTENSIONS
        (skipIfStable l.eval (observe X l.st)) = some (v, b2, s2)
      ∧ get_move_pass X board l = some (get_move_after X l v b2 s2) := by
  obtain ⟨⟨v, b2, s2⟩, hr⟩ := negamax_returns X hpos board l.depth
    (skipIfStable l.eval (observe X l.st)).params.MAX_EXTENSIONS
    (skipIfStable l.eval (observe X l.st))
  refine ⟨v, b2, s2, hr, ?_⟩
  simp only [get_move_pass]
  rw [if_neg (by simp [hrun, hd]), if_neg (by
    show ¬ (l.st.searchopt.maxdepth ≠ -1 ∧ l.depth > l.st.searchopt.maxdepth)
    rcases hmax with h | h
    · simp [h]
    · intro hc; omega), hr]

theorem negamaxLoop_itermove (X : Ext B M N T K H)
    (child : B → State M N T K H → Option (Int × B × State M N T K H))
    (hc : ∀ b t r, child b t = some r → Kept X t r.2.2) (ply : Nat)
    (moves : List M) :
    ∀ board bestEval s r,
      negamaxLoop X child ply moves board bestEval s = some r →
        r.2.2.itermove = s.itermove ∨ r.2.2.itermove ∈ moves := by
  induction moves with
  | nil =>
    intro board bestEval s r h
    simp only [negamaxLoop, Option.some.injEq] at h
    subst h
    exact Or.inl rfl
  | cons mv rest ih =>
    intro board bestEval s r h
    simp only [negamaxLoop] at h
    split at h
    · exact absurd h (by simp)
    · rename_i v b2 s2 hch
      have h1 : s2.itermove = s.itermove := (hc _ _ _ hch).2
      split at h
      · simp only [Option.some.injEq] at h
        subst h
        exact Or.inl h1
      · split at h
        · rcases ih _ _ _ _ h with hi | hi
          · by_cases hp : ply = 0
            · rw [if_pos hp] at hi
              exact Or.inr (by rw [hi]; exact List.mem_cons_self _ _)
            · rw [if_neg hp] at hi
              exact Or.inl (hi.trans h1)
          · exact Or.inr (List.mem_cons_of_mem _ hi)
        · rcases ih _ _ _ _ h with hi | hi
          · exact Or.inl (hi.trans h1)
          · exact Or.inr (List.mem_cons_of_mem _ hi)

theorem negamaxF_itermove [DecidableEq M] (X : Ext B M N T K H)
    (hperm : ∀ l, (X.sortMoves l).Perm l) (fuel : Nat) (board : B) (depth : Int)
    (ply : Nat) (ext : Int) (s : State M N T K H)
    (r : Int × B × State M N T K H)
    (h : negamaxF X fuel board depth ply ext s = some r) :
    r.2.2.itermove = s.itermove ∨ r.2.2.itermove ∈ X.legalAll board := by
  cases fuel with
  | zero => simp [negamaxF] at h
  | succ fuel =>
    simp only [negamaxF] at h
    have h0 := is_time_over_itermove X s
    rcases hto : is_time_over X s with ⟨over, s0⟩
    rw [hto] at h h0
    simp only at h h0
    split at h
    · simp only [Option.some.injEq] at h
      subst h
      exact Or.inl h0
    · split at h
      · exact Or.inl ((quiescenceF_kept X _ _ _ _ _ h).2.trans h0)
      · split at h
        · simp only [Option.some.injEq] at h
          subst h
          exact Or.inl h0
        · split at h
          · simp only [Option.some.injEq] at h
            subst h
            exact Or.inl h0
          · rename_i hemp
            have hc : ∀ b t r,
                negamaxF X fuel b (depth - 1) (ply + 1) ext t = some r →
                  Kept X t r.2.2 := by
              intro b t r hr
              obtain ⟨hf, hi⟩ := negamaxF_frame X fuel b (depth - 1) (ply + 1) ext t r hr
              exact ⟨hf, hi (by omega)⟩
            have hop := order_moves_perm X hperm { s0 with nodes := s0.nodes + 1 }
              (X.legalAll board) board ply
            have hhead : (order_moves X { s0 with nodes := s0.nodes + 1 }
                (X.legalAll board) board ply).headD X.NO_MOVE ∈ X.legalAll board := by
              cases hl : order_moves X { s0 with nodes := s0.nodes + 1 }
                (X.legalAll board) board ply with
              | nil =>
                rw [hl] at hop
                have := hop.symm.eq_nil
                rw [this] at hemp
                simp at hemp
              | cons a l =>
                apply hop.subset
                rw [hl]
                exact List.mem_cons_self _ _
            have key : ∀ (o : Option Int) (b3 : B) (s3 : State M N T K H),
                negamaxLoop X (fun b t => negamaxF X fuel b (depth - 1) (ply + 1) ext t)
                  ply (order_moves X { s0 with nodes := s0.nodes + 1 }
                      (X.legalAll board) board ply) board (-INT_MAX)
                  (if ply = 0 then
                    { ({ s0 with nodes := s0.nodes + 1 } : State M N T K H) with
                      itermove := (order_moves X { s0 with nodes := s0.nodes + 1 }
                        (X.legalAll board) board ply).headD X.NO_MOVE }
                   else { s0 with nodes := s0.nodes + 1 }) = some (o, b3, s3) →
                s3.itermove = s.itermove ∨ s3.itermove ∈ X.legalAll board := by
              intro o b3 s3 hl
              rcases negamaxLoop_itermove X _ hc ply _ _ _ _ _ hl with hi | hi
              · by_cases hp : ply = 0
                · rw [if_pos hp] at hi
                  exact Or.inr (by rw [hi]; exact hhead)
                · rw [if_neg hp] at hi
                  exact Or.inl (hi.trans h0)
              · exact Or.inr (hop.subset hi)
            split at h
            · exact absurd h (by simp)
            · rename_i b3 s3 hl
              simp only [Option.some.injEq] at h
              subst h
              exact key _ _ _ hl
            · rename_i bestEval b3 s3 hl
              simp only [Option.some.injEq] at h
              subst h
              exact key (some bestEval) b3 s3 hl


theorem skipIfStable_frame (eval : Int) (s : State M N T K H) :
    (skipIfStable eval s).itermove = s.itermove
    ∧ (skipIfStable eval s).net = s.net
    ∧ (skipIfStable eval s).killers = s.killers
    ∧ (skipIfStable eval s).searchopt = s.searchopt
    ∧ (skipIfStable eval s).params = s.params
    ∧ (skipIfStable eval s).search_t = s.search_t
    ∧ (skipIfStable eval s).consecutives = s.consecutives
    ∧ (skipIfStable eval s).prevPlay = s.prevPlay := by
  unfold skipIfStable
  split
  · exact ⟨rfl, rfl, rfl, rfl, rfl, rfl, rfl, rfl⟩
  · exact ⟨rfl, rfl, rfl, rfl, rfl, rfl, rfl, rfl⟩

theorem negamax_board [DecidableEq M] (X : Ext B M N T K H)
    (hundo : ∀ b m, X.unmakeMove (X.makeMove b m) m = b) (hpos : 0 < X.MAX_DEPTH)
    (board : B) (depth : Int) (ext : Int) (s : State M N T K H)
    (r : Int × B × State M N T K H)
    (h : negamax X board depth 0 ext s = some r) : r.2.1 = board := by
  obtain ⟨r2, hr2, hb⟩ := negamaxF_restores X hundo (X.MAX_DEPTH - 0) 0 hpos
    (by omega) board depth ext s
  have : negamax X board depth 0 ext s = some r2 := hr2
  rw [this] at h
  simp only [Option.some.injEq] at h
  rw [← h]
  exact hb

theorem get_move_pass_moves [DecidableEq M] (X : Ext B M N T K H)
    (hundo : ∀ b m, X.unmakeMove (X.makeMove b m) m = b)
    (hperm : ∀ l, (X.sortMoves l).Perm l) (board : B)
    (l : Loop M N T K H) (p : Pass B M N T K H)
    (hp : get_move_pass X board l = some p) :
    (∀ mv st, p = Pass.leave mv st none → mv = l.st.itermove)
    ∧ (∀ mv st it, p = Pass.leave mv st (some it) →
        mv = it.itermove
          ∧ (it.itermove = l.st.itermove ∨ it.itermove ∈ X.legalAll board))
    ∧ (∀ it b2 l2, p = Pass.again it b2 l2 →
        b2 = board ∧ l2.st.itermove = it.itermove
          ∧ (it.itermove = l.st.itermove ∨ it.itermove ∈ X.legalAll board)
          ∧ (it.halted = true → l2.st.halt = true)) := by
  rcases get_move_pass_cases X board l p hp with h | ⟨_, hd, _, v, b2, s2, hn, h⟩
  · subst h
    refine ⟨?_, ?_, ?_⟩
    · intro mv st h
      cases h
      rfl
    · intro mv st it h
      cases h
    · intro it b2 l2 h
      cases h
  · have hpos : 0 < X.MAX_DEPTH := by
      by_contra hc
      have h0 : X.MAX_DEPTH = 0 := by omega
      simp [negamax, h0, negamaxF] at hn
    have hb : b2 = board := negamax_board X hundo hpos board _ _ _ _ hn
    have hi : (observe X s2).itermove = l.st.itermove
        ∨ (observe X s2).itermove ∈ X.legalAll board := by
      rcases negamaxF_itermove X hperm _ board _ 0 _ _ _ hn with hi | hi
      · exact Or.inl (hi.trans (skipIfStable_frame l.eval (observe X l.st)).1)
      · exact Or.inr hi
    have hcc : (countConsecutive (observe X s2)).itermove = (observe X s2).itermove :=
      (countConsecutive_frame _).2.1
    subst h
    simp only [get_move_after]
    split
    · rename_i hh
      split
      · refine ⟨?_, ?_, ?_⟩
        · intro mv st h; cases h
        · intro mv st it h; cases h
        · intro it b l2 h
          cases h
          exact ⟨hb, rfl, hi, fun h2 => absurd h2 hh⟩
      · split
        · refine ⟨?_, ?_, ?_⟩
          · intro mv st h; cases h
          · intro mv st it h
            cases h
            exact ⟨hcc, hi⟩
          · intro it b l2 h; cases h
        · refine ⟨?_, ?_, ?_⟩
          · intro mv st h; cases h
          · intro mv st it h; cases h
          · intro it b l2 h
            cases h
            exact ⟨hb, hcc, hi, fun h2 => absurd h2 hh⟩
    · rename_i hh
      split
      · refine ⟨?_, ?_, ?_⟩
        · intro mv st h; cases h
        · intro mv st it h
          cases h
          exact ⟨rfl, hi⟩
        · intro it b l2 h; cases h
      · refine ⟨?_, ?_, ?_⟩
        · intro mv st h; cases h
        · intro mv st it h; cases h
        · intro it b l2 h
          cases h
          exact ⟨hb, rfl, hi, fun h2 => h2⟩

theorem get_move_pass_halted [DecidableEq M] (X : Ext B M N T K H) (board : B)
    (l : Loop M N T K H) (hh : l.st.halt = true) :
    get_move_pass X board l = some (Pass.leave l.st.itermove (observe X l.st) none) := by
  simp only [get_move_pass]
  rw [if_pos (Or.inl (by simp [observe, hh]))]
  rfl

theorem outcome_push_some {it : Iter M} {x : Option (Outcome M N T K H)}
    {o : Outcome M N T K H} (h : Outcome.push it x = some o) :
    ∃ o2, x = some o2 ∧ o.move = o2.move ∧ o.st = o2.st ∧ o.iters = it :: o2.iters := by
  cases x with
  | none => simp [Outcome.push] at h
  | some o2 =>
    simp only [Outcome.push, Option.some.injEq] at h
    subst h
    exact ⟨o2, rfl, rfl, rfl, rfl⟩

theorem get_move_loop_halted [DecidableEq M] (X : Ext B M N T K H) (fuel : Nat)
    (board : B) (l : Loop M N T K H) (o : Outcome M N T K H)
    (hh : l.st.halt = true) (h : get_move_loop X fuel board l = some o) :
    o.iters = [] ∧ o.move = l.st.itermove := by
  cases fuel with
  | zero => simp [get_move_loop] at h
  | succ fuel =>
    simp only [get_move_loop, get_move_pass_halted X board l hh, Option.some.injEq] at h
    subst h
    exact ⟨rfl, rfl⟩

theorem get_move_loop_moves [DecidableEq M] (X : Ext B M N T K H)
    (hundo : ∀ b m, X.unmakeMove (X.makeMove b m) m = b)
    (hperm : ∀ l, (X.sortMoves l).Perm l) (board : B) (fuel : Nat) :
    ∀ (l : Loop M N T K H) (o : Outcome M N T K H),
      get_move_loop X fuel board l = some o →
      (o.iters = [] → o.move = l.st.itermove)
      ∧ (∀ it rest, o.iters = it :: rest →
          (it.itermove = l.st.itermove ∨ it.itermove ∈ X.legalAll board)
          ∧ (it.halted = true → rest = [] ∧ o.move = it.itermove))
      ∧ (∀ pre it1 it2 post, o.iters = pre ++ it1 :: it2 :: post →
          it2.halted = true →
          post = [] ∧ o.move = it2.itermove
            ∧ (it2.itermove = it1.itermove ∨ it2.itermove ∈ X.legalAll board)) := by
  induction fuel with
  | zero => intro l o h; simp [get_move_loop] at h
  | succ fuel ih =>
    intro l o h
    simp only [get_move_loop] at h
    split at h
    · exact absurd h (by simp)
    · rename_i mv st it hp
      have hm := get_move_pass_moves X hundo hperm board l _ hp
      simp only [Option.some.injEq] at h
      subst h
      cases it with
      | none =>
        have hm := hm.1 _ _ rfl
        refine ⟨fun _ => hm, ?_, ?_⟩
        · intro it rest hc
          simp at hc
        · intro pre it1 it2 post hc
          simp at hc
      | some i =>
        have hm := hm.2.1 _ _ _ rfl
        refine ⟨fun hc => by simp at hc, ?_, ?_⟩
        · intro it rest hc
          simp only [Option.toList, List.cons.injEq] at hc
          obtain ⟨h1, h2⟩ := hc
          subst h1
          exact ⟨hm.2, fun _ => ⟨h2.symm, hm.1⟩⟩
        · intro pre it1 it2 post hc
          have := congrArg List.length hc
          simp at this
          omega
    · rename_i it b2 l2 hp
      have hm := (get_move_pass_moves X hundo hperm board l _ hp).2.2 _ _ _ rfl
      obtain ⟨hb, hl2, hi, hh⟩ := hm
      subst hb
      obtain ⟨o2, ho2, hmv, _, hits⟩ := outcome_push_some h
      obtain ⟨ia, ib, ic⟩ := ih l2 o2 ho2
      refine ⟨fun hc => by rw [hits] at hc; simp at hc, ?_, ?_⟩
      · intro it' rest hc
        rw [hits] at hc
        simp only [List.cons.injEq] at hc
        obtain ⟨h1, h2⟩ := hc
        subst h1
        refine ⟨hi, fun hhalt => ?_⟩
        obtain ⟨e1, e2⟩ := get_move_loop_halted X fuel b2 l2 o2 (hh hhalt) ho2
        exact ⟨by rw [← h2, e1], by rw [hmv, e2, hl2]⟩
      · intro pre it1 it2 post hc hhalt
        rw [hits] at hc
        cases pre with
        | nil =>
          simp only [List.nil_append, List.cons.injEq] at hc
          obtain ⟨h1, h2⟩ := hc
          subst h1
          obtain ⟨j1, j2⟩ := ib it2 post h2
          obtain ⟨k1, k2⟩ := j2 hhalt
          refine ⟨k1, by rw [hmv]; exact k2, ?_⟩
          rw [← hl2]
          exact j1
        | cons x pre' =>
          simp only [List.cons_append, List.cons.injEq] at hc
          obtain ⟨m1, m2, m3⟩ := ic pre' it1 it2 post hc.2 hhalt
          exact ⟨m1, by rw [hmv]; exact m2, m3⟩

/-- C2 as stated fails: depth 1 completes with best move 0; the host raises
the flag while depth 2 is searching the third root move, after the second
root move had beaten the first; `get_move` returns move 1, chosen by the
partially searched depth 2, not the depth-1 best move 0. -/
theorem cancelled_move_counterexample :
    (get_move cancelTree.ext 10 (Tree.fresh noLimits) [] 0 0).map
        (fun o => (o.move,
          o.iters.map (fun i => (i.depth, i.halted, i.itermove))))
      = some (1, [(1, false, 0), (2, true, 1)]) := by
  decide

/-- C5 at a failing input: after an uncancelled depth-2 search of the root,
the entry stored for the position after root move 0 (a node at ply 1 whose
legal moves are 5 and 6) is EXACT with depth 1 and score -3, but its move is 0,
the root's candidate `itermove`, which is not a move of that node. -/
theorem store_nonroot_move :
    (negamax storeTree.ext [] 2 0 0 (Tree.fresh noLimits)).map
        (fun r =>
          let e := Tree.lookup r.2.2.tt (storeTree.ext.hash [0])
          (r.2.2.halt, e.key, e.depth, e.flag, e.move, e.eval))
      = some (false, storeTree.ext.hash [0], 1, Flag.EXACT, 0, -3)
    ∧ storeTree.ext.legalAll [0] = [5, 6]
    ∧ (0 : Nat) ∉ storeTree.ext.legalAll [0] := by
  decide

theorem get_move_after_research [DecidableEq M] (X : Ext B M N T K H)
    (l : Loop M N T K H) (v : Int) (b2 : B) (s2 : State M N T K H)
    (hh : (observe X s2).halt = false) (hw : v ≤ l.alpha ∨ v ≥ l.beta) :
    get_move_after X l v b2 s2 =
      Pass.again
        { depth := l.depth, alpha := l.alpha, beta := l.beta, score := v,
          halted := false, itermove := (observe X s2).itermove } b2
        { depth := l.depth, eval := v, alpha := -INT_MAX, beta := INT_MAX,
          st := observe X s2 } := by
  simp only [get_move_after]
  rw [if_pos (by simp [hh]), if_pos hw, hh]

theorem get_move_after_advance [DecidableEq M] (X : Ext B M N T K H)
    (l : Loop M N T K H) (v : Int) (b2 : B) (s2 : State M N T K H)
    (hh : (observe X s2).halt = false) (hw : ¬ (v ≤ l.alpha ∨ v ≥ l.beta))
    (hm : X.isMate v = false) :
    get_move_after X l v b2 s2 =
      Pass.again
        { depth := l.depth, alpha := l.alpha, beta := l.beta, score := v,
          halted := false, itermove := (observe X s2).itermove } b2
        { depth := l.depth + 1, eval := v,
          alpha := v - (countConsecutive (observe X s2)).params.ASPIRATION_WINDOW,
          beta := v + (countConsecutive (observe X s2)).params.ASPIRATION_WINDOW,
          st := countConsecutive (observe X s2) } := by
  simp only [get_move_after]
  rw [if_pos (by simp [hh]), if_neg hw, if_neg (by simp [hm]), hh]

theorem negamaxLoop_argmax (X : Ext B M N T K H) (sev : B → Bool → Int)
    (Sync : N → Nat → B → Prop)
    (hundo : ∀ b m, X.unmakeMove (X.makeMove b m) m = b)
    (hT : Tracks X sev Sync) (val : B → Int)
    (child : B → State M N T K H → Option (Int × B × State M N T K H))
    (hc : ChildSpec Sync 1 val child)
    (hk : ∀ b t r, child b t = some r → Kept X t r.2.2) (b0 : Int)
    (moves : List M) :
    ∀ board bestEval s r, Sync s.net 0 board →
      negamaxLoop X child 0 moves board bestEval s = some r →
      r.2.2.halt = false → b0 ≤ bestEval →
      (b0 < bestEval → -(val (X.makeMove board s.itermove)) = bestEval) →
      ∃ fin, r.1 = some fin ∧ b0 ≤ fin
        ∧ (b0 < fin → -(val (X.makeMove board r.2.2.itermove)) = fin) := by
  induction moves with
  | nil =>
    intro board bestEval s r _ h _ h1 h2
    simp only [negamaxLoop, Option.some.injEq] at h
    subst h
    exact ⟨bestEval, rfl, h1, h2⟩
  | cons mv rest ih =>
    intro board bestEval s r hs h hf h1 h2
    simp only [negamaxLoop] at h
    split at h
    · exact absurd h (by simp)
    · rename_i v b2 s2 hch
      obtain ⟨hb, hkeep, hv⟩ := hc _ _ _ (hT.step _ _ mv _ hs) hch
      obtain ⟨_, hit⟩ := hk _ _ _ hch
      simp only at hb hkeep hv hit
      subst hb
      rw [hundo] at h
      have hs3 : Sync (observe X s2).net 0 board :=
        hkeep 0 board (by omega) (hT.frame _ _ mv board 0 board le_rfl hs)
      split at h
      · rename_i hh
        simp only [Option.some.injEq] at h
        subst h
        exact absurd (hh.symm.trans hf) (by simp)
      · rename_i hh
        have hh2 : s2.halt = false :=
          observe_halt_false X s2 (by simpa using hh)
        have hv2 := hv hh2
        split at h
        · rename_i hgt
          rw [if_pos trivial] at h
          obtain ⟨fin, e1, e2, e3⟩ := ih board (-v) { observe X s2 with itermove := mv }
            r hs3 h hf (by omega) (fun _ => by
              show -(val (X.makeMove board mv)) = -v
              rw [hv2])
          exact ⟨fin, e1, e2, e3⟩
        · rename_i hgt
          obtain ⟨fin, e1, e2, e3⟩ := ih board bestEval (observe X s2) r hs3 h hf h1
            (fun hlt => by
              have := h2 hlt
              show -(val (X.makeMove board s2.itermove)) = bestEval
              rw [hit]
              exact this)
          exact ⟨fin, e1, e2, e3⟩

theorem quiescenceLoop_tt (X : Ext B M N T K H)
    (child : B → State M N T K H → Option (Int × B × State M N T K H))
    (hc : ∀ b t r, child b t = some r → r.2.2.tt = t.tt) (ply : Nat)
    (moves : List M) :
    ∀ board bestEval s r,
      quiescenceLoop X child ply moves board bestEval s = some r →
        r.2.2.tt = s.tt := by
  induction moves with
  | nil =>
    intro board bestEval s r h
    simp only [quiescenceLoop, Option.some.injEq] at h
    subst h
    rfl
  | cons mv rest ih =>
    intro board bestEval s r h
    simp only [quiescenceLoop] at h
    split at h
    · exact absurd h (by simp)
    · rename_i v b2 s2 hch
      have h1 : s2.tt = s.tt := hc _ _ _ hch
      split at h
      · simp only [Option.some.injEq] at h
        subst h
        exact h1
      · exact (ih _ _ _ _ h).trans h1

theorem is_time_over_tt (X : Ext B M N T K H) (s : State M N T K H) :
    (is_time_over X s).2.tt = s.tt := by
  unfold is_time_over
  split
  · rfl
  · split
    · split <;> rfl
    · rfl

theorem quiescenceF_tt [DecidableEq M] (X : Ext B M N T K H) (fuel : Nat) :
    ∀ board ply s r, quiescenceF X fuel board ply s = some r →
      r.2.2.tt = s.tt := by
  induction fuel with
  | zero => intro board ply s r h; simp [quiescenceF] at h
  | succ fuel ih =>
    intro board ply s r h
    simp only [quiescenceF] at h
    have h0 := is_time_over_tt X s
    rcases hto : is_time_over X s with ⟨over, s0⟩
    rw [hto] at h h0
    simp only at h h0
    split at h
    · simp only [Option.some.injEq] at h
      subst h
      exact h0
    · split at h
      · simp only [Option.some.injEq] at h
        subst h
        exact h0
      · exact (quiescenceLoop_tt X _ (fun b t r hr => ih b (ply + 1) t r hr) ply
          _ _ _ _ _ h).trans h0

/-- The root call, unfolded: cancelled on entry, or outside the move loop
(`itermove` and the table untouched), or the root loop followed by the store. -/
theorem negamax_root_cases [DecidableEq M] (X : Ext B M N T K H) (board : B)
    (d : Int) (ext : Int) (s : State M N T K H)
    (r : Int × B × State M N T K H)
    (h : negamax X board d 0 ext s = some r) :
    ((is_time_over X s).1 = true ∧ r = (0, board, (is_time_over X s).2))
    ∨ ((is_time_over X s).1 = false ∧ ¬ rootLoops X board d
        ∧ r.2.2.itermove = s.itermove ∧ r.2.2.tt = s.tt)
    ∨ ((is_time_over X s).1 = false ∧ rootLoops X board d
        ∧ ∃ o b3 s3,
          rootSearch X board d ext
            { (is_time_over X s).2 with nodes := (is_time_over X s).2.nodes + 1 }
              = some (o, b3, s3)
          ∧ ((o = none ∧ r = (0, b3, s3))
            ∨ ∃ best, o = some best ∧ r = (best, b3,
                { s3 with tt := X.ttSet s3.tt (Entry.mk (X.hash b3) d Flag.EXACT
                    s3.itermove best) 0 }))) := by
  have hpos : 0 < X.MAX_DEPTH := by
    by_contra hc
    have h0 : X.MAX_DEPTH = 0 := by omega
    simp [negamax, h0, negamaxF] at h
  obtain ⟨k, hk⟩ : ∃ k, X.MAX_DEPTH - 0 = k + 1 := ⟨X.MAX_DEPTH - 1, by omega⟩
  have hk2 : X.MAX_DEPTH - 1 = k := by omega
  simp only [negamax, hk, negamaxF] at h
  have hi := is_time_over_itermove X s
  have ht := is_time_over_tt X s
  rcases hto : is_time_over X s with ⟨over, s0⟩
  rw [hto] at h hi ht
  simp only at h hi ht ⊢
  split at h
  · rename_i hover
    simp only [Option.some.injEq] at h
    exact Or.inl ⟨hover, h.symm⟩
  · rename_i hover
    have hover2 : over = false := by simpa using hover
    split at h
    · rename_i hq
      obtain ⟨hf, hit⟩ := quiescenceF_kept X _ _ _ _ _ h
      have htt := quiescenceF_tt X _ _ _ _ _ h
      exact Or.inr (Or.inl ⟨hover2, fun hc => hc.1 hq, hit.trans hi, htt.trans ht⟩)
    · rename_i hq
      split at h
      · rename_i hrep
        exact absurd hrep.1 (by simp)
      · split at h
        · rename_i hemp
          simp only [Option.some.injEq] at h
          subst h
          refine Or.inr (Or.inl ⟨hover2, ?_, hi, ht⟩)
          intro hc
          exact hc.2 (by simpa using hemp)
        · rename_i hemp
          right
          right
          refine ⟨hover2, ⟨hq, by simpa using hemp⟩, ?_⟩
          simp only [rootSearch, hk2]
          simp only [if_true, zero_add, Nat.cast_zero] at h
          split at h
          · exact absurd h (by simp)
          · rename_i b3 s3 hl
            simp only [Option.some.injEq] at h
            exact ⟨none, b3, s3, hl, Or.inl ⟨rfl, h.symm⟩⟩
          · rename_i best b3 s3 hl
            simp only [Option.some.injEq] at h
            exact ⟨some best, b3, s3, hl, Or.inr ⟨best, rfl, h.symm⟩⟩

theorem foldl_max_ge {α : Type} (g : α → Int) (l : List α) :
    ∀ init : Int, init ≤ l.foldl (fun acc x => max acc (g x)) init
      ∧ ∀ x ∈ l, g x ≤ l.foldl (fun acc x => max acc (g x)) init := by
  induction l with
  | nil => intro init; exact ⟨le_rfl, fun x hx => absurd hx (by simp)⟩
  | cons a l ih =>
    intro init
    simp only [List.foldl_cons]
    obtain ⟨h1, h2⟩ := ih (max init (g a))
    refine ⟨le_trans (le_max_left _ _) h1, ?_⟩
    intro x hx
    rcases List.mem_cons.mp hx with hx | hx
    · subst hx
      exact le_trans (le_max_right _ _) h1
    · exact h2 x hx

theorem rootSearch_child [DecidableEq M] (X : Ext B M N T K H)
    (sev : B → Bool → Int) (Sync : N → Nat → B → Prop)
    (hundo : ∀ b m, X.unmakeMove (X.makeMove b m) m = b)
    (hT : Tracks X sev Sync) (hperm : ∀ l, (X.sortMoves l).Perm l)
    (board : B) (d : Int) (ext : Int) (hpos : 0 < X.MAX_DEPTH)
    (hR : rootLoops X board d) :
    ChildSpec Sync 1 (fun b => negamaxValue X sev (X.MAX_DEPTH - 2) (d - 1) 1 b)
        (fun b t => negamaxF X (X.MAX_DEPTH - 1) b (d - 1) 1 ext t)
    ∧ ∀ b t r, negamaxF X (X.MAX_DEPTH - 1) b (d - 1) 1 ext t = some r →
        Kept X t r.2.2 := by
  have hne := hR.1
  constructor
  · have := negamaxF_value X sev Sync hundo hT hperm (X.MAX_DEPTH - 1) 1 (by omega)
      (d - 1) ext
    have e : X.MAX_DEPTH - 1 - 1 = X.MAX_DEPTH - 2 := by omega
    rw [e] at this
    exact this
  · intro b t r hr
    obtain ⟨hf, hi⟩ := negamaxF_frame X _ b (d - 1) 1 ext t r hr
    exact ⟨hf, hi (by omega)⟩


theorem root_settles [DecidableEq M] (X : Ext B M N T K H)
    (sev : B → Bool → Int) (Sync : N → Nat → B → Prop)
    (hundo : ∀ b m, X.unmakeMove (X.makeMove b m) m = b)
    (hT : Tracks X sev Sync) (hperm : ∀ l, (X.sortMoves l).Perm l)
    (htt : ∀ t (e : Entry M) p, (X.ttGet (X.ttSet t e p) e.key 0).move = e.move)
    (board : B) (d : Int) (ext : Int) (s : State M N T K H)
    (r : Int × B × State M N T K H) (hs : Sync s.net 0 board)
    (h : negamax X board d 0 ext s = some r) (hf : r.2.2.halt = false) :
    Settled X sev board d r.1 r.2.2.itermove r.2.2 := by
  have hpos : 0 < X.MAX_DEPTH := by
    by_contra hc
    have h0 : X.MAX_DEPTH = 0 := by omega
    simp [negamax, h0, negamaxF] at h
  obtain ⟨_, _, hv⟩ := negamaxF_value X sev Sync hundo hT hperm
    (X.MAX_DEPTH - 0) 0 (by omega) d ext board s r hs h
  refine ⟨rfl, (hv hf).symm, ?_⟩
  intro hR
  rcases negamax_root_cases X board d ext s r h with
    ⟨hover, hr⟩ | ⟨_, hn, _⟩ | ⟨hover, _, o, b3, s3, hl, hcase⟩
  · rw [hr] at hf
    simp only at hf
    rw [is_time_over_fst, hf] at hover
    exact absurd hover (by simp)
  · exact absurd hR hn
  · obtain ⟨hcs, hck⟩ := rootSearch_child X sev Sync hundo hT hperm board d ext hpos hR
    have hnet : (is_time_over X s).2.net = s.net := is_time_over_net X s
    simp only [rootSearch] at hl
    have hs2 : Sync (is_time_over X s).2.net 0 board := by rw [hnet]; exact hs
    obtain ⟨hb, _, hval⟩ := negamaxLoop_value X sev Sync hundo hT 0 _ _ hcs _
      board _ _ _ (by exact hs2) hl
    simp only at hb hval
    subst hb
    rcases hcase with ⟨ho, hr⟩ | ⟨best, ho, hr⟩
    · subst ho
      rw [hr] at hf
      exact absurd (hval hf) (by simp)
    · subst ho
      rw [hr] at hf ⊢
      simp only at hf ⊢
      refine ⟨htt s3.tt ⟨X.hash b3, d, Flag.EXACT, s3.itermove, best⟩ 0, ?_, ?_⟩
      · have hop := order_moves_perm X hperm
          { (is_time_over X s).2 with nodes := (is_time_over X s).2.nodes + 1 }
          (X.legalAll b3) b3 0
        rcases negamaxLoop_itermove X _ hck 0 _ _ _ _ _ hl with hi | hi
        · simp only at hi
          rw [hi]
          cases hord : order_moves X
              { (is_time_over X s).2 with nodes := (is_time_over X s).2.nodes + 1 }
              (X.legalAll b3) b3 0 with
          | nil =>
            rw [hord] at hop
            exact absurd hop.symm.eq_nil hR.2
          | cons a l =>
            apply hop.subset
            rw [hord]
            exact List.mem_cons_self _ _
        · exact hop.subset hi
      · obtain ⟨fin, e1, _, e3⟩ := negamaxLoop_argmax X sev Sync hundo hT _ _ hcs hck
          (-INT_MAX) _ b3 _ _ _ (by exact hs2) hl hf le_rfl
          (fun hlt => absurd hlt (lt_irrefl _))
        simp only [Option.some.injEq] at e1
        subst e1
        intro hlt
        have := e3 hlt
        simp only at this
        exact this

theorem countConsecutive_tables [DecidableEq M] (s : State M N T K H) :
    (countConsecutive s).tt = s.tt ∧ (countConsecutive s).killers = s.killers
    ∧ (countConsecutive s).history = s.history := by
  unfold countConsecutive
  split
  · exact ⟨rfl, rfl, rfl⟩
  · exact ⟨rfl, rfl, rfl⟩

theorem skipIfStable_tables (eval : Int) (s : State M N T K H) :
    (skipIfStable eval s).tt = s.tt ∧ (skipIfStable eval s).killers = s.killers
    ∧ (skipIfStable eval s).history = s.history := by
  unfold skipIfStable
  split
  · exact ⟨rfl, rfl, rfl⟩
  · exact ⟨rfl, rfl, rfl⟩

theorem tuned_observe (X : Ext B M N T K H) (Sync : N → Nat → B → Prop)
    (s : State M N T K H) (board : B) (st : State M N T K H)
    (h : Tuned X Sync s board st) : Tuned X Sync s board (observe X st) :=
  ⟨h.sync, h.params, h.killers, h.history⟩

theorem tuned_countConsecutive [DecidableEq M] (X : Ext B M N T K H)
    (Sync : N → Nat → B → Prop) (s : State M N T K H) (board : B)
    (st : State M N T K H) (h : Tuned X Sync s board st) :
    Tuned X Sync s board (countConsecutive st) := by
  obtain ⟨_, _, _, _, c5, _, c7, c8, _⟩ := countConsecutive_frame st
  obtain ⟨_, d2, d3⟩ := countConsecutive_tables st
  exact ⟨by rw [c8]; exact h.sync, c5.trans h.params,
    d2.trans h.killers, d3.trans h.history⟩

theorem tuned_skipIfStable (X : Ext B M N T K H) (Sync : N → Nat → B → Prop)
    (s : State M N T K H) (board : B) (eval : Int) (st : State M N T K H)
    (h : Tuned X Sync s board st) : Tuned X Sync s board (skipIfStable eval st) := by
  obtain ⟨_, c2, c3, _, c5, _, _, _⟩ := skipIfStable_frame eval st
  obtain ⟨_, d2, d3⟩ := skipIfStable_tables eval st
  exact ⟨by rw [c2]; exact h.sync, c5.trans h.params,
    d2.trans h.killers, d3.trans h.history⟩

theorem settled_of_eq (X : Ext B M N T K H) (sev : B → Bool → Int) (board : B)
    (d v : Int) (m : M) (st st2 : State M N T K H)
    (h : Settled X sev board d v m st) (hi : st2.itermove = st.itermove)
    (ht : st2.tt = st.tt) : Settled X sev board d v m st2 :=
  ⟨hi.trans h.itermove, h.value, fun hR => by rw [ht]; exact h.table hR⟩

/-- A pass of the `get_move` loop from a tuned state: it leaves without a
call, or it calls `negamax`, which hands the board back, keeps the state
tuned, and, when not cancelled, leaves the root settled on its value. -/
theorem get_move_pass_tuned [DecidableEq M] (X : Ext B M N T K H)
    (sev : B → Bool → Int) (Sync : N → Nat → B → Prop)
    (hundo : ∀ b m, X.unmakeMove (X.makeMove b m) m = b)
    (hT : Tracks X sev Sync) (hperm : ∀ l, (X.sortMoves l).Perm l)
    (htt : ∀ t (e : Entry M) p, (X.ttGet (X.ttSet t e p) e.key 0).move = e.move)
    (s : State M N T K H) (board : B) (l : Loop M N T K H)
    (p : Pass B M N T K H) (htu : Tuned X Sync s board l.st)
    (hp : get_move_pass X board l = some p) :
    p = Pass.leave l.st.itermove (observe X l.st) none
    ∨ ((observe X l.st).halt = false ∧ l.depth ≤ (X.MAX_DEPTH : Int)
        ∧ (l.st.searchopt.maxdepth = -1 ∨ l.depth ≤ l.st.searchopt.maxdepth)
        ∧ ∃ v s2,
          negamax X board l.depth 0
            (skipIfStable l.eval (observe X l.st)).params.MAX_EXTENSIONS
            (skipIfStable l.eval (observe X l.st)) = some (v, board, s2)
          ∧ p = get_move_after X l v board s2
          ∧ Tuned X Sync s board (observe X s2)
          ∧ (observe X s2).searchopt = l.st.searchopt
          ∧ ((observe X s2).halt = false →
              Settled X sev board l.depth v (observe X s2).itermove
                (observe X s2))) := by
  rcases get_move_pass_cases X board l p hp with h | ⟨h1, h2, h3, v, b2, s2, hn, h⟩
  · exact Or.inl h
  · right
    have hpos : 0 < X.MAX_DEPTH := by
      by_contra hc
      have h0 : X.MAX_DEPTH = 0 := by omega
      simp [negamax, h0, negamaxF] at hn
    have hb : b2 = board := negamax_board X hundo hpos board _ _ _ _ hn
    subst hb
    have htu1 := tuned_skipIfStable X Sync s b2 l.eval _ (tuned_observe X Sync s b2 _ htu)
    obtain ⟨hfr, _⟩ := negamaxF_frame X _ _ _ _ _ _ _ hn
    obtain ⟨_, hk, _⟩ := negamaxF_value X sev Sync hundo hT hperm
      (X.MAX_DEPTH - 0) 0 (by omega) l.depth _ b2 _ (v, b2, s2) htu1.sync hn
    refine ⟨h1, h2, h3, v, s2, hn, h, ?_, ?_, ?_⟩
    · exact ⟨hk 0 b2 le_rfl htu1.sync,
        hfr.params.trans htu1.params, hfr.killers.trans htu1.killers,
        hfr.history.trans htu1.history⟩
    · exact hfr.searchopt.trans (skipIfStable_frame l.eval (observe X l.st)).2.2.2.1
    · intro hh
      have hh2 : s2.halt = false := observe_halt_false X s2 hh
      have := root_settles X sev Sync hundo hT hperm htt b2 l.depth _ _ (v, b2, s2)
        htu1.sync hn hh2
      exact settled_of_eq X sev b2 _ _ _ _ _ this rfl rfl


theorem get_move_after_mate [DecidableEq M] (X : Ext B M N T K H)
    (l : Loop M N T K H) (v : Int) (b2 : B) (s2 : State M N T K H)
    (hh : (observe X s2).halt = false) (hw : ¬ (v ≤ l.alpha ∨ v ≥ l.beta))
    (hm : X.isMate v = true) :
    get_move_after X l v b2 s2 =
      Pass.leave (countConsecutive (observe X s2)).itermove
        { countConsecutive (observe X s2) with halt := true }
        (some { depth := l.depth, alpha := l.alpha, beta := l.beta, score := v,
                halted := false, itermove := (observe X s2).itermove }) := by
  simp only [get_move_after]
  rw [if_pos (by simp [hh]), if_neg hw, if_pos hm, hh]

theorem get_move_after_cancel_mate [DecidableEq M] (X : Ext B M N T K H)
    (l : Loop M N T K H) (v : Int) (b2 : B) (s2 : State M N T K H)
    (hh : (observe X s2).halt = true) (hm : X.isMate l.eval = true) :
    get_move_after X l v b2 s2 =
      Pass.leave (observe X s2).itermove { observe X s2 with halt := true }
        (some { depth := l.depth, alpha := l.alpha, beta := l.beta, score := v,
                halted := true, itermove := (observe X s2).itermove }) := by
  simp only [get_move_after]
  rw [if_neg (by simp [hh]), if_pos hm, hh]

theorem get_move_after_cancel [DecidableEq M] (X : Ext B M N T K H)
    (l : Loop M N T K H) (v : Int) (b2 : B) (s2 : State M N T K H)
    (hh : (observe X s2).halt = true) (hm : ¬ X.isMate l.eval = true) :
    get_move_after X l v b2 s2 =
      Pass.again
        { depth := l.depth, alpha := l.alpha, beta := l.beta, score := v,
          halted := true, itermove := (observe X s2).itermove } b2
        { l with st := observe X s2 } := by
  simp only [get_move_after]
  rw [if_neg (by simp [hh]), if_neg hm, hh]

theorem start_search_timer_tables (X : Ext B M N T K H) (s : State M N T K H)
    (board : B) (t_remain t_inc : Int) :
    (start_search_timer X s board t_remain t_inc).killers = s.killers
    ∧ (start_search_timer X s board t_remain t_inc).history = s.history := by
  unfold start_search_timer
  split
  · exact ⟨rfl, rfl⟩
  · split
    · exact ⟨rfl, rfl⟩
    · exact ⟨rfl, rfl⟩

theorem get_move_init_tuned (X : Ext B M N T K H) (sev : B → Bool → Int)
    (Sync : N → Nat → B → Prop) (hT : Tracks X sev Sync)
    (s : State M N T K H) (board : B) (t_remain t_inc : Int) :
    Tuned X Sync s board (get_move_init X s board t_remain t_inc).st := by
  simp only [get_move_init]
  split
  · obtain ⟨_, _, _, f4, _, _, f7, f8, _⟩ := start_search_timer_frame X
      { s with history := X.historyClear s.history, net := X.set_board s.net board,
               itermove := X.NO_MOVE, prevPlay := X.NO_MOVE, consecutives := 1,
               nodes := 0 } board t_remain t_inc
    obtain ⟨g1, g2⟩ := start_search_timer_tables X
      { s with history := X.historyClear s.history, net := X.set_board s.net board,
               itermove := X.NO_MOVE, prevPlay := X.NO_MOVE, consecutives := 1,
               nodes := 0 } board t_remain t_inc
    exact ⟨by
      show Sync (start_search_timer X _ board t_remain t_inc).net 0 board
      rw [f4]; exact hT.init s.net board, f7, g1, g2⟩
  · obtain ⟨_, _, _, f4, _, _, f7, f8, _⟩ := start_search_timer_frame X
      { s with history := X.historyClear s.history, net := X.set_board s.net board }
      board t_remain t_inc
    obtain ⟨g1, g2⟩ := start_search_timer_tables X
      { s with history := X.historyClear s.history, net := X.set_board s.net board }
      board t_remain t_inc
    exact ⟨by
      show Sync (start_search_timer X _ board t_remain t_inc).net 0 board
      rw [f4]; exact hT.init s.net board, f7, g1, g2⟩

theorem tree_table (G : Tree) (t : List (Entry Nat)) (e : Entry Nat) (p : Int) :
    (G.ext.ttGet (G.ext.ttSet t e p) e.key 0).move = e.move := by
  show (Tree.lookup (e :: t) e.key).move = e.move
  simp [Tree.lookup, List.find?]

theorem tree_score (G : Tree)
    (s1 : State Nat (Nat → List Nat) (List (Entry Nat)) Unit Unit)
    (hp : s1.params = Tree.params) (board : List Nat) (m : Nat) :
    score_move G.ext s1 m board 0
      = if m = (G.ext.ttGet s1.tt (G.ext.hash board) 0).move then INT16_MAX else 0 := by
  unfold score_move
  split
  · rfl
  · simp only [hp, Tree.params, Tree.ext]
    simp [wrap16]


theorem head_insertionSort_top (l : List (Nat × Int)) (x : Nat × Int)
    (hx : x ∈ l) (top : ∀ y ∈ l, y.2 ≤ x.2)
    (uniq : ∀ y ∈ l, y.2 = x.2 → y.1 = x.1) :
    ((l.insertionSort (fun a b => a.2 ≥ b.2)).map Prod.fst).head? = some x.1 := by
  haveI : IsTotal (Nat × Int) (fun a b => a.2 ≥ b.2) := ⟨fun a b => le_total b.2 a.2⟩
  haveI : IsTrans (Nat × Int) (fun a b => a.2 ≥ b.2) :=
    ⟨fun a b c h1 h2 => le_trans h2 h1⟩
  have hperm := List.perm_insertionSort (fun a b : Nat × Int => a.2 ≥ b.2) l
  have hsorted := List.sorted_insertionSort (fun a b : Nat × Int => a.2 ≥ b.2) l
  cases hs : l.insertionSort (fun a b => a.2 ≥ b.2) with
  | nil =>
    rw [hs] at hperm
    have := hperm.symm.eq_nil
    rw [this] at hx
    exact absurd hx (by simp)
  | cons h t =>
    rw [hs] at hperm hsorted
    simp only [List.map_cons, List.head?_cons, Option.some.injEq]
    have hh : h ∈ l := hperm.subset (List.mem_cons_self _ _)
    have hxs : x ∈ h :: t := hperm.symm.subset hx
    apply uniq h hh
    apply le_antisymm (top h hh)
    rcases List.mem_cons.mp hxs with e | e
    · rw [e]
    · exact List.rel_of_sorted_cons hsorted x e

theorem tree_table_first (G : Tree) (opt : SearchOptions) (board : List Nat) :
    TableMoveFirst G.ext (Tree.fresh opt) board := by
  intro s1 hp _ _ hmem
  unfold order_moves
  have hsc : (fun m => (m, score_move G.ext s1 m board 0))
      = (fun m => (m, if m = (G.ext.ttGet s1.tt (G.ext.hash board) 0).move
          then INT16_MAX else 0)) := by
    funext m
    rw [tree_score G s1 hp board m]
  rw [hsc]
  apply head_insertionSort_top _
    ((G.ext.ttGet s1.tt (G.ext.hash board) 0).move, INT16_MAX)
  · apply List.mem_map.mpr
    exact ⟨_, hmem, by simp⟩
  · intro y hy
    obtain ⟨m, _, hm⟩ := List.mem_map.mp hy
    rw [← hm]
    simp only
    split
    · exact le_rfl
    · decide
  · intro y hy h2
    obtain ⟨m, _, hm⟩ := List.mem_map.mp hy
    rw [← hm] at h2 ⊢
    simp only at h2 ⊢
    by_contra hne
    rw [if_neg hne] at h2
    exact absurd h2 (by decide)


theorem quiescenceLoop_board (X : Ext B M N T K H)
    (hundo : ∀ b m, X.unmakeMove (X.makeMove b m) m = b)
    (child : B → State M N T K H → Option (Int × B × State M N T K H))
    (hc : ∀ b t r, child b t = some r → r.2.1 = b) (ply : Nat)
    (moves : List M) :
    ∀ board bestEval s r,
      quiescenceLoop X child ply moves board bestEval s = some r →
        r.2.1 = board := by
  induction moves with
  | nil =>
    intro board bestEval s r h
    simp only [quiescenceLoop, Option.some.injEq] at h
    subst h
    rfl
  | cons mv rest ih =>
    intro board bestEval s r h
    simp only [quiescenceLoop] at h
    split at h
    · exact absurd h (by simp)
    · rename_i v b2 s2 hch
      have hb : b2 = X.makeMove board mv := hc _ _ _ hch
      subst hb
      rw [hundo] at h
      split at h
      · simp only [Option.some.injEq] at h
        subst h
        rfl
      · exact ih _ _ _ _ h

theorem quiescenceF_board [DecidableEq M] (X : Ext B M N T K H)
    (hundo : ∀ b m, X.unmakeMove (X.makeMove b m) m = b) (fuel : Nat) :
    ∀ board ply s r, quiescenceF X fuel board ply s = some r → r.2.1 = board := by
  induction fuel with
  | zero => intro board ply s r h; simp [quiescenceF] at h
  | succ fuel ih =>
    intro board ply s r h
    simp only [quiescenceF] at h
    rcases hto : is_time_over X s with ⟨over, s0⟩
    rw [hto] at h
    simp only at h
    split at h
    · simp only [Option.some.injEq] at h
      subst h
      rfl
    · split at h
      · simp only [Option.some.injEq] at h
        subst h
        rfl
      · exact quiescenceLoop_board X hundo _
          (fun b t r hr => ih b (ply + 1) t r hr) ply _ _ _ _ _ h

theorem negamaxLoop_board (X : Ext B M N T K H)
    (hundo : ∀ b m, X.unmakeMove (X.makeMove b m) m = b)
    (child : B → State M N T K H → Option (Int × B × State M N T K H))
    (hc : ∀ b t r, child b t = some r → r.2.1 = b) (ply : Nat)
    (moves : List M) :
    ∀ board bestEval s r,
      negamaxLoop X child ply moves board bestEval s = some r →
        r.2.1 = board := by
  induction moves with
  | nil =>
    intro board bestEval s r h
    simp only [negamaxLoop, Option.some.injEq] at h
    subst h
    rfl
  | cons mv rest ih =>
    intro board bestEval s r h
    simp only [negamaxLoop] at h
    split at h
    · exact absurd h (by simp)
    · rename_i v b2 s2 hch
      have hb : b2 = X.makeMove board mv := hc _ _ _ hch
      subst hb
      rw [hundo] at h
      split at h
      · simp only [Option.some.injEq] at h
        subst h
        rfl
      · split at h
        · exact ih _ _ _ _ h
        · exact ih _ _ _ _ h

theorem negamaxF_board [DecidableEq M] (X : Ext B M N T K H)
    (hundo : ∀ b m, X.unmakeMove (X.makeMove b m) m = b) (fuel : Nat) :
    ∀ board depth ply ext s r, negamaxF X fuel board depth ply ext s = some r →
      r.2.1 = board := by
  induction fuel with
  | zero => intro board depth ply ext s r h; simp [negamaxF] at h
  | succ fuel ih =>
    intro board depth ply ext s r h
    simp only [negamaxF] at h
    rcases hto : is_time_over X s with ⟨over, s0⟩
    rw [hto] at h
    simp only at h
    split at h
    · simp only [Option.some.injEq] at h
      subst h
      rfl
    · split at h
      · exact quiescenceF_board X hundo _ _ _ _ _ h
      · split at h
        · simp only [Option.some.injEq] at h
          subst h
          rfl
        · split at h
          · simp only [Option.some.injEq] at h
            subst h
            rfl
          · have hc : ∀ b t r,
                negamaxF X fuel b (depth - 1) (ply + 1) ext t = some r → r.2.1 = b :=
              fun b t r hr => ih b (depth - 1) (ply + 1) ext t r hr
            split at h
            · exact absurd h (by simp)
            · rename_i b3 s3 hl
              simp only [Option.some.injEq] at h
              subst h
              exact negamaxLoop_board X hundo _ hc ply _ _ _ _ _ hl
            · rename_i bestEval b3 s3 hl
              simp only [Option.some.injEq] at h
              subst h
              exact negamaxLoop_board X hundo _ hc ply _ _ _ _ _ hl


/-- C1 (position restoration): when `unmakeMove` undoes `makeMove`, whatever
the position, depth, ply and cancellation behaviour, a call of `negamax` or of
`quiescence` that returns leaves the board it was given, so the identity hash
after the call is the hash before it; and below the ply ceiling every such
call does return, cancelled or not. -/
theorem position_restored [DecidableEq M] (X : Ext B M N T K H)
    (hundo : ∀ b m, X.unmakeMove (X.makeMove b m) m = b)
    (board : B) (depth : Int) (ply : Nat) (ext : Int) (s : State M N T K H) :
    (∀ fuel r, negamaxF X fuel board depth ply ext s = some r →
        r.2.1 = board ∧ X.hash r.2.1 = X.hash board)
    ∧ (∀ fuel r, quiescenceF X fuel board ply s = some r →
        r.2.1 = board ∧ X.hash r.2.1 = X.hash board)
    ∧ (ply < X.MAX_DEPTH →
        (∃ r, negamax X board depth ply ext s = some r ∧ r.2.1 = board
          ∧ X.hash r.2.1 = X.hash board)
        ∧ (∃ r, quiescence X board ply s = some r ∧ r.2.1 = board
          ∧ X.hash r.2.1 = X.hash board)) := by
  refine ⟨?_, ?_, ?_⟩
  · intro fuel r h
    have hb := negamaxF_board X hundo fuel board depth ply ext s r h
    exact ⟨hb, by rw [hb]⟩
  · intro fuel r h
    have hb := quiescenceF_board X hundo fuel board ply s r h
    exact ⟨hb, by rw [hb]⟩
  · intro hply
    constructor
    · obtain ⟨r, hr, hb⟩ := negamaxF_restores X hundo (X.MAX_DEPTH - ply) ply hply
        (by omega) board depth ext s
      exact ⟨r, hr, hb, by rw [hb]⟩
    · obtain ⟨r, hr, hb⟩ := quiescenceF_restores X hundo (X.MAX_DEPTH - ply) ply hply
        (by omega) board s
      exact ⟨r, hr, hb, by rw [hb]⟩

/-- C1 (position restoration), witnessed on the three-ply tree. -/
theorem position_restored_witness :
    (∀ b m, demoTree.ext.unmakeMove (demoTree.ext.makeMove b m) m = b)
    ∧ (∀ fuel r, negamaxF demoTree.ext fuel [] 2 0 0 (Tree.fresh noLimits) = some r →
        r.2.1 = [] ∧ demoTree.ext.hash r.2.1 = demoTree.ext.hash [])
    ∧ (∀ fuel r, quiescenceF demoTree.ext fuel [] 0 (Tree.fresh noLimits) = some r →
        r.2.1 = [] ∧ demoTree.ext.hash r.2.1 = demoTree.ext.hash [])
    ∧ (0 < demoTree.ext.MAX_DEPTH →
        (∃ r, negamax demoTree.ext [] 2 0 0 (Tree.fresh noLimits) = some r
          ∧ r.2.1 = [] ∧ demoTree.ext.hash r.2.1 = demoTree.ext.hash [])
        ∧ (∃ r, quiescence demoTree.ext [] 0 (Tree.fresh noLimits) = some r
          ∧ r.2.1 = [] ∧ demoTree.ext.hash r.2.1 = demoTree.ext.hash [])) :=
  ⟨tree_undo demoTree,
    position_restored demoTree.ext (tree_undo demoTree) [] 2 0 0 (Tree.fresh noLimits)⟩

theorem quiescenceLoop_respects (X : Ext B M N T K H)
    (R : State M N T K H → State M N T K H → Prop) (hR : Respected X R)
    (child : B → State M N T K H → Option (Int × B × State M N T K H))
    (hc : ∀ b t r, child b t = some r → R t r.2.2) (ply : Nat)
    (moves : List M) :
    ∀ board bestEval s r,
      quiescenceLoop X child ply moves board bestEval s = some r →
        R s r.2.2 := by
  induction moves with
  | nil =>
    intro board bestEval s r h
    simp only [quiescenceLoop, Option.some.injEq] at h
    subst h
    exact hR.refl s
  | cons mv rest ih =>
    intro board bestEval s r h
    simp only [quiescenceLoop] at h
    split at h
    · exact absurd h (by simp)
    · rename_i v b2 s2 hch
      have h1 : R s s2 := hR.trans _ _ _ (hR.net s _) (hc _ _ _ hch)
      have h2 : R s (observe X s2) := hR.trans _ _ _ h1 (hR.seen s2)
      split at h
      · simp only [Option.some.injEq] at h
        subst h
        exact h2
      · exact hR.trans _ _ _ h2 (ih _ _ _ _ h)

theorem quiescenceF_respects [DecidableEq M] (X : Ext B M N T K H)
    (R : State M N T K H → State M N T K H → Prop) (hR : Respected X R)
    (fuel : Nat) :
    ∀ board ply s r, quiescenceF X fuel board ply s = some r → R s r.2.2 := by
  induction fuel with
  | zero => intro board ply s r h; simp [quiescenceF] at h
  | succ fuel ih =>
    intro board ply s r h
    simp only [quiescenceF] at h
    have h0 := hR.over s
    have h1 := hR.enter s
    rcases hto : is_time_over X s with ⟨over, s0⟩
    rw [hto] at h h0 h1
    simp only at h h0 h1
    split at h
    · simp only [Option.some.injEq] at h
      subst h
      exact h0
    · rename_i hov
      have h1 := h1 (by simpa using hov)
      split at h
      · simp only [Option.some.injEq] at h
        subst h
        exact h1
      · exact hR.trans _ _ _ h1
          (quiescenceLoop_respects X R hR _ (fun b t r hr => ih b (ply + 1) t r hr)
            ply _ _ _ _ _ h)

theorem negamaxLoop_respects (X : Ext B M N T K H)
    (R : State M N T K H → State M N T K H → Prop) (hR : Respected X R)
    (child : B → State M N T K H → Option (Int × B × State M N T K H))
    (hc : ∀ b t r, child b t = some r → R t r.2.2) (ply : Nat)
    (moves : List M) :
    ∀ board bestEval s r,
      negamaxLoop X child ply moves board bestEval s = some r →
        R s r.2.2 := by
  induction moves with
  | nil =>
    intro board bestEval s r h
    simp only [negamaxLoop, Option.some.injEq] at h
    subst h
    exact hR.refl s
  | cons mv rest ih =>
    intro board bestEval s r h
    simp only [negamaxLoop] at h
    split at h
    · exact absurd h (by simp)
    · rename_i v b2 s2 hch
      have h1 : R s s2 := hR.trans _ _ _ (hR.net s _) (hc _ _ _ hch)
      have h2 : R s (observe X s2) := hR.trans _ _ _ h1 (hR.seen s2)
      split at h
      · simp only [Option.some.injEq] at h
        subst h
        exact h2
      · split at h
        · have hf := ih _ _ _ _ h
          by_cases hp : ply = 0
          · rw [if_pos hp] at hf
            exact hR.trans _ _ _ h2 (hR.trans _ _ _ (hR.published _ mv) hf)
          · rw [if_neg hp] at hf
            exact hR.trans _ _ _ h2 hf
        · exact hR.trans _ _ _ h2 (ih _ _ _ _ h)

theorem negamaxF_respects [DecidableEq M] (X : Ext B M N T K H)
    (R : State M N T K H → State M N T K H → Prop) (hR : Respected X R)
    (fuel : Nat) :
    ∀ board depth ply ext s r, negamaxF X fuel board depth ply ext s = some r →
      R s r.2.2 := by
  induction fuel with
  | zero => intro board depth ply ext s r h; simp [negamaxF] at h
  | succ fuel ih =>
    intro board depth ply ext s r h
    simp only [negamaxF] at h
    have h0 := hR.over s
    have h1 := hR.enter s
    rcases hto : is_time_over X s with ⟨over, s0⟩
    rw [hto] at h h0 h1
    simp only at h h0 h1
    split at h
    · simp only [Option.some.injEq] at h
      subst h
      exact h0
    · rename_i hov
      have h1 := h1 (by simpa using hov)
      split at h
      · exact hR.trans _ _ _ h1 (quiescenceF_respects X R hR _ _ _ _ _ h)
      · split at h
        · simp only [Option.some.injEq] at h
          subst h
          exact h1
        · split at h
          · simp only [Option.some.injEq] at h
            subst h
            exact h1
          · have hc : ∀ b t r,
                negamaxF X fuel b (depth - 1) (ply + 1) ext t = some r →
                  R t r.2.2 :=
              fun b t r hr => ih b (depth - 1) (ply + 1) ext t r hr
            split at h
            · exact absurd h (by simp)
            · rename_i b3 s3 hl
              simp only [Option.some.injEq] at h
              subst h
              have hf := negamaxLoop_respects X R hR _ hc ply _ _ _ _ _ hl
              by_cases hp : ply = 0
              · rw [if_pos hp] at hf
                exact hR.trans _ _ _ h1 (hR.trans _ _ _ (hR.published _ _) hf)
              · rw [if_neg hp] at hf
                exact hR.trans _ _ _ h1 hf
            · rename_i bestEval b3 s3 hl
              simp only [Option.some.injEq] at h
              subst h
              have hf := negamaxLoop_respects X R hR _ hc ply _ _ _ _ _ hl
              by_cases hp : ply = 0
              · rw [if_pos hp] at hf
                exact hR.trans _ _ _ h1 (hR.trans _ _ _ (hR.published _ _)
                  (hR.trans _ _ _ hf (hR.stored _ _ _)))
              · rw [if_neg hp] at hf
                exact hR.trans _ _ _ h1 (hR.trans _ _ _ hf (hR.stored _ _ _))

theorem is_time_over_nodes (X : Ext B M N T K H) (s : State M N T K H) :
    (is_time_over X s).2.nodes = s.nodes
    ∧ (is_time_over X s).2.searchopt = s.searchopt := by
  unfold is_time_over observe
  split
  · exact ⟨rfl, rfl⟩
  · split
    · split <;> exact ⟨rfl, rfl⟩
    · exact ⟨rfl, rfl⟩

theorem is_time_over_limit (X : Ext B M N T K H) (s : State M N T K H)
    (hset : s.searchopt.maxnodes ≠ -1) (hn : s.searchopt.maxnodes ≤ s.nodes) :
    is_time_over X s = (true, { s with halt := true }) := by
  unfold is_time_over
  rw [if_pos ⟨hset, hn⟩]

theorem is_time_over_below (X : Ext B M N T K H) (s : State M N T K H)
    (hset : s.searchopt.maxnodes ≠ -1) (h : (is_time_over X s).1 = false) :
    s.nodes < s.searchopt.maxnodes := by
  by_contra hn
  rw [is_time_over_limit X s hset (by omega)] at h
  exact absurd h (by simp)

theorem node_limit_respected (X : Ext B M N T K H) (L : Int) (hL : L ≠ -1) :
    Respected X (fun s t : State M N T K H =>
      s.searchopt.maxnodes = L → s.nodes ≤ L →
        t.searchopt.maxnodes = L ∧ t.nodes ≤ L) where
  refl := fun s h1 h2 => ⟨h1, h2⟩
  trans := fun s t u hst htu h1 h2 => htu (hst h1 h2).1 (hst h1 h2).2
  over := fun s h1 h2 => by
    obtain ⟨hn, ho⟩ := is_time_over_nodes X s
    rw [hn, ho]
    exact ⟨h1, h2⟩
  enter := fun s hov h1 h2 => by
    obtain ⟨hn, ho⟩ := is_time_over_nodes X s
    have hb := is_time_over_below X s (by rw [h1]; exact hL) hov
    simp only
    rw [hn, ho]
    exact ⟨h1, by omega⟩
  net := fun s n h1 h2 => ⟨h1, h2⟩
  seen := fun s h1 h2 => ⟨h1, h2⟩
  published := fun s m h1 h2 => ⟨h1, h2⟩
  stored := fun s e p h1 h2 => ⟨h1, h2⟩

/-- C11 (node limit): with a node limit `L ≥ 0` set, `is_time_over` called
with `nodes ≥ L` sets the flag and returns true, so a `negamax` or `quiescence`
call entered there returns `0` with the counter untouched; and a call entered
with `nodes ≤ L` returns with `nodes ≤ L`.  The counter only grows during a
call, so it is at most `L` at every moment of the call. -/
theorem node_limit [DecidableEq M] (X : Ext B M N T K H) (L : Int) (hL : 0 ≤ L)
    (s : State M N T K H) (hmax : s.searchopt.maxnodes = L) :
    (L ≤ s.nodes →
        is_time_over X s = (true, { s with halt := true })
        ∧ (∀ fuel board depth ply ext,
            negamaxF X (fuel + 1) board depth ply ext s
              = some (0, board, { s with halt := true }))
        ∧ (∀ fuel board ply,
            quiescenceF X (fuel + 1) board ply s
              = some (0, board, { s with halt := true })))
    ∧ (s.nodes ≤ L →
        (∀ fuel board depth ply ext r,
            negamaxF X fuel board depth ply ext s = some r →
              s.nodes ≤ r.2.2.nodes ∧ r.2.2.nodes ≤ L
                ∧ r.2.2.searchopt.maxnodes = L)
        ∧ (∀ fuel board ply r,
            quiescenceF X fuel board ply s = some r →
              s.nodes ≤ r.2.2.nodes ∧ r.2.2.nodes ≤ L
                ∧ r.2.2.searchopt.maxnodes = L)) := by
  have hset : s.searchopt.maxnodes ≠ -1 := by omega
  have hne : L ≠ -1 := by omega
  constructor
  · intro hn
    have hto := is_time_over_limit X s hset (by omega)
    refine ⟨hto, ?_, ?_⟩
    · intro fuel board depth ply ext
      simp only [negamaxF, hto, if_true]
    · intro fuel board ply
      simp only [quiescenceF, hto, if_true]
  · intro hn
    constructor
    · intro fuel board depth ply ext r h
      obtain ⟨h1, h2⟩ := negamaxF_respects X _ (node_limit_respected X L hne) fuel
        board depth ply ext s r h hmax hn
      exact ⟨(negamaxF_frame X fuel board depth ply ext s r h).1.nodes_mono, h2, h1⟩
    · intro fuel board ply r h
      obtain ⟨h1, h2⟩ := quiescenceF_respects X _ (node_limit_respected X L hne) fuel
        board ply s r h hmax hn
      exact ⟨(quiescenceF_kept X fuel board ply s r h).1.nodes_mono, h2, h1⟩

/-- C11 (node limit), witnessed on the three-ply tree with a limit of three
nodes: the search from the fresh engine stops at exactly three nodes. -/
theorem node_limit_witness :
    (0 : Int) ≤ 3 ∧ (Tree.fresh nodeCap).searchopt.maxnodes = 3
    ∧ (Tree.fresh nodeCap).nodes ≤ 3
    ∧ (negamax demoTree.ext [] 2 0 0 (Tree.fresh nodeCap)).map
        (fun r => (r.1, r.2.2.nodes, r.2.2.halt)) = some (0, 3, true)
    ∧ (∀ fuel board depth ply ext r,
        negamaxF demoTree.ext fuel board depth ply ext (Tree.fresh nodeCap) = some r →
          (Tree.fresh nodeCap).nodes ≤ r.2.2.nodes ∧ r.2.2.nodes ≤ 3
            ∧ r.2.2.searchopt.maxnodes = 3) :=
  ⟨by decide, rfl, by decide, by decide,
    ((node_limit demoTree.ext 3 (by decide) (Tree.fresh nodeCap) rfl).2
      (by decide)).1⟩

theorem wrap16_le (x : Int) : wrap16 x ≤ INT16_MAX := by
  unfold wrap16 INT16_MAX
  omega

theorem score_move_le [DecidableEq M] (X : Ext B M N T K H)
    (s : State M N T K H) (move : M) (board : B) (ply : Nat) :
    score_move X s move board ply ≤ INT16_MAX := by
  unfold score_move
  split
  · exact le_rfl
  · simp only
    split
    · exact wrap16_le _
    · split
      · exact wrap16_le _
      · exact wrap16_le _

theorem score_move_table [DecidableEq M] (X : Ext B M N T K H)
    (s : State M N T K H) (board : B) (ply : Nat) :
    score_move X s (X.ttGet s.tt (X.hash board) 0).move board ply = INT16_MAX := by
  unfold score_move
  rw [if_pos rfl]

theorem score_move_capture [DecidableEq M] (X : Ext B M N T K H)
    (s : State M N T K H) (move : M) (board : B) (ply : Nat)
    (hcap : X.isCapture board move = true)
    (hne : move ≠ (X.ttGet s.tt (X.hash board) 0).move) :
    score_move X s move board ply = capturePriority X s move board := by
  unfold score_move capturePriority
  rw [if_neg hne]
  simp only [hcap, if_true, zero_add]

theorem head_sorted_top (sort : List (M × Int) → List (M × Int))
    (hperm : ∀ l, (sort l).Perm l)
    (hdesc : ∀ l, (sort l).Pairwise (fun a b => a.2 ≥ b.2))
    (l : List (M × Int)) (x : M × Int) (hx : x ∈ l)
    (top : ∀ y ∈ l, y.1 ≠ x.1 → y.2 < x.2) :
    ((sort l).map Prod.fst).head? = some x.1 := by
  have hp := hperm l
  have hs := hdesc l
  cases hsl : sort l with
  | nil =>
    rw [hsl] at hp
    have := hp.symm.eq_nil
    rw [this] at hx
    exact absurd hx (by simp)
  | cons h t =>
    rw [hsl] at hp hs
    simp only [List.map_cons, List.head?_cons, Option.some.injEq]
    have hh : h ∈ l := hp.subset (List.mem_cons_self _ _)
    have hxs : x ∈ h :: t := hp.symm.subset hx
    by_contra hne
    have hlt := top h hh hne
    rcases List.mem_cons.mp hxs with e | e
    · rw [e] at hne
      exact hne rfl
    · have := List.rel_of_pairwise_cons hs e
      simp only at this
      omega

theorem order_moves_top [DecidableEq M] (X : Ext B M N T K H)
    (hperm : ∀ l, (X.sortMoves l).Perm l)
    (hdesc : ∀ l, (X.sortMoves l).Pairwise (fun a b => a.2 ≥ b.2))
    (s : State M N T K H) (board : B) (ply : Nat) (movelist : List M) (c : M)
    (hc : c ∈ movelist)
    (htop : ∀ m ∈ movelist, m ≠ c →
      score_move X s m board ply < score_move X s c board ply) :
    (order_moves X s movelist board ply).head? = some c := by
  unfold order_moves
  apply head_sorted_top X.sortMoves hperm hdesc _ (c, score_move X s c board ply)
  · exact List.mem_map.mpr ⟨c, hc, rfl⟩
  · intro y hy hne
    obtain ⟨m, hm, e⟩ := List.mem_map.mp hy
    rw [← e] at hne ⊢
    exact htop m hm hne

theorem tree_sort_desc (G : Tree) (l : List (Nat × Int)) :
    (G.ext.sortMoves l).Pairwise (fun a b => a.2 ≥ b.2) := by
  haveI : IsTotal (Nat × Int) (fun a b => a.2 ≥ b.2) := ⟨fun a b => le_total b.2 a.2⟩
  haveI : IsTrans (Nat × Int) (fun a b => a.2 ≥ b.2) :=
    ⟨fun a b c h1 h2 => le_trans h2 h1⟩
  exact List.sorted_insertionSort (fun a b : Nat × Int => a.2 ≥ b.2) l

/-- C12, counterexample: the list `[0, 1]` holds exactly one capture, move 0,
whose victim is worth 100; the only other move has priority 98, below the
victim's value; yet the capture, made by piece 4, gets priority 100 - 4 = 96
and is sorted second. -/
theorem capture_first_counterexample :
    ([0, 1] : List Nat).filter (fun m => orderExt.isCapture [] m) = [0]
    ∧ |orderState.params.PVAL (orderExt.pieceTo [] 0)| = 100
    ∧ score_move orderExt orderState 1 [] 0 = 98
    ∧ score_move orderExt orderState 0 [] 0 = 96
    ∧ order_moves orderExt orderState [0, 1] [] 0 = [1, 0] := by
  decide

/-- C12 (capture priority), amended: a capture that is not the table move gets
the priority `capturePriority` (victim value minus attacker class, plus the
good-capture bonus and the promotion value, in `int16_t`), the table move gets
`INT16_MAX`; and when the sort is a descending permutation, a capture of the
list whose priority is strictly above the priority of every other move of the
list is first after `order_moves`. -/
theorem capture_first [DecidableEq M] (X : Ext B M N T K H)
    (hperm : ∀ l, (X.sortMoves l).Perm l)
    (hdesc : ∀ l, (X.sortMoves l).Pairwise (fun a b => a.2 ≥ b.2))
    (s : State M N T K H) (board : B) (ply : Nat) (movelist : List M) (c : M)
    (hc : c ∈ movelist) (hcap : X.isCapture board c = true)
    (htop : ∀ m ∈ movelist, m ≠ c →
      score_move X s m board ply < score_move X s c board ply) :
    (c ≠ (X.ttGet s.tt (X.hash board) 0).move →
        score_move X s c board ply = capturePriority X s c board)
    ∧ (c = (X.ttGet s.tt (X.hash board) 0).move →
        score_move X s c board ply = INT16_MAX)
    ∧ (order_moves X s movelist board ply).head? = some c := by
  refine ⟨fun hne => score_move_capture X s c board ply hcap hne, ?_,
    order_moves_top X hperm hdesc s board ply movelist c hc htop⟩
  intro e
  rw [e]
  exact score_move_table X s board ply

/-- C12, witnessed on the ordering example: the capture with priority 96 is
sorted before the quiet move 5. -/
theorem capture_first_witness :
    (0 ∈ ([0, 5] : List Nat)) ∧ orderExt.isCapture [] 0 = true
    ∧ (∀ m ∈ ([0, 5] : List Nat), m ≠ 0 →
        score_move orderExt orderState m [] 0 < score_move orderExt orderState 0 [] 0)
    ∧ capturePriority orderExt orderState 0 [] = 96
    ∧ (order_moves orderExt orderState [0, 5] [] 0).head? = some 0 :=
  ⟨by decide, by decide, by decide, by decide,
    (capture_first orderExt (tree_sort_perm demoTree) (tree_sort_desc demoTree)
      orderState [] 0 [0, 5] 0 (by decide) (by decide) (by decide)).2.2⟩

/-- C13, counterexample: the table records move 5 for the position and the
list `[2, 5]` contains it; the promotion 2 to a piece worth 32767 also gets
priority `INT16_MAX`, no move is above, the sort is descending, and move 2
stays first. -/
theorem table_move_counterexample :
    (orderExt.ttGet orderStored.tt (orderExt.hash []) 0).move = 5
    ∧ 5 ∈ ([2, 5] : List Nat)
    ∧ score_move orderExt orderStored 5 [] 0 = INT16_MAX
    ∧ score_move orderExt orderStored 2 [] 0 = INT16_MAX
    ∧ (∀ l, (orderExt.sortMoves l).Pairwise (fun a b => a.2 ≥ b.2))
    ∧ order_moves orderExt orderStored [2, 5] [] 0 = [2, 5] :=
  ⟨by decide, by decide, by decide, by decide, tree_sort_desc demoTree, by decide⟩

/-- C13 (transposition move first), amended: the move recorded by the table
slot of the position gets priority `INT16_MAX`, no move gets more, and when no
other move of the list reaches `INT16_MAX` and the sort is a descending
permutation, the recorded move is first after `order_moves`. -/
theorem table_move_first [DecidableEq M] (X : Ext B M N T K H)
    (hperm : ∀ l, (X.sortMoves l).Perm l)
    (hdesc : ∀ l, (X.sortMoves l).Pairwise (fun a b => a.2 ≥ b.2))
    (s : State M N T K H) (board : B) (ply : Nat) (movelist : List M)
    (hm : (X.ttGet s.tt (X.hash board) 0).move ∈ movelist) :
    score_move X s (X.ttGet s.tt (X.hash board) 0).move board ply = INT16_MAX
    ∧ (∀ x ∈ movelist, score_move X s x board ply ≤ INT16_MAX)
    ∧ ((∀ x ∈ movelist, x ≠ (X.ttGet s.tt (X.hash board) 0).move →
          score_move X s x board ply ≠ INT16_MAX) →
        (order_moves X s movelist board ply).head?
          = some (X.ttGet s.tt (X.hash board) 0).move) := by
  refine ⟨score_move_table X s board ply,
    fun x _ => score_move_le X s x board ply, ?_⟩
  intro hno
  apply order_moves_top X hperm hdesc s board ply movelist _ hm
  intro x hx hne
  rw [score_move_table X s board ply]
  exact lt_of_le_of_ne (score_move_le X s x board ply) (hno x hx hne)

/-- C13, witnessed on the ordering example: with move 5 recorded, the list
`[0, 1, 5]` of a capture (96), a promotion (98) and the recorded move is sorted
with move 5 first. -/
theorem table_move_first_witness :
    (orderExt.ttGet orderStored.tt (orderExt.hash []) 0).move ∈ ([0, 1, 5] : List Nat)
    ∧ (∀ x ∈ ([0, 1, 5] : List Nat),
        x ≠ (orderExt.ttGet orderStored.tt (orderExt.hash []) 0).move →
          score_move orderExt orderStored x [] 0 ≠ INT16_MAX)
    ∧ (order_moves orderExt orderStored [0, 1, 5] [] 0).head?
        = some (orderExt.ttGet orderStored.tt (orderExt.hash []) 0).move :=
  ⟨by decide, by decide,
    (table_move_first orderExt (tree_sort_perm demoTree) (tree_sort_desc demoTree)
      orderStored [] 0 [0, 1, 5] (by decide)).2.2 (by decide)⟩

/-- C14 (lookup validation in move ordering), the divergence: `score_move`
gives `INT16_MAX` to the move of whatever entry `tt.get` returns, without
asking `tt.valid`.  With the slot of the position (hash 0) holding an entry
stored under key 17 with move 1, the entry is not valid for the position, yet
move 1 gets `INT16_MAX` and is sorted first, while with an empty table it gets
0 and the list keeps its order. -/
theorem ordering_unvalidated [DecidableEq M] (X : Ext B M N T K H)
    (s : State M N T K H) (board : B) (ply : Nat) :
    score_move X s (X.ttGet s.tt (X.hash board) 0).move board ply = INT16_MAX
    ∧ slotExt.hash [] = 0
    ∧ slotExt.ttValid slotState.tt (slotExt.ttGet slotState.tt (slotExt.hash []) 0)
        (slotExt.hash []) 0 = false
    ∧ score_move slotExt slotState 1 [] 0 = INT16_MAX
    ∧ score_move slotExt { slotState with tt := [] } 1 [] 0 = 0
    ∧ order_moves slotExt slotState [0, 1, 2] [] 0 = [1, 0, 2]
    ∧ order_moves slotExt { slotState with tt := [] } [0, 1, 2] [] 0 = [0, 1, 2] :=
  ⟨score_move_table X s board ply, by decide, by decide, by decide, by decide,
    by decide, by decide⟩

theorem storedFrom_trans (X : Ext B M N T K H) (p : Nat) (a b c : T)
    (h1 : StoredFrom X p a b) (h2 : StoredFrom X p b c) : StoredFrom X p a c := by
  induction h2 with
  | same => exact h1
  | store t2 e q _ hq ih => exact StoredFrom.store a t2 e q ih hq

theorem storedFrom_mono (X : Ext B M N T K H) (p q : Nat) (hpq : p ≤ q) (a b : T)
    (h : StoredFrom X q a b) : StoredFrom X p a b := by
  induction h with
  | same => exact StoredFrom.same a
  | store t2 e r _ hr ih => exact StoredFrom.store a t2 e r ih (le_trans hpq hr)

theorem is_time_over_set (X : Ext B M N T K H) (s : State M N T K H)
    (h : s.halt = true) : (is_time_over X s).1 = true := by
  unfold is_time_over observe
  split
  · rfl
  · simp only
    split
    · split <;> simp [h]
    · simp [h]

theorem quiescenceLoop_cancel (X : Ext B M N T K H)
    (child : B → State M N T K H → Option (Int × B × State M N T K H))
    (ply : Nat) (moves : List M) :
    ∀ board bestEval s r,
      quiescenceLoop X child ply moves board bestEval s = some r →
        s.halt = false → r.2.2.halt = true → r.1 = 0 := by
  induction moves with
  | nil =>
    intro board bestEval s r h hs hr
    simp only [quiescenceLoop, Option.some.injEq] at h
    subst h
    rw [hs] at hr
    exact absurd hr (by simp)
  | cons mv rest ih =>
    intro board bestEval s r h hs hr
    simp only [quiescenceLoop] at h
    split at h
    · exact absurd h (by simp)
    · rename_i v b2 s2 hch
      split at h
      · simp only [Option.some.injEq] at h
        subst h
        rfl
      · rename_i hh
        exact ih _ _ _ _ h (by simpa using hh) hr

theorem quiescenceF_cancel [DecidableEq M] (X : Ext B M N T K H) (fuel : Nat) :
    ∀ board ply s r, quiescenceF X fuel board ply s = some r →
      r.2.2.halt = true → r.1 = 0 := by
  cases fuel with
  | zero => intro board ply s r h; simp [quiescenceF] at h
  | succ fuel =>
    intro board ply s r h hr
    simp only [quiescenceF] at h
    have h0 := is_time_over_fst X s
    rcases hto : is_time_over X s with ⟨over, s0⟩
    rw [hto] at h h0
    simp only at h h0
    split at h
    · simp only [Option.some.injEq] at h
      subst h
      rfl
    · rename_i hov
      have hs0 : s0.halt = false := by
        rw [← h0]
        simpa using hov
      split at h
      · simp only [Option.some.injEq] at h
        subst h
        simp only at hr
        rw [hs0] at hr
        exact absurd hr (by simp)
      · exact quiescenceLoop_cancel X _ ply _ _ _ _ _ h hs0 hr

theorem negamaxLoop_cancel (X : Ext B M N T K H)
    (child : B → State M N T K H → Option (Int × B × State M N T K H))
    (ply : Nat)
    (hc : ∀ b t r, child b t = some r → StoredFrom X (ply + 1) t.tt r.2.2.tt)
    (moves : List M) :
    ∀ board bestEval s r,
      negamaxLoop X child ply moves board bestEval s = some r →
        StoredFrom X (ply + 1) s.tt r.2.2.tt
        ∧ (s.halt = false → ∀ v, r.1 = some v → r.2.2.halt = false) := by
  induction moves with
  | nil =>
    intro board bestEval s r h
    simp only [negamaxLoop, Option.some.injEq] at h
    subst h
    exact ⟨StoredFrom.same _, fun hs _ _ => hs⟩
  | cons mv rest ih =>
    intro board bestEval s r h
    simp only [negamaxLoop] at h
    split at h
    · exact absurd h (by simp)
    · rename_i v b2 s2 hch
      have h1 : StoredFrom X (ply + 1) s.tt s2.tt := hc _ _ _ hch
      split at h
      · simp only [Option.some.injEq] at h
        subst h
        exact ⟨h1, fun _ v hv => absurd hv (by simp)⟩
      · rename_i hh
        have hf : (observe X s2).halt = false := by simpa using hh
        split at h
        · obtain ⟨ha, hb⟩ := ih _ _ _ _ h
          by_cases hp : ply = 0
          · rw [if_pos hp] at ha hb
            exact ⟨storedFrom_trans X _ _ _ _ h1 ha, fun _ => hb hf⟩
          · rw [if_neg hp] at ha hb
            exact ⟨storedFrom_trans X _ _ _ _ h1 ha, fun _ => hb hf⟩
        · obtain ⟨ha, hb⟩ := ih _ _ _ _ h
          exact ⟨storedFrom_trans X _ _ _ _ h1 ha, fun _ => hb hf⟩

theorem negamaxF_cancel [DecidableEq M] (X : Ext B M N T K H) (fuel : Nat) :
    ∀ board depth ply ext s r, negamaxF X fuel board depth ply ext s = some r →
      StoredFrom X ply s.tt r.2.2.tt
      ∧ (r.2.2.halt = true → r.1 = 0 ∧ StoredFrom X (ply + 1) s.tt r.2.2.tt) := by
  induction fuel with
  | zero => intro board depth ply ext s r h; simp [negamaxF] at h
  | succ fuel ih =>
    intro board depth ply ext s r h
    simp only [negamaxF] at h
    have h0 := is_time_over_fst X s
    have ht := is_time_over_tt X s
    rcases hto : is_time_over X s with ⟨over, s0⟩
    rw [hto] at h h0 ht
    simp only at h h0 ht
    split at h
    · simp only [Option.some.injEq] at h
      subst h
      simp only
      rw [ht]
      exact ⟨StoredFrom.same _, fun _ => ⟨trivial, StoredFrom.same _⟩⟩
    · rename_i hov
      have hs0 : s0.halt = false := by
        rw [← h0]
        simpa using hov
      split at h
      · have hq := quiescenceF_tt X _ _ _ _ _ h
        simp only at hq
        rw [hq, ht]
        exact ⟨StoredFrom.same _, fun hr =>
          ⟨quiescenceF_cancel X _ _ _ _ _ h hr, StoredFrom.same _⟩⟩
      · split at h
        · simp only [Option.some.injEq] at h
          subst h
          simp only
          rw [ht, hs0]
          exact ⟨StoredFrom.same _, fun hr => absurd hr (by simp)⟩
        · split at h
          · simp only [Option.some.injEq] at h
            subst h
            simp only
            rw [ht, hs0]
            exact ⟨StoredFrom.same _, fun hr => absurd hr (by simp)⟩
          · have hc : ∀ b t r,
                negamaxF X fuel b (depth - 1) (ply + 1) ext t = some r →
                  StoredFrom X (ply + 1) t.tt r.2.2.tt :=
              fun b t r hr => (ih b (depth - 1) (ply + 1) ext t r hr).1
            split at h
            · exact absurd h (by simp)
            · rename_i b3 s3 hl
              simp only [Option.some.injEq] at h
              subst h
              obtain ⟨ha, _⟩ := negamaxLoop_cancel X _ ply hc _ _ _ _ _ hl
              have ha2 : StoredFrom X (ply + 1) s.tt s3.tt := by
                by_cases hp : ply = 0
                · rw [if_pos hp] at ha
                  simpa [ht] using ha
                · rw [if_neg hp] at ha
                  simpa [ht] using ha
              exact ⟨storedFrom_mono X _ _ (Nat.le_succ _) _ _ ha2,
                fun _ => ⟨rfl, ha2⟩⟩
            · rename_i bestEval b3 s3 hl
              simp only [Option.some.injEq] at h
              subst h
              obtain ⟨ha, hb⟩ := negamaxLoop_cancel X _ ply hc _ _ _ _ _ hl
              have ha2 : StoredFrom X (ply + 1) s.tt s3.tt := by
                by_cases hp : ply = 0
                · rw [if_pos hp] at ha
                  simpa [ht] using ha
                · rw [if_neg hp] at ha
                  simpa [ht] using ha
              have hb2 : s3.halt = false := by
                by_cases hp : ply = 0
                · rw [if_pos hp] at hb
                  exact hb hs0 _ rfl
                · rw [if_neg hp] at hb
                  exact hb hs0 _ rfl
              simp only
              rw [hb2]
              exact ⟨StoredFrom.store _ _ _ ply
                (storedFrom_mono X _ _ (Nat.le_succ _) _ _ ha2) le_rfl,
                fun hr => absurd hr (by simp)⟩

/-- C15 (cancellation propagation): `is_time_over`, `negamax` and `quiescence`
never clear the flag; a `negamax` or `quiescence` call that returns with the
flag set returned `0`, and every `tt.set` made during such a `negamax` call
carries a ply above the call's own (it was made by a node below that had
completed), while `quiescence` leaves the table as it was; a call entered with
the flag set returns `0` at once with the board, the node counter, the table,
the evaluator and `itermove` as they were. -/
theorem cancellation_propagates [DecidableEq M] (X : Ext B M N T K H) (board : B)
    (depth : Int) (ply : Nat) (ext : Int) (s : State M N T K H) :
    (s.halt = true → (is_time_over X s).2.halt = true)
    ∧ (∀ fuel r, negamaxF X fuel board depth ply ext s = some r →
        (s.halt = true → r.2.2.halt = true)
        ∧ (r.2.2.halt = true →
            r.1 = 0 ∧ StoredFrom X (ply + 1) s.tt r.2.2.tt))
    ∧ (∀ fuel r, quiescenceF X fuel board ply s = some r →
        (s.halt = true → r.2.2.halt = true)
        ∧ (r.2.2.halt = true → r.1 = 0 ∧ r.2.2.tt = s.tt))
    ∧ (s.halt = true → ∀ fuel,
        negamaxF X (fuel + 1) board depth ply ext s
          = some (0, board, (is_time_over X s).2)
        ∧ quiescenceF X (fuel + 1) board ply s
          = some (0, board, (is_time_over X s).2)
        ∧ (is_time_over X s).2.nodes = s.nodes
        ∧ (is_time_over X s).2.tt = s.tt
        ∧ (is_time_over X s).2.net = s.net
        ∧ (is_time_over X s).2.itermove = s.itermove) := by
  refine ⟨(frame_is_time_over X s).halt_mono, ?_, ?_, ?_⟩
  · intro fuel r h
    exact ⟨(negamaxF_frame X fuel board depth ply ext s r h).1.halt_mono,
      (negamaxF_cancel X fuel board depth ply ext s r h).2⟩
  · intro fuel r h
    exact ⟨(quiescenceF_kept X fuel board ply s r h).1.halt_mono,
      fun hr => ⟨quiescenceF_cancel X fuel board ply s r h hr,
        quiescenceF_tt X fuel board ply s r h⟩⟩
  · intro hs fuel
    have hov := is_time_over_set X s hs
    refine ⟨?_, ?_, (is_time_over_nodes X s).1, is_time_over_tt X s,
      is_time_over_net X s, is_time_over_itermove X s⟩
    · simp only [negamaxF]
      rcases hto : is_time_over X s with ⟨over, s0⟩
      rw [hto] at hov
      simp only at hov
      simp only [hov, if_true]
    · simp only [quiescenceF]
      rcases hto : is_time_over X s with ⟨over, s0⟩
      rw [hto] at hov
      simp only at hov
      simp only [hov, if_true]

/-- C15, witnessed on the three-ply tree with the flag set by the host at the
twelfth sample: the depth-2 root call returns `0` with the flag set after one
node below had stored its entry; and the same call entered with the flag set
returns `0` at once. -/
theorem cancellation_propagates_witness :
    (negamax haltTree.ext [] 2 0 0 (Tree.fresh noLimits)).map
        (fun r => (r.1, r.2.2.halt, r.2.2.tt.length, r.2.2.nodes))
      = some (0, true, 1, 8)
    ∧ (∀ fuel r, negamaxF haltTree.ext fuel [] 2 0 0 (Tree.fresh noLimits) = some r →
        r.2.2.halt = true →
          r.1 = 0 ∧ StoredFrom haltTree.ext (0 + 1) (Tree.fresh noLimits).tt r.2.2.tt)
    ∧ ({ Tree.fresh noLimits with halt := true } :
        State Nat (Nat → List Nat) (List (Entry Nat)) Unit Unit).halt = true
    ∧ (negamax haltTree.ext [] 2 0 0 { Tree.fresh noLimits with halt := true }).map
        (fun r => (r.1, r.2.1, r.2.2.nodes, r.2.2.tt.length)) = some (0, [], 0, 0) :=
  ⟨by decide,
    fun fuel r h =>
      ((cancellation_propagates haltTree.ext [] 2 0 0 (Tree.fresh noLimits)).2.1
        fuel r h).2,
    rfl, by decide⟩

theorem foldl_max_mem {α : Type} (g : α → Int) (l : List α) :
    ∀ init : Int, l.foldl (fun acc x => max acc (g x)) init = init
      ∨ ∃ x ∈ l, l.foldl (fun acc x => max acc (g x)) init = g x := by
  induction l with
  | nil => intro init; exact Or.inl rfl
  | cons a l ih =>
    intro init
    simp only [List.foldl_cons]
    rcases ih (max init (g a)) with h | ⟨x, hx, h⟩
    · rw [h]
      rcases le_total init (g a) with hle | hle
      · exact Or.inr ⟨a, List.mem_cons_self _ _, max_eq_right hle⟩
      · exact Or.inl (max_eq_left hle)
    · exact Or.inr ⟨x, List.mem_cons_of_mem _ hx, h⟩

/-- C16 (quiescence is a maximum over standing pat): when `unmakeMove` undoes
`makeMove`, the evaluator tracks the position and the sort permutes, a
`quiescence` call below the ply ceiling returns, and uncancelled it returns
the reference value `quiescenceValue`: the standing pat (the evaluation for
the side to move of the node's board, scaled by `(100 - halfMoveClock) / 100`)
at `ply = MAX_DEPTH - 1`, and otherwise the maximum of the standing pat and of
the negated quiescence values at `ply + 1` of the positions after every legal
capture; this maximum is attained, is at least every one of these values, and
is never below the standing pat. -/
theorem quiescence_maximum [DecidableEq M] (X : Ext B M N T K H)
    (sev : B → Bool → Int) (Sync : N → Nat → B → Prop)
    (hundo : ∀ b m, X.unmakeMove (X.makeMove b m) m = b)
    (hT : Tracks X sev Sync) (hperm : ∀ l, (X.sortMoves l).Perm l)
    (board : B) (ply : Nat) (s : State M N T K H)
    (hply : ply < X.MAX_DEPTH) (hs : Sync s.net ply board) :
    standPat X sev board
        = Int.tdiv (X.evaluate s.net ply (X.whiteturn board)
            * (100 - X.halfMoveClock board)) 100
    ∧ ∃ r, quiescence X board ply s = some r
      ∧ (r.2.2.halt = false →
          r.1 = quiescenceValue X sev (X.MAX_DEPTH - 1 - ply) board
          ∧ standPat X sev board ≤ r.1
          ∧ (ply + 1 = X.MAX_DEPTH → r.1 = standPat X sev board)
          ∧ (ply + 1 < X.MAX_DEPTH →
              r.1 = (X.legalCaptures board).foldl
                  (fun acc c => max acc
                    (-(quiescenceValue X sev (X.MAX_DEPTH - 2 - ply)
                        (X.makeMove board c))))
                  (standPat X sev board)
              ∧ (∀ c ∈ X.legalCaptures board,
                  -(quiescenceValue X sev (X.MAX_DEPTH - 2 - ply)
                      (X.makeMove board c)) ≤ r.1)
              ∧ (r.1 = standPat X sev board
                ∨ ∃ c ∈ X.legalCaptures board,
                    r.1 = -(quiescenceValue X sev
                      (X.MAX_DEPTH - 2 - ply) (X.makeMove board c))))) := by
  constructor
  · unfold standPat
    rw [hT.eval s.net ply board _ hs]
  obtain ⟨r, hr⟩ := quiescenceF_returns X (X.MAX_DEPTH - ply) ply hply (by omega)
    board s
  refine ⟨r, hr, fun hf => ?_⟩
  obtain ⟨_, _, hv⟩ := quiescenceF_value X sev Sync hundo hT hperm
    (X.MAX_DEPTH - ply) ply (by omega) board s r hs hr
  have hv2 := hv hf
  simp only at hv2
  have hk : X.MAX_DEPTH - ply - 1 = X.MAX_DEPTH - 1 - ply := by omega
  rw [hk] at hv2
  have hstep : ply + 1 < X.MAX_DEPTH →
      r.1 = (X.legalCaptures board).foldl
        (fun acc c => max acc
          (-(quiescenceValue X sev (X.MAX_DEPTH - 2 - ply)
              (X.makeMove board c))))
        (standPat X sev board) := by
    intro hlt
    obtain ⟨k, hk1⟩ : ∃ k, X.MAX_DEPTH - 1 - ply = k + 1 :=
      ⟨X.MAX_DEPTH - 2 - ply, by omega⟩
    have hk2 : X.MAX_DEPTH - 2 - ply = k := by omega
    rw [hv2, hk1, hk2]
    simp only [quiescenceValue]
  have hceil : ply + 1 = X.MAX_DEPTH → r.1 = standPat X sev board := by
    intro he
    have hk0 : X.MAX_DEPTH - 1 - ply = 0 := by omega
    rw [hv2, hk0]
    simp only [quiescenceValue]
  refine ⟨hv2, ?_, hceil, ?_⟩
  · rcases Nat.lt_or_ge (ply + 1) X.MAX_DEPTH with hlt | hge
    · rw [hstep hlt]
      exact (foldl_max_ge _ _ _).1
    · rw [hceil (by omega)]
  · intro hlt
    refine ⟨hstep hlt, ?_, ?_⟩
    · intro c hc
      rw [hstep hlt]
      exact (foldl_max_ge (fun c => -(quiescenceValue X sev
        (X.MAX_DEPTH - 2 - ply) (X.makeMove board c))) _ _).2 c hc
    · rw [hstep hlt]
      exact foldl_max_mem (fun c => -(quiescenceValue X sev
        (X.MAX_DEPTH - 2 - ply) (X.makeMove board c))) _ _

/-- C16, witnessed on the capture tree after root move 0, where Black is to
move: the standing pat, the evaluation for Black, is -5 (it is +5 for White),
the capture 7 leads to a position worth -30 for White, who is to move there,
and `quiescence` returns 30. -/
theorem quiescence_maximum_witness :
    (∀ b m, captureTree.ext.unmakeMove (captureTree.ext.makeMove b m) m = b)
    ∧ 1 < captureTree.ext.MAX_DEPTH
    ∧ Tree.sync afterZero.net 1 [0]
    ∧ (quiescence captureTree.ext [0] 1 afterZero).map (fun r => (r.1, r.2.2.halt))
        = some (30, false)
    ∧ captureTree.ext.whiteturn [0] = false
    ∧ captureTree.sev [0] false = -5 ∧ captureTree.sev [0] true = 5
    ∧ captureTree.sev [7, 0] true = -30
    ∧ standPat captureTree.ext captureTree.sev [0] = -5
    ∧ ∃ r, quiescence captureTree.ext [0] 1 afterZero = some r
      ∧ (r.2.2.halt = false →
          r.1 = quiescenceValue captureTree.ext captureTree.sev
            (captureTree.ext.MAX_DEPTH - 1 - 1) [0]
          ∧ standPat captureTree.ext captureTree.sev [0] ≤ r.1) :=
  ⟨tree_undo captureTree, by decide, rfl, by decide, by decide, by decide,
    by decide, by decide, by decide,
    (quiescence_maximum captureTree.ext captureTree.sev Tree.sync
      (tree_undo captureTree) (tree_tracks captureTree)
      (tree_sort_perm captureTree) [0] 1 afterZero (by decide) rfl).2.imp
      (fun _ h => ⟨h.1, fun hf => ⟨(h.2 hf).1, (h.2 hf).2.1⟩⟩)⟩

theorem get_move_pass_next [DecidableEq M] (X : Ext B M N T K H) (board : B)
    (l : Loop M N T K H) (it : Iter M) (b2 : B) (l2 : Loop M N T K H)
    (hp : get_move_pass X board l = some (Pass.again it b2 l2)) :
    l2.st.params = l.st.params
    ∧ (it.halted = false → (it.score ≤ it.alpha ∨ it.score ≥ it.beta) →
        l2.depth = it.depth ∧ l2.alpha = -INT_MAX ∧ l2.beta = INT_MAX)
    ∧ (it.halted = false → ¬ (it.score ≤ it.alpha ∨ it.score ≥ it.beta) →
        l2.depth = it.depth + 1
        ∧ l2.alpha = it.score - l.st.params.ASPIRATION_WINDOW
        ∧ l2.beta = it.score + l.st.params.ASPIRATION_WINDOW) := by
  rcases get_move_pass_cases X board l _ hp with h | ⟨_, _, _, v, b3, s2, hn, hq⟩
  · exact absurd h (by simp)
  · have hpar : (observe X s2).params = l.st.params := by
      have hf := (negamaxF_frame X _ _ _ _ _ _ _ hn).1.params
      simp only at hf
      show s2.params = l.st.params
      rw [hf, (skipIfStable_frame _ _).2.2.2.2.1]
      rfl
    by_cases hh : (observe X s2).halt = false
    · by_cases hw : v ≤ l.alpha ∨ v ≥ l.beta
      · rw [get_move_after_research X l v b3 s2 hh hw] at hq
        simp only [Pass.again.injEq] at hq
        obtain ⟨e1, _, e3⟩ := hq
        subst e1
        subst e3
        exact ⟨hpar, fun _ _ => ⟨rfl, rfl, rfl⟩, fun _ hnw => absurd hw hnw⟩
      · by_cases hm : X.isMate v = false
        · rw [get_move_after_advance X l v b3 s2 hh hw hm] at hq
          simp only [Pass.again.injEq] at hq
          obtain ⟨e1, _, e3⟩ := hq
          subst e1
          subst e3
          have hcp : (countConsecutive (observe X s2)).params = l.st.params := by
            rw [(countConsecutive_frame _).2.2.2.2.1, hpar]
          refine ⟨hcp, fun _ hiw => absurd hiw hw, fun _ _ => ⟨rfl, ?_, ?_⟩⟩
          · show v - _ = v - _
            rw [hcp]
          · show v + _ = v + _
            rw [hcp]
        · rw [get_move_after_mate X l v b3 s2 hh hw (by simpa using hm)] at hq
          exact absurd hq (by simp)
    · have hh2 : (observe X s2).halt = true := by simpa using hh
      by_cases hm : X.isMate l.eval = true
      · rw [get_move_after_cancel_mate X l v b3 s2 hh2 hm] at hq
        exact absurd hq (by simp)
      · rw [get_move_after_cancel X l v b3 s2 hh2 hm] at hq
        simp only [Pass.again.injEq] at hq
        obtain ⟨e1, _, e3⟩ := hq
        subst e1
        subst e3
        exact ⟨hpar, fun hf => absurd hf (by simp), fun hf => absurd hf (by simp)⟩

theorem get_move_loop_chain [DecidableEq M] (X : Ext B M N T K H)
    (P : RaphaelParams) (fuel : Nat) :
    ∀ (board : B) (l : Loop M N T K H) (o : Outcome M N T K H),
      get_move_loop X fuel board l = some o → l.st.params = P →
      (∀ it rest, o.iters = it :: rest →
        it.depth = l.depth ∧ it.alpha = l.alpha ∧ it.beta = l.beta)
      ∧ (∀ pre it1 it2 post, o.iters = pre ++ it1 :: it2 :: post →
          it1.halted = false →
          ((it1.score ≤ it1.alpha ∨ it1.score ≥ it1.beta) →
            it2.depth = it1.depth ∧ it2.alpha = -INT_MAX ∧ it2.beta = INT_MAX)
          ∧ (¬ (it1.score ≤ it1.alpha ∨ it1.score ≥ it1.beta) →
            it2.depth = it1.depth + 1
            ∧ it2.alpha = it1.score - P.ASPIRATION_WINDOW
            ∧ it2.beta = it1.score + P.ASPIRATION_WINDOW)) := by
  induction fuel with
  | zero => intro board l o h; simp [get_move_loop] at h
  | succ fuel ih =>
    intro board l o h hP
    simp only [get_move_loop] at h
    split at h
    · exact absurd h (by simp)
    · rename_i move st it hp
      simp only [Option.some.injEq] at h
      subst h
      constructor
      · intro it1 rest hl
        simp only at hl
        cases it with
        | none => simp at hl
        | some it0 =>
          simp only [Option.toList, List.cons.injEq] at hl
          obtain ⟨e, _⟩ := hl
          subst e
          exact get_move_pass_iter X board l _ it0 hp rfl
      · intro pre it1 it2 post hl
        simp only at hl
        have hlen := congrArg List.length hl
        cases it <;> simp [Option.toList] at hlen <;> omega
    · rename_i it b2 l2 hp
      obtain ⟨o2, ho2, _, _, hit⟩ := outcome_push_some h
      obtain ⟨hpar, hre, hadv⟩ := get_move_pass_next X board l it b2 l2 hp
      obtain ⟨ih1, ih2⟩ := ih b2 l2 o2 ho2 (hpar.trans hP)
      constructor
      · intro it1 rest hl
        rw [hit] at hl
        simp only [List.cons.injEq] at hl
        obtain ⟨e, _⟩ := hl
        subst e
        exact get_move_pass_iter X board l _ it hp rfl
      · intro pre it1 it2 post hl hrun
        rw [hit] at hl
        cases pre with
        | nil =>
          simp only [List.nil_append, List.cons.injEq] at hl
          obtain ⟨e, hrest⟩ := hl
          subst e
          obtain ⟨d2, a2, b2⟩ := ih1 it2 post hrest
          rw [d2, a2, b2, ← hP]
          exact ⟨hre hrun, hadv hrun⟩
        | cons x pre2 =>
          simp only [List.cons_append, List.cons.injEq] at hl
          exact ih2 pre2 it1 it2 post hl.2 hrun

theorem get_move_init_params (X : Ext B M N T K H) (s : State M N T K H)
    (board : B) (t_remain t_inc : Int) :
    (get_move_init X s board t_remain t_inc).st.params = s.params := by
  unfold get_move_init
  simp only
  split
  · simp only
    rw [(start_search_timer_frame X _ board t_remain t_inc).2.2.2.2.2.2.1]
  · simp only
    rw [(start_search_timer_frame X _ board t_remain t_inc).2.2.2.2.2.2.1]

/-- C17 (aspiration retry): in the record of the `negamax` calls of one
`get_move` run, let `it1` be an uncancelled call and `it2` the next call.  If
the score of `it1` is `≤ alpha` or `≥ beta`, `it2` is at the same depth with
the window `(-INT_MAX, INT_MAX)`; if it is inside the window, `it2` is one
deeper with the window `score ± ASPIRATION_WINDOW`.  Hence when `it2` is an
uncancelled second call at the depth of `it1` with a score strictly between
`-INT_MAX` and `INT_MAX`, the call after it is one deeper: no depth is
searched three times in succession. -/
theorem aspiration_retry [DecidableEq M] (X : Ext B M N T K H) (fuel : Nat)
    (s : State M N T K H) (board : B) (t_remain t_inc : Int)
    (o : Outcome M N T K H)
    (h : get_move X fuel s board t_remain t_inc = some o)
    (pre : List (Iter M)) (it1 it2 : Iter M) (post : List (Iter M))
    (hlog : o.iters = pre ++ it1 :: it2 :: post) (hrun : it1.halted = false) :
    ((it1.score ≤ it1.alpha ∨ it1.score ≥ it1.beta) →
        it2.depth = it1.depth ∧ it2.alpha = -INT_MAX ∧ it2.beta = INT_MAX)
    ∧ (¬ (it1.score ≤ it1.alpha ∨ it1.score ≥ it1.beta) →
        it2.depth = it1.depth + 1
        ∧ it2.alpha = it1.score - s.params.ASPIRATION_WINDOW
        ∧ it2.beta = it1.score + s.params.ASPIRATION_WINDOW)
    ∧ (∀ it3 post2, post = it3 :: post2 → it2.halted = false →
        it2.depth = it1.depth → -INT_MAX < it2.score → it2.score < INT_MAX →
          it3.depth = it2.depth + 1) := by
  have hch := (get_move_loop_chain X s.params fuel board _ o h
    (get_move_init_params X s board t_remain t_inc)).2
  obtain ⟨h1, h2⟩ := hch pre it1 it2 post hlog hrun
  refine ⟨h1, h2, ?_⟩
  intro it3 post2 hpost hrun2 hsame hlo hhi
  have hwin : it1.score ≤ it1.alpha ∨ it1.score ≥ it1.beta := by
    by_contra hn
    have := (h2 hn).1
    omega
  obtain ⟨_, ha, hb⟩ := h1 hwin
  have hlog2 : o.iters = (pre ++ [it1]) ++ it2 :: it3 :: post2 := by
    rw [hlog, hpost]
    simp
  obtain ⟨_, h4⟩ := hch (pre ++ [it1]) it2 it3 post2 hlog2 hrun2
  exact (h4 (by rw [ha, hb]; omega)).1

/-- C17, witnessed on the swinging line with depth limit 3: depth 2 scores 300
outside the window `(-50, 50)`, is searched again with the full window, and
the next call is at depth 3 with the window `(250, 350)`. -/
theorem aspiration_retry_witness :
    get_move swingTree.ext 10 (Tree.fresh ⟨3, -1, -1, 0, false⟩) [] 0 0
      = some swingOutcome
    ∧ swingOutcome.iters
      = [swingIter 1 (-INT_MAX) INT_MAX 0] ++ swingIter 2 (-50) 50 300
          :: swingIter 2 (-INT_MAX) INT_MAX 300
          :: [swingIter 3 250 350 0, swingIter 3 (-INT_MAX) INT_MAX 0]
    ∧ (swingIter 2 (-50) 50 300).halted = false
    ∧ (((swingIter 2 (-50) 50 300).score ≤ (swingIter 2 (-50) 50 300).alpha
          ∨ (swingIter 2 (-50) 50 300).score ≥ (swingIter 2 (-50) 50 300).beta) →
        (swingIter 2 (-INT_MAX) INT_MAX 300).depth = (swingIter 2 (-50) 50 300).depth
        ∧ (swingIter 2 (-INT_MAX) INT_MAX 300).alpha = -INT_MAX
        ∧ (swingIter 2 (-INT_MAX) INT_MAX 300).beta = INT_MAX)
    ∧ (∀ it3 post2,
        [swingIter 3 250 350 0, swingIter 3 (-INT_MAX) INT_MAX 0] = it3 :: post2 →
        (swingIter 2 (-INT_MAX) INT_MAX 300).halted = false →
        (swingIter 2 (-INT_MAX) INT_MAX 300).depth = (swingIter 2 (-50) 50 300).depth →
        -INT_MAX < (swingIter 2 (-INT_MAX) INT_MAX 300).score →
        (swingIter 2 (-INT_MAX) INT_MAX 300).score < INT_MAX →
          it3.depth = (swingIter 2 (-INT_MAX) INT_MAX 300).depth + 1) :=
  ⟨(Option.some_get _).symm, by decide, rfl,
    (aspiration_retry swingTree.ext 10 (Tree.fresh ⟨3, -1, -1, 0, false⟩) [] 0 0
      swingOutcome (Option.some_get _).symm [swingIter 1 (-INT_MAX) INT_MAX 0]
      (swingIter 2 (-50) 50 300) (swingIter 2 (-INT_MAX) INT_MAX 300)
      [swingIter 3 250 350 0, swingIter 3 (-INT_MAX) INT_MAX 0] (by decide) rfl).1,
    (aspiration_retry swingTree.ext 10 (Tree.fresh ⟨3, -1, -1, 0, false⟩) [] 0 0
      swingOutcome (Option.some_get _).symm [swingIter 1 (-INT_MAX) INT_MAX 0]
      (swingIter 2 (-50) 50 300) (swingIter 2 (-INT_MAX) INT_MAX 300)
      [swingIter 3 250 350 0, swingIter 3 (-INT_MAX) INT_MAX 0] (by decide) rfl).2.2⟩

theorem quiescenceValue_sort (X : Ext B M N T K H)
    (sort : List (M × Int) → List (M × Int)) (sev : B → Bool → Int)
    (k : Nat) :
    ∀ b, quiescenceValue (withSort X sort) sev k b = quiescenceValue X sev k b := by
  induction k with
  | zero => intro b; rfl
  | succ k ih =>
    intro b
    simp only [quiescenceValue]
    have : ∀ c, quiescenceValue (withSort X sort) sev k ((withSort X sort).makeMove b c)
        = quiescenceValue X sev k (X.makeMove b c) := fun c => ih _
    simp only [this]
    rfl

theorem negamaxValue_sort (X : Ext B M N T K H)
    (sort : List (M × Int) → List (M × Int)) (sev : B → Bool → Int)
    (k : Nat) :
    ∀ depth ply b, negamaxValue (withSort X sort) sev k depth ply b
      = negamaxValue X sev k depth ply b := by
  induction k with
  | zero => intro depth ply b; rfl
  | succ k ih =>
    intro depth ply b
    simp only [negamaxValue]
    have : ∀ c, negamaxValue (withSort X sort) sev k (depth - 1) (ply + 1)
          ((withSort X sort).makeMove b c)
        = negamaxValue X sev k (depth - 1) (ply + 1) (X.makeMove b c) :=
      fun c => ih _ _ _
    simp only [this, quiescenceValue_sort]
    rfl

theorem tracks_sort (X : Ext B M N T K H)
    (sort : List (M × Int) → List (M × Int)) (sev : B → Bool → Int)
    (Sync : N → Nat → B → Prop) (hT : Tracks X sev Sync) :
    Tracks (withSort X sort) sev Sync :=
  ⟨hT.eval, hT.step, hT.frame, hT.init⟩

theorem negamaxValue_unfold (X : Ext B M N T K H) (sev : B → Bool → Int)
    (depth : Int) (ply : Nat) (b : B) (hply : ply < X.MAX_DEPTH) :
    negamaxValue X sev (X.MAX_DEPTH - 1 - ply) depth ply b
      = if depth ≤ 0 ∨ ply + 1 = X.MAX_DEPTH then
          quiescenceValue X sev (X.MAX_DEPTH - 1 - ply) b
        else if ply ≠ 0 ∧ (X.isRepetition b ∨ X.isHalfMoveDraw b) then 0
        else if (X.legalAll b).isEmpty then
          (if X.inCheck b then -X.MATE_EVAL + ply else 0)
        else
          (X.legalAll b).foldl
            (fun acc mv => max acc
              (-(negamaxValue X sev (X.MAX_DEPTH - 1 - (ply + 1)) (depth - 1)
                  (ply + 1) (X.makeMove b mv))))
            (-INT_MAX) := by
  rcases Nat.lt_or_ge (ply + 1) X.MAX_DEPTH with hlt | hge
  · obtain ⟨k, hk⟩ : ∃ k, X.MAX_DEPTH - 1 - ply = k + 1 :=
      ⟨X.MAX_DEPTH - 2 - ply, by omega⟩
    have hk2 : X.MAX_DEPTH - 1 - (ply + 1) = k := by omega
    rw [hk, hk2]
    simp only [negamaxValue]
    have hc : (depth ≤ 0 ∨ ply + 1 = X.MAX_DEPTH) ↔ depth ≤ 0 :=
      ⟨fun h => h.elim id (fun e => absurd e (by omega)), Or.inl⟩
    simp only [hc]
  · have hk : X.MAX_DEPTH - 1 - ply = 0 := by omega
    rw [hk, if_pos (Or.inr (by omega))]
    simp only [negamaxValue, quiescenceValue]

/-- C18 (score is independent of ordering state): when `unmakeMove` undoes
`makeMove`, the evaluator tracks the position and the sort permutes, a
`negamax` call below the ply ceiling returns, and uncancelled it returns the
reference value `negamaxValue`, whatever the engine state holds in the
transposition, killer and history tables and whichever permutation the sort
produces.  The reference is the plain full-width recursion: the quiescence
value at `depth ≤ 0` or `ply = MAX_DEPTH - 1` (its standing pat is the
evaluation for the side to move of the node's board), `0` on a repetition or
half-move draw off the root, the mate or stalemate score without legal moves,
and else the maximum, started like `bestEval` at `-INT_MAX`, of the negated
child values over all legal moves. -/
theorem score_independent [DecidableEq M] (X : Ext B M N T K H)
    (sev : B → Bool → Int) (Sync : N → Nat → B → Prop)
    (hundo : ∀ b m, X.unmakeMove (X.makeMove b m) m = b)
    (hT : Tracks X sev Sync) (hperm : ∀ l, (X.sortMoves l).Perm l)
    (board : B) (depth : Int) (ply : Nat)
    (hply : ply < X.MAX_DEPTH) :
    (∀ (ext : Int) (s : State M N T K H), Sync s.net ply board →
        ∃ r, negamax X board depth ply ext s = some r
          ∧ (r.2.2.halt = false →
              r.1 = negamaxValue X sev (X.MAX_DEPTH - 1 - ply) depth ply board))
    ∧ (∀ (sort : List (M × Int) → List (M × Int)), (∀ l, (sort l).Perm l) →
        ∀ (ext : Int) (s : State M N T K H),
          Sync s.net ply board →
          ∃ r, negamax (withSort X sort) board depth ply ext s = some r
            ∧ (r.2.2.halt = false →
                r.1 = negamaxValue X sev (X.MAX_DEPTH - 1 - ply) depth ply board))
    ∧ negamaxValue X sev (X.MAX_DEPTH - 1 - ply) depth ply board
        = (if depth ≤ 0 ∨ ply + 1 = X.MAX_DEPTH then
            quiescenceValue X sev (X.MAX_DEPTH - 1 - ply) board
          else if ply ≠ 0 ∧ (X.isRepetition board ∨ X.isHalfMoveDraw board) then 0
          else if (X.legalAll board).isEmpty then
            (if X.inCheck board then -X.MATE_EVAL + ply else 0)
          else
            (X.legalAll board).foldl
              (fun acc mv => max acc
                (-(negamaxValue X sev (X.MAX_DEPTH - 1 - (ply + 1)) (depth - 1)
                    (ply + 1) (X.makeMove board mv))))
              (-INT_MAX))
    ∧ quiescenceValue X sev 0 board
        = Int.tdiv (sev board (X.whiteturn board) * (100 - X.halfMoveClock board)) 100
    ∧ (∀ g : M → Int,
        (∀ mv ∈ X.legalAll board,
          g mv ≤ (X.legalAll board).foldl (fun acc mv => max acc (g mv)) (-INT_MAX))
        ∧ (X.legalAll board ≠ [] → (∀ mv ∈ X.legalAll board, -INT_MAX ≤ g mv) →
            ∃ mv ∈ X.legalAll board,
              (X.legalAll board).foldl (fun acc mv => max acc (g mv)) (-INT_MAX)
                = g mv)) := by
  have key : ∀ (Y : Ext B M N T K H), Y.MAX_DEPTH = X.MAX_DEPTH →
      (∀ b m, Y.unmakeMove (Y.makeMove b m) m = b) → Tracks Y sev Sync →
      (∀ l, (Y.sortMoves l).Perm l) →
      (∀ k d p b, negamaxValue Y sev k d p b = negamaxValue X sev k d p b) →
      ∀ (ext : Int) (s : State M N T K H), Sync s.net ply board →
        ∃ r, negamax Y board depth ply ext s = some r
          ∧ (r.2.2.halt = false →
              r.1 = negamaxValue X sev (X.MAX_DEPTH - 1 - ply) depth ply board) := by
    intro Y hmd hu hTY hp hval ext s hs
    obtain ⟨r, hr⟩ := negamaxF_returns Y (Y.MAX_DEPTH - ply) ply (by omega)
      (by omega) board depth ext s
    refine ⟨r, hr, fun hf => ?_⟩
    obtain ⟨_, _, hv⟩ := negamaxF_value Y sev Sync hu hTY hp
      (Y.MAX_DEPTH - ply) ply (by omega) depth ext board s r hs hr
    have hv2 := hv hf
    simp only at hv2
    have hk : Y.MAX_DEPTH - ply - 1 = X.MAX_DEPTH - 1 - ply := by omega
    rw [hv2, hk, hval]
  refine ⟨key X rfl hundo hT hperm (fun _ _ _ _ => rfl), ?_,
    negamaxValue_unfold X sev depth ply board hply, rfl, ?_⟩
  · intro sort hsort
    exact key (withSort X sort) rfl hundo (tracks_sort X sort sev Sync hT) hsort
      (fun k d p b => negamaxValue_sort X sort sev k d p b)
  · intro g
    refine ⟨(foldl_max_ge g _ _).2, fun hne hlo => ?_⟩
    rcases foldl_max_mem g (X.legalAll board) (-INT_MAX) with h | h
    · obtain ⟨mv, hmv⟩ := List.exists_mem_of_ne_nil _ hne
      refine ⟨mv, hmv, le_antisymm ?_ ((foldl_max_ge g _ _).2 mv hmv)⟩
      rw [h]
      exact hlo mv hmv
    · exact h

/-- C18, witnessed on the three-ply tree at depth 2, whose evaluator answers
with opposite signs for the two sides: the fresh engine with the descending
sort and the engine whose table prefers move 2 with a sort that reverses the
list both return the reference value 5. -/
theorem score_independent_witness :
    (∀ b m, demoTree.ext.unmakeMove (demoTree.ext.makeMove b m) m = b)
    ∧ 0 < demoTree.ext.MAX_DEPTH
    ∧ (demoTree.sev [0, 0] true = 5 ∧ demoTree.sev [0, 0] false = -5)
    ∧ (negamax demoTree.ext [] 2 0 0 (Tree.fresh noLimits)).map
        (fun r => (r.1, r.2.2.halt, r.2.2.itermove)) = some (5, false, 0)
    ∧ (negamax (withSort demoTree.ext List.reverse) [] 2 0 0 preferTwo).map
        (fun r => (r.1, r.2.2.halt, r.2.2.itermove)) = some (5, false, 0)
    ∧ negamaxValue demoTree.ext demoTree.sev (demoTree.ext.MAX_DEPTH - 1 - 0) 2 0 []
        = 5
    ∧ (∀ (sort : List (Nat × Int) → List (Nat × Int)), (∀ l, (sort l).Perm l) →
        ∀ (ext : Int) (s : State Nat (Nat → List Nat) (List (Entry Nat)) Unit Unit),
          Tree.sync s.net 0 [] →
          ∃ r, negamax (withSort demoTree.ext sort) [] 2 0 ext s = some r
            ∧ (r.2.2.halt = false →
                r.1 = negamaxValue demoTree.ext demoTree.sev
                  (demoTree.ext.MAX_DEPTH - 1 - 0) 2 0 [])) :=
  ⟨tree_undo demoTree, by decide, by decide, by decide, by decide, by decide,
    (score_independent demoTree.ext demoTree.sev Tree.sync (tree_undo demoTree)
      (tree_tracks demoTree) (tree_sort_perm demoTree) [] 2 0 (by decide)).2.1⟩

theorem updatedBelow_trans (X : Ext B M N T K H) (bound : Nat) (a b c : N)
    (h1 : UpdatedBelow X bound a b) (h2 : UpdatedBelow X bound b c) :
    UpdatedBelow X bound a c := by
  induction h2 with
  | same => exact h1
  | step n2 p m bd _ hp ih => exact UpdatedBelow.step a n2 p m bd ih hp

theorem quiescenceLoop_net (X : Ext B M N T K H)
    (child : B → State M N T K H → Option (Int × B × State M N T K H))
    (hc : ∀ b t r, child b t = some r → UpdatedBelow X X.MAX_DEPTH t.net r.2.2.net)
    (ply : Nat) (hply : ply + 1 < X.MAX_DEPTH) (moves : List M) :
    ∀ board bestEval s r,
      quiescenceLoop X child ply moves board bestEval s = some r →
        UpdatedBelow X X.MAX_DEPTH s.net r.2.2.net := by
  induction moves with
  | nil =>
    intro board bestEval s r h
    simp only [quiescenceLoop, Option.some.injEq] at h
    subst h
    exact UpdatedBelow.same _
  | cons mv rest ih =>
    intro board bestEval s r h
    simp only [quiescenceLoop] at h
    split at h
    · exact absurd h (by simp)
    · rename_i v b2 s2 hch
      have h1 : UpdatedBelow X X.MAX_DEPTH s.net (observe X s2).net :=
        updatedBelow_trans X _ _ _ _
          (UpdatedBelow.step _ _ (ply + 1) mv board (UpdatedBelow.same s.net) hply)
          (hc _ _ _ hch)
      split at h
      · simp only [Option.some.injEq] at h
        subst h
        exact h1
      · exact updatedBelow_trans X _ _ _ _ h1 (ih _ _ _ _ h)

theorem quiescenceF_net [DecidableEq M] (X : Ext B M N T K H) (fuel : Nat) :
    ∀ board ply s r, ply < X.MAX_DEPTH → quiescenceF X fuel board ply s = some r →
      UpdatedBelow X X.MAX_DEPTH s.net r.2.2.net := by
  induction fuel with
  | zero => intro board ply s r _ h; simp [quiescenceF] at h
  | succ fuel ih =>
    intro board ply s r hply h
    simp only [quiescenceF] at h
    have h0 := is_time_over_net X s
    rcases hto : is_time_over X s with ⟨over, s0⟩
    rw [hto] at h h0
    simp only at h h0
    split at h
    · simp only [Option.some.injEq] at h
      subst h
      simp only
      rw [h0]
      exact UpdatedBelow.same _
    · split at h
      · simp only [Option.some.injEq] at h
        subst h
        simp only
        rw [h0]
        exact UpdatedBelow.same _
      · rename_i hceil
        have hlt : ply + 1 < X.MAX_DEPTH := by omega
        have := quiescenceLoop_net X _
          (fun b t r hr => ih b (ply + 1) t r hlt hr) ply hlt _ _ _ _ _ h
        simpa [h0] using this

theorem negamaxLoop_net (X : Ext B M N T K H)
    (child : B → State M N T K H → Option (Int × B × State M N T K H))
    (hc : ∀ b t r, child b t = some r → UpdatedBelow X X.MAX_DEPTH t.net r.2.2.net)
    (ply : Nat) (hply : ply + 1 < X.MAX_DEPTH) (moves : List M) :
    ∀ board bestEval s r,
      negamaxLoop X child ply moves board bestEval s = some r →
        UpdatedBelow X X.MAX_DEPTH s.net r.2.2.net := by
  induction moves with
  | nil =>
    intro board bestEval s r h
    simp only [negamaxLoop, Option.some.injEq] at h
    subst h
    exact UpdatedBelow.same _
  | cons mv rest ih =>
    intro board bestEval s r h
    simp only [negamaxLoop] at h
    split at h
    · exact absurd h (by simp)
    · rename_i v b2 s2 hch
      have h1 : UpdatedBelow X X.MAX_DEPTH s.net (observe X s2).net :=
        updatedBelow_trans X _ _ _ _
          (UpdatedBelow.step _ _ (ply + 1) mv board (UpdatedBelow.same s.net) hply)
          (hc _ _ _ hch)
      split at h
      · simp only [Option.some.injEq] at h
        subst h
        exact h1
      · split at h
        · have hf := ih _ _ _ _ h
          by_cases hp : ply = 0
          · rw [if_pos hp] at hf
            exact updatedBelow_trans X _ _ _ _ h1 hf
          · rw [if_neg hp] at hf
            exact updatedBelow_trans X _ _ _ _ h1 hf
        · exact updatedBelow_trans X _ _ _ _ h1 (ih _ _ _ _ h)

theorem negamaxF_net [DecidableEq M] (X : Ext B M N T K H) (fuel : Nat) :
    ∀ board depth ply ext s r, ply < X.MAX_DEPTH →
      negamaxF X fuel board depth ply ext s = some r →
        UpdatedBelow X X.MAX_DEPTH s.net r.2.2.net := by
  induction fuel with
  | zero => intro board depth ply ext s r _ h; simp [negamaxF] at h
  | succ fuel ih =>
    intro board depth ply ext s r hply h
    simp only [negamaxF] at h
    have h0 := is_time_over_net X s
    rcases hto : is_time_over X s with ⟨over, s0⟩
    rw [hto] at h h0
    simp only at h h0
    split at h
    · simp only [Option.some.injEq] at h
      subst h
      simp only
      rw [h0]
      exact UpdatedBelow.same _
    · split at h
      · have := quiescenceF_net X _ _ _ _ _ hply h
        simpa [h0] using this
      · rename_i hceil
        have hlt : ply + 1 < X.MAX_DEPTH := by omega
        split at h
        · simp only [Option.some.injEq] at h
          subst h
          simp only
          rw [h0]
          exact UpdatedBelow.same _
        · split at h
          · simp only [Option.some.injEq] at h
            subst h
            simp only
            rw [h0]
            exact UpdatedBelow.same _
          · have hc : ∀ b t r,
                negamaxF X fuel b (depth - 1) (ply + 1) ext t = some r →
                  UpdatedBelow X X.MAX_DEPTH t.net r.2.2.net :=
              fun b t r hr => ih b (depth - 1) (ply + 1) ext t r hlt hr
            split at h
            · exact absurd h (by simp)
            · rename_i b3 s3 hl
              simp only [Option.some.injEq] at h
              subst h
              have hf := negamaxLoop_net X _ hc ply hlt _ _ _ _ _ hl
              by_cases hp : ply = 0
              · rw [if_pos hp] at hf
                simpa [h0] using hf
              · rw [if_neg hp] at hf
                simpa [h0] using hf
            · rename_i bestEval b3 s3 hl
              simp only [Option.some.injEq] at h
              subst h
              have hf := negamaxLoop_net X _ hc ply hlt _ _ _ _ _ hl
              by_cases hp : ply = 0
              · rw [if_pos hp] at hf
                simpa [h0] using hf
              · rw [if_neg hp] at hf
                simpa [h0] using hf

theorem negamaxF_returns_depth [DecidableEq M] (X : Ext B M N T K H) (fuel : Nat) :
    ∀ ply depth, ply < X.MAX_DEPTH →
      (depth.toNat + 1 ≤ fuel ∨ X.MAX_DEPTH ≤ ply + fuel) → ∀ board ext s,
      ∃ r, negamaxF X fuel board depth ply ext s = some r := by
  induction fuel with
  | zero => intro ply depth h1 h2; omega
  | succ fuel ih =>
    intro ply depth h1 h2 board ext s
    simp only [negamaxF]
    rcases is_time_over X s with ⟨over, s0⟩
    simp only
    split
    · exact ⟨_, rfl⟩
    · split
      · exact quiescenceF_returns X _ ply h1 (by omega) board _
      · rename_i hq
        split
        · exact ⟨_, rfl⟩
        · split
          · exact ⟨_, rfl⟩
          · have hc : Returns
                (fun b t => negamaxF X fuel b (depth - 1) (ply + 1) ext t) := by
              intro b t
              exact ih (ply + 1) (depth - 1) (by omega) (by omega) b ext t
            obtain ⟨⟨o, b3, s3⟩, hl⟩ :=
              negamaxLoop_returns X _ hc ply
                (order_moves X { s0 with nodes := s0.nodes + 1 } (X.legalAll board) board ply)
                board (-INT_MAX)
                (if ply = 0 then
                  { ({ s0 with nodes := s0.nodes + 1 } : State M N T K H) with
                    itermove := (order_moves X { s0 with nodes := s0.nodes + 1 }
                      (X.legalAll board) board ply).headD X.NO_MOVE }
                 else { s0 with nodes := s0.nodes + 1 })
            rw [hl]
            cases o with
            | none => exact ⟨_, rfl⟩
            | some v => exact ⟨_, rfl⟩

/-- C19 (termination and ply ceiling): for every position, depth and ply with
`ply ≤ MAX_DEPTH - 1`, `negamax` and `quiescence` return.  The nesting of
`negamax` calls is bounded by the depth (fuel `depth + 1` suffices) and by the
plies left (fuel `MAX_DEPTH - ply` suffices), the nesting of `quiescence` calls
by `MAX_DEPTH - 1 - ply`; as every nested call is one ply deeper and a call
out of fuel would not return, no call is made at a ply above `MAX_DEPTH - 1`.
Every `net.make_move` of a call that returns has an index below `MAX_DEPTH`. -/
theorem termination_ply_ceiling [DecidableEq M] (X : Ext B M N T K H) (board : B)
    (depth : Int) (ply : Nat) (ext : Int) (s : State M N T K H)
    (hply : ply < X.MAX_DEPTH) :
    (∃ r, negamax X board depth ply ext s = some r
        ∧ UpdatedBelow X X.MAX_DEPTH s.net r.2.2.net)
    ∧ (∃ r, quiescence X board ply s = some r
        ∧ UpdatedBelow X X.MAX_DEPTH s.net r.2.2.net)
    ∧ (∀ fuel, depth.toNat + 1 ≤ fuel →
        ∃ r, negamaxF X fuel board depth ply ext s = some r)
    ∧ (∀ fuel, (X.MAX_DEPTH - 1 - ply) + 1 ≤ fuel →
        (∃ r, negamaxF X fuel board depth ply ext s = some r)
        ∧ ∃ r, quiescenceF X fuel board ply s = some r)
    ∧ (∀ fuel r, negamaxF X fuel board depth ply ext s = some r →
        UpdatedBelow X X.MAX_DEPTH s.net r.2.2.net)
    ∧ (∀ fuel r, quiescenceF X fuel board ply s = some r →
        UpdatedBelow X X.MAX_DEPTH s.net r.2.2.net) := by
  refine ⟨?_, ?_, ?_, ?_, ?_, ?_⟩
  · obtain ⟨r, hr⟩ := negamaxF_returns X (X.MAX_DEPTH - ply) ply hply (by omega)
      board depth ext s
    exact ⟨r, hr, negamaxF_net X _ board depth ply ext s r hply hr⟩
  · obtain ⟨r, hr⟩ := quiescenceF_returns X (X.MAX_DEPTH - ply) ply hply (by omega)
      board s
    exact ⟨r, hr, quiescenceF_net X _ board ply s r hply hr⟩
  · intro fuel hf
    exact negamaxF_returns_depth X fuel ply depth hply (Or.inl hf) board ext s
  · intro fuel hf
    exact ⟨negamaxF_returns_depth X fuel ply depth hply (Or.inr (by omega)) board ext s,
      quiescenceF_returns X fuel ply hply (by omega) board s⟩
  · intro fuel r hr
    exact negamaxF_net X fuel board depth ply ext s r hply hr
  · intro fuel r hr
    exact quiescenceF_net X fuel board ply s r hply hr

/-- C19, witnessed on the three-ply tree (ceiling 6) at the root with depth 2:
the call returns with fuel 3 as well as with fuel 6, and at ply 5, the last
one below the ceiling, with fuel 1. -/
theorem termination_ply_ceiling_witness :
    0 < demoTree.ext.MAX_DEPTH
    ∧ (negamaxF demoTree.ext 3 [] 2 0 0 (Tree.fresh noLimits)).map (fun r => r.1)
        = some 5
    ∧ (negamaxF demoTree.ext 2 [] 2 0 0 (Tree.fresh noLimits)).map (fun r => r.1)
        = none
    ∧ (negamaxF demoTree.ext 1 [] 2 5 0 (Tree.fresh noLimits)).map (fun r => r.1)
        = some 0
    ∧ (∃ r, negamax demoTree.ext [] 2 0 0 (Tree.fresh noLimits) = some r
        ∧ UpdatedBelow demoTree.ext demoTree.ext.MAX_DEPTH (Tree.fresh noLimits).net
            r.2.2.net)
    ∧ (∀ fuel, (2 : Int).toNat + 1 ≤ fuel →
        ∃ r, negamaxF demoTree.ext fuel [] 2 0 0 (Tree.fresh noLimits) = some r) :=
  ⟨by decide, by decide, by decide, by decide,
    (termination_ply_ceiling demoTree.ext [] 2 0 0 (Tree.fresh noLimits)
      (by decide)).1,
    (termination_ply_ceiling demoTree.ext [] 2 0 0 (Tree.fresh noLimits)
      (by decide)).2.2.1⟩

theorem negamaxLoop_first (X : Ext B M N T K H) (sev : B → Bool → Int)
    (Sync : N → Nat → B → Prop)
    (hundo : ∀ b m, X.unmakeMove (X.makeMove b m) m = b)
    (hT : Tracks X sev Sync) (val : B → Int)
    (child : B → State M N T K H → Option (Int × B × State M N T K H))
    (hc : ChildSpec Sync 1 val child)
    (hk : ∀ b t r, child b t = some r → Kept X t r.2.2)
    (moves : List M) :
    ∀ board bestEval s r, Sync s.net 0 board →
      negamaxLoop X child 0 moves board bestEval s = some r →
      r.2.2.halt = false →
      ∃ fin, r.1 = some fin
        ∧ ((fin = bestEval ∧ r.2.2.itermove = s.itermove
            ∧ ∀ mv ∈ moves, -(val (X.makeMove board mv)) ≤ bestEval)
          ∨ (bestEval < fin ∧ ∃ pre post, moves = pre ++ r.2.2.itermove :: post
            ∧ (∀ m ∈ pre, -(val (X.makeMove board m)) < fin)
            ∧ -(val (X.makeMove board r.2.2.itermove)) = fin
            ∧ ∀ m ∈ post, -(val (X.makeMove board m)) ≤ fin)) := by
  induction moves with
  | nil =>
    intro board bestEval s r _ h _
    simp only [negamaxLoop, Option.some.injEq] at h
    subst h
    exact ⟨bestEval, rfl, Or.inl ⟨rfl, rfl, fun _ hm => absurd hm (by simp)⟩⟩
  | cons mv rest ih =>
    intro board bestEval s r hs h hf
    simp only [negamaxLoop] at h
    split at h
    · exact absurd h (by simp)
    · rename_i v b2 s2 hch
      obtain ⟨hb, hkeep, hv⟩ := hc _ _ _ (hT.step _ _ mv _ hs) hch
      obtain ⟨_, hit⟩ := hk _ _ _ hch
      simp only at hb hkeep hv hit
      subst hb
      rw [hundo] at h
      have hs3 : Sync (observe X s2).net 0 board :=
        hkeep 0 board (by omega) (hT.frame _ _ mv board 0 board le_rfl hs)
      split at h
      · rename_i hh
        simp only [Option.some.injEq] at h
        subst h
        exact absurd (hh.symm.trans hf) (by simp)
      · rename_i hh
        have hh2 : s2.halt = false :=
          observe_halt_false X s2 (by simpa using hh)
        have hv2 : v = val (X.makeMove board mv) := hv hh2
        split at h
        · rename_i hgt
          rw [if_pos trivial] at h
          obtain ⟨fin, e1, e2⟩ := ih board (-v) { observe X s2 with itermove := mv }
            r hs3 h hf
          refine ⟨fin, e1, Or.inr ?_⟩
          rcases e2 with ⟨f1, f2, f3⟩ | ⟨f1, pre, post, f2, f3, f4, f5⟩
          · simp only at f2
            refine ⟨by omega, [], rest, by rw [f2]; rfl, fun _ hm => absurd hm (by simp),
              by rw [f2, f1, hv2], ?_⟩
            intro m hm
            rw [f1]
            exact f3 m hm
          · refine ⟨by omega, mv :: pre, post, by rw [f2]; rfl, ?_, f4, f5⟩
            intro m hm
            rcases List.mem_cons.mp hm with e | e
            · rw [e, ← hv2]
              exact f1
            · exact f3 m e
        · rename_i hgt
          obtain ⟨fin, e1, e2⟩ := ih board bestEval (observe X s2) r hs3 h hf
          refine ⟨fin, e1, ?_⟩
          rcases e2 with ⟨f1, f2, f3⟩ | ⟨f1, pre, post, f2, f3, f4, f5⟩
          · refine Or.inl ⟨f1, f2.trans hit, ?_⟩
            intro m hm
            rcases List.mem_cons.mp hm with e | e
            · rw [e, ← hv2]
              omega
            · exact f3 m e
          · refine Or.inr ⟨f1, mv :: pre, post, by rw [f2]; rfl, ?_, f4, f5⟩
            intro m hm
            rcases List.mem_cons.mp hm with e | e
            · rw [e, ← hv2]
              omega
            · exact f3 m e

/-- C20 (root best move is an argmax): when `unmakeMove` undoes `makeMove`,
the evaluator tracks the position, the sort permutes and no negated child
value lies below `-INT_MAX` (the values are 32-bit), a root call with depth at
least 1, a ceiling above 1 and at least one legal move returns, and
uncancelled it leaves in `itermove` a legal move whose negated child value is
the returned score, no legal move has a larger one, and every move before it
in the list produced by `order_moves` has a strictly smaller one. -/
theorem root_argmax [DecidableEq M] (X : Ext B M N T K H)
    (sev : B → Bool → Int) (Sync : N → Nat → B → Prop)
    (hundo : ∀ b m, X.unmakeMove (X.makeMove b m) m = b)
    (hT : Tracks X sev Sync) (hperm : ∀ l, (X.sortMoves l).Perm l)
    (board : B) (d : Int) (ext : Int) (s : State M N T K H)
    (hs : Sync s.net 0 board) (hdeep : 1 < X.MAX_DEPTH) (hd : 1 ≤ d)
    (hlegal : X.legalAll board ≠ [])
    (hrange : ∀ m ∈ X.legalAll board,
      -INT_MAX ≤ rootChild X sev d board m) :
    ∃ r, negamax X board d 0 ext s = some r
      ∧ (r.2.2.halt = false →
          r.2.2.itermove ∈ X.legalAll board
          ∧ rootChild X sev d board r.2.2.itermove = r.1
          ∧ (∀ m ∈ X.legalAll board, rootChild X sev d board m ≤ r.1)
          ∧ ∃ pre post,
              order_moves X
                  { (is_time_over X s).2 with nodes := (is_time_over X s).2.nodes + 1 }
                  (X.legalAll board) board 0
                = pre ++ r.2.2.itermove :: post
              ∧ ∀ m ∈ pre, rootChild X sev d board m < r.1) := by
  have hpos : 0 < X.MAX_DEPTH := by omega
  obtain ⟨r, h⟩ := negamax_returns X hpos board d ext s
  refine ⟨r, h, fun hf => ?_⟩
  have hR : rootLoops X board d := ⟨by omega, hlegal⟩
  rcases negamax_root_cases X board d ext s r h with
    ⟨hover, hr⟩ | ⟨_, hn, _⟩ | ⟨hover, _, o, b3, s3, hl, hcase⟩
  · rw [hr] at hf
    simp only at hf
    rw [is_time_over_fst, hf] at hover
    exact absurd hover (by simp)
  · exact absurd hR hn
  · obtain ⟨hcs, hck⟩ := rootSearch_child X sev Sync hundo hT hperm board d ext hpos hR
    have hnet : (is_time_over X s).2.net = s.net := is_time_over_net X s
    simp only [rootSearch] at hl
    have hs2 : Sync (is_time_over X s).2.net 0 board := by rw [hnet]; exact hs
    have hop := order_moves_perm X hperm
      { (is_time_over X s).2 with nodes := (is_time_over X s).2.nodes + 1 }
      (X.legalAll board) board 0
    rcases hcase with ⟨ho, hr⟩ | ⟨best, ho, hr⟩
    · subst ho
      obtain ⟨_, _, hval⟩ := negamaxLoop_value X sev Sync hundo hT 0 _ _ hcs _
        board _ _ _ (by exact hs2) hl
      rw [hr] at hf
      exact absurd (hval hf) (by simp)
    · subst ho
      rw [hr] at hf ⊢
      simp only at hf ⊢
      obtain ⟨fin, e1, e2⟩ := negamaxLoop_first X sev Sync hundo hT _ _ hcs hck
        _ board _ _ _ (by exact hs2) hl hf
      simp only [Option.some.injEq] at e1
      subst e1
      rcases e2 with ⟨f1, f2, f3⟩ | ⟨_, pre, post, f2, f3, f4, f5⟩
      · simp only at f2
        cases hord : order_moves X
            { (is_time_over X s).2 with nodes := (is_time_over X s).2.nodes + 1 }
            (X.legalAll board) board 0 with
        | nil =>
          rw [hord] at hop
          exact absurd hop.symm.eq_nil hlegal
        | cons a l =>
          rw [hord] at f2 f3 hop
          simp only [List.headD_cons] at f2
          have ha : a ∈ X.legalAll board := hop.subset (List.mem_cons_self _ _)
          have hall : ∀ m ∈ X.legalAll board,
              rootChild X sev d board m = best := by
            intro m hm
            have h1 := f3 m (hop.symm.subset hm)
            have h2 := hrange m hm
            unfold rootChild at h2 ⊢
            omega
          rw [f2]
          exact ⟨ha, hall a ha, fun m hm => le_of_eq (hall m hm), [], l, rfl,
            fun _ hm => absurd hm (by simp)⟩
      · have hmem : s3.itermove ∈ X.legalAll board := by
          apply hop.subset
          rw [f2]
          simp
        refine ⟨hmem, f4, ?_, pre, post, f2, f3⟩
        intro m hm
        have hm2 := hop.symm.subset hm
        rw [f2] at hm2
        rcases List.mem_append.mp hm2 with e | e
        · exact le_of_lt (f3 m e)
        · rcases List.mem_cons.mp e with e | e
          · rw [e]
            exact le_of_eq f4
          · exact f5 m e

/-- C20, witnessed on the three-ply tree at depth 2: the root moves are worth
5, 2 and 1, the call returns 5 and publishes move 0, the first of the list. -/
theorem root_argmax_witness :
    (∀ b m, demoTree.ext.unmakeMove (demoTree.ext.makeMove b m) m = b)
    ∧ Tree.sync (Tree.fresh noLimits).net 0 []
    ∧ 1 < demoTree.ext.MAX_DEPTH
    ∧ demoTree.ext.legalAll [] ≠ []
    ∧ (demoTree.ext.legalAll []).map
        (rootChild demoTree.ext demoTree.sev 2 [])
        = [5, 2, 1]
    ∧ (negamax demoTree.ext [] 2 0 0 (Tree.fresh noLimits)).map
        (fun r => (r.1, r.2.2.halt, r.2.2.itermove)) = some (5, false, 0)
    ∧ ∃ r, negamax demoTree.ext [] 2 0 0 (Tree.fresh noLimits) = some r
      ∧ (r.2.2.halt = false →
          r.2.2.itermove ∈ demoTree.ext.legalAll []
          ∧ rootChild demoTree.ext demoTree.sev 2 []
              r.2.2.itermove = r.1) :=
  ⟨tree_undo demoTree, rfl, by decide, by decide, by decide, by decide,
    (root_argmax demoTree.ext demoTree.sev Tree.sync (tree_undo demoTree)
      (tree_tracks demoTree) (tree_sort_perm demoTree) [] 2 0 (Tree.fresh noLimits)
      rfl (by decide) (by decide) (by decide) (by decide)).imp
      (fun _ h => ⟨h.1, fun hf => ⟨(h.2 hf).1, (h.2 hf).2.1⟩⟩)⟩

theorem whiteturn_line (X : Ext B M N T K H)
    (hflip : ∀ b m, X.whiteturn (X.makeMove b m) = !X.whiteturn b)
    (line : List M) :
    ∀ root : B, X.whiteturn (line.foldl X.makeMove root)
      = if line.length % 2 = 0 then X.whiteturn root else !X.whiteturn root := by
  induction line with
  | nil => intro root; simp
  | cons m rest ih =>
    intro root
    simp only [List.foldl_cons, List.length_cons]
    rw [ih (X.makeMove root m), hflip]
    rcases Nat.mod_two_eq_zero_or_one rest.length with h | h
    · have h2 : (rest.length + 1) % 2 = 1 := by omega
      simp [h, h2]
    · have h2 : (rest.length + 1) % 2 = 0 := by omega
      simp [h, h2]

theorem standPat_le_quiescenceValue (X : Ext B M N T K H) (sev : B → Bool → Int)
    (k : Nat) (b : B) :
    standPat X sev b ≤ quiescenceValue X sev k b
    ∧ (X.legalCaptures b = [] → quiescenceValue X sev k b = standPat X sev b) := by
  cases k with
  | zero => simp [quiescenceValue]
  | succ k =>
    simp only [quiescenceValue]
    refine ⟨(foldl_max_ge _ _ _).1, fun h => ?_⟩
    rw [h]
    rfl

theorem tree_flip (G : Tree) (b : List Nat) (m : Nat) :
    G.ext.whiteturn (G.ext.makeMove b m) = !G.ext.whiteturn b := by
  show decide ((m :: b).length % 2 = 0) = !decide (b.length % 2 = 0)
  simp only [List.length_cons]
  rcases Nat.mod_two_eq_zero_or_one b.length with h | h
  · have h2 : (b.length + 1) % 2 = 1 := by omega
    simp [h, h2]
  · have h2 : (b.length + 1) % 2 = 0 := by omega
    simp [h, h2]

/-- C6 (negamax perspective): take the node reached from `root` by the moves of
`line`, at ply `line.length`, with an evaluator that tracks the position and a
rules engine on which a move passes the turn.  The side `whiteturn` that
`quiescence` hands to the evaluator at that node is the side to move on the
node's board, which is the root's side to move at even ply and the other side
at odd ply.  The call returns; uncancelled, its value is at least the standing
pat `evaluate(ply, side to move) * (100 - halfMoveClock) / 100`, is exactly the
standing pat when the node has no capture, and is the reference value
`quiescenceValue`, the full-width value for the side to move at the node;
`negamax` at the node returns, and uncancelled its value is the full-width
value `negamaxValue` for the side to move, which for `depth <= 0` is the
quiescence value. -/
theorem evaluator_side_to_move [DecidableEq M] (X : Ext B M N T K H)
    (sev : B → Bool → Int) (Sync : N → Nat → B → Prop)
    (hundo : ∀ b m, X.unmakeMove (X.makeMove b m) m = b)
    (hT : Tracks X sev Sync) (hperm : ∀ l, (X.sortMoves l).Perm l)
    (hflip : ∀ b m, X.whiteturn (X.makeMove b m) = !X.whiteturn b)
    (root : B) (line : List M) (s : State M N T K H)
    (hply : line.length < X.MAX_DEPTH)
    (hs : Sync s.net line.length (line.foldl X.makeMove root)) :
    X.whiteturn (line.foldl X.makeMove root)
        = (if line.length % 2 = 0 then X.whiteturn root else !X.whiteturn root)
    ∧ ∃ r, quiescence X (line.foldl X.makeMove root) line.length s = some r
      ∧ (r.2.2.halt = false →
          Int.tdiv (X.evaluate s.net line.length
              (X.whiteturn (line.foldl X.makeMove root))
            * (100 - X.halfMoveClock (line.foldl X.makeMove root))) 100 ≤ r.1
          ∧ (X.legalCaptures (line.foldl X.makeMove root) = [] →
              r.1 = Int.tdiv (X.evaluate s.net line.length
                  (if line.length % 2 = 0 then X.whiteturn root
                    else !X.whiteturn root)
                * (100 - X.halfMoveClock (line.foldl X.makeMove root))) 100)
          ∧ r.1 = quiescenceValue X sev (X.MAX_DEPTH - 1 - line.length)
              (line.foldl X.makeMove root))
      ∧ ∀ depth ext : Int, ∃ r2,
          negamax X (line.foldl X.makeMove root) depth line.length ext s = some r2
          ∧ (r2.2.2.halt = false →
              r2.1 = negamaxValue X sev (X.MAX_DEPTH - 1 - line.length) depth
                line.length (line.foldl X.makeMove root)
              ∧ (depth ≤ 0 →
                  r2.1 = quiescenceValue X sev (X.MAX_DEPTH - 1 - line.length)
                    (line.foldl X.makeMove root))) := by
  have hside := whiteturn_line X hflip line root
  refine ⟨hside, ?_⟩
  obtain ⟨r, hr⟩ := quiescenceF_returns X (X.MAX_DEPTH - line.length) line.length
    hply (by omega) (line.foldl X.makeMove root) s
  have hk : X.MAX_DEPTH - line.length - 1 = X.MAX_DEPTH - 1 - line.length := by omega
  obtain ⟨_, _, hv⟩ := quiescenceF_value X sev Sync hundo hT hperm
    (X.MAX_DEPTH - line.length) line.length (by omega) _ s r hs hr
  simp only at hv
  rw [hk] at hv
  refine ⟨r, hr, fun hf => ?_, fun depth ext => ?_⟩
  swap
  · obtain ⟨r2, hr2⟩ := negamaxF_returns X (X.MAX_DEPTH - line.length) line.length
      hply (by omega) (line.foldl X.makeMove root) depth ext s
    refine ⟨r2, hr2, fun hf2 => ?_⟩
    obtain ⟨_, _, hv3⟩ := negamaxF_value X sev Sync hundo hT hperm
      (X.MAX_DEPTH - line.length) line.length (by omega) depth ext _ s r2 hs hr2
    have hv4 := hv3 hf2
    simp only at hv4
    rw [hk] at hv4
    refine ⟨hv4, fun hd => ?_⟩
    rw [hv4]
    exact negamaxValue_leaf X sev _ depth _ _ hd
  have hv2 := hv hf
  have hsp : standPat X sev (line.foldl X.makeMove root)
      = Int.tdiv (X.evaluate s.net line.length
          (X.whiteturn (line.foldl X.makeMove root))
        * (100 - X.halfMoveClock (line.foldl X.makeMove root))) 100 := by
    unfold standPat
    rw [hT.eval s.net line.length _ _ hs]
  obtain ⟨h1, h2⟩ := standPat_le_quiescenceValue X sev
    (X.MAX_DEPTH - 1 - line.length) (line.foldl X.makeMove root)
  refine ⟨?_, ?_, hv2⟩
  · rw [hv2, ← hsp]
    exact h1
  · intro hc
    rw [hv2, h2 hc, hsp, hside]

/-- C6, witnessed on the one-move tree whose evaluator says +40 for White and
-40 for Black: at the node after the root move, at ply 1, Black is to move,
`quiescence` asks the evaluator for Black and returns -40; at the root, at
ply 0, it asks for White and returns 40, and a depth-1 `negamax` returns 40 as
well, the negated value of the node below. -/
theorem evaluator_side_to_move_witness :
    (∀ b m, sideTree.ext.whiteturn (sideTree.ext.makeMove b m)
        = !sideTree.ext.whiteturn b)
    ∧ ([0] : List Nat).length < sideTree.ext.MAX_DEPTH
    ∧ Tree.sync afterZero.net ([0] : List Nat).length
        (([0] : List Nat).foldl sideTree.ext.makeMove [])
    ∧ sideTree.ext.whiteturn [] = true
    ∧ sideTree.ext.evaluate afterZero.net 1 false = -40
    ∧ sideTree.ext.evaluate afterZero.net 1 true = 40
    ∧ (quiescence sideTree.ext [0] 1 afterZero).map (fun r => (r.1, r.2.2.halt))
        = some (-40, false)
    ∧ (quiescence sideTree.ext [] 0 (Tree.fresh noLimits)).map
        (fun r => (r.1, r.2.2.halt)) = some (40, false)
    ∧ (negamax sideTree.ext [] 1 0 0 (Tree.fresh noLimits)).map
        (fun r => (r.1, r.2.2.halt)) = some (40, false)
    ∧ (sideTree.ext.whiteturn (([0] : List Nat).foldl sideTree.ext.makeMove [])
        = (if ([0] : List Nat).length % 2 = 0 then sideTree.ext.whiteturn []
            else !sideTree.ext.whiteturn [])
      ∧ ∃ r, quiescence sideTree.ext (([0] : List Nat).foldl sideTree.ext.makeMove [])
            ([0] : List Nat).length afterZero = some r
        ∧ (r.2.2.halt = false →
            Int.tdiv (sideTree.ext.evaluate afterZero.net ([0] : List Nat).length
                (sideTree.ext.whiteturn
                  (([0] : List Nat).foldl sideTree.ext.makeMove []))
              * (100 - sideTree.ext.halfMoveClock
                  (([0] : List Nat).foldl sideTree.ext.makeMove []))) 100 ≤ r.1
            ∧ (sideTree.ext.legalCaptures
                  (([0] : List Nat).foldl sideTree.ext.makeMove []) = [] →
                r.1 = Int.tdiv (sideTree.ext.evaluate afterZero.net
                    ([0] : List Nat).length
                    (if ([0] : List Nat).length % 2 = 0 then sideTree.ext.whiteturn []
                      else !sideTree.ext.whiteturn [])
                  * (100 - sideTree.ext.halfMoveClock
                      (([0] : List Nat).foldl sideTree.ext.makeMove []))) 100)
            ∧ r.1 = quiescenceValue sideTree.ext sideTree.sev
                (sideTree.ext.MAX_DEPTH - 1 - ([0] : List Nat).length)
                (([0] : List Nat).foldl sideTree.ext.makeMove []))
        ∧ ∀ depth ext : Int, ∃ r2,
            negamax sideTree.ext (([0] : List Nat).foldl sideTree.ext.makeMove [])
              depth ([0] : List Nat).length ext afterZero = some r2
            ∧ (r2.2.2.halt = false →
                r2.1 = negamaxValue sideTree.ext sideTree.sev
                  (sideTree.ext.MAX_DEPTH - 1 - ([0] : List Nat).length) depth
                  ([0] : List Nat).length
                  (([0] : List Nat).foldl sideTree.ext.makeMove [])
                ∧ (depth ≤ 0 →
                    r2.1 = quiescenceValue sideTree.ext sideTree.sev
                      (sideTree.ext.MAX_DEPTH - 1 - ([0] : List Nat).length)
                      (([0] : List Nat).foldl sideTree.ext.makeMove [])))) :=
  ⟨tree_flip sideTree, by decide, rfl, by decide, by decide, by decide, by decide,
    by decide, by decide,
    evaluator_side_to_move sideTree.ext sideTree.sev Tree.sync (tree_undo sideTree)
      (tree_tracks sideTree) (tree_sort_perm sideTree) (tree_flip sideTree) []
      [0] afterZero (by decide) rfl⟩

theorem get_move_loop_first [DecidableEq M] (X : Ext B M N T K H) (fuel : Nat)
    (board : B) (l : Loop M N T K H) (o : Outcome M N T K H)
    (h : get_move_loop X fuel board l = some o) :
    o.iters = []
    ∨ ∃ v b2 s2 rest,
        negamax X board l.depth 0
          (skipIfStable l.eval (observe X l.st)).params.MAX_EXTENSIONS
          (skipIfStable l.eval (observe X l.st)) = some (v, b2, s2)
        ∧ o.iters = { depth := l.depth, alpha := l.alpha, beta := l.beta, score := v,
                      halted := (observe X s2).halt,
                      itermove := (observe X s2).itermove } :: rest := by
  cases fuel with
  | zero => simp [get_move_loop] at h
  | succ fuel =>
    simp only [get_move_loop] at h
    cases hp : get_move_pass X board l with
    | none => rw [hp] at h; exact absurd h (by simp)
    | some p =>
      rw [hp] at h
      rcases get_move_pass_cases X board l p hp with hl | ⟨_, _, _, v, b2, s2, hn, hpe⟩
      · subst hl
        simp only [Option.some.injEq] at h
        subst h
        exact Or.inl rfl
      · right
        have hit := get_move_after_iter X l v b2 s2
        rw [← hpe] at hit
        have key : ∃ rest, o.iters
            = { depth := l.depth, alpha := l.alpha, beta := l.beta, score := v,
                halted := (observe X s2).halt,
                itermove := (observe X s2).itermove } :: rest := by
          cases p with
          | leave mv st it =>
            simp only [Option.some.injEq] at h
            subst h
            simp only [Pass.iter] at hit
            subst hit
            exact ⟨[], rfl⟩
          | again it b3 l2 =>
            simp only at h
            obtain ⟨o2, _, _, _, hits⟩ := outcome_push_some h
            simp only [Pass.iter, Option.some.injEq] at hit
            subst hit
            exact ⟨o2.iters, hits⟩
        obtain ⟨rest, hr⟩ := key
        exact ⟨v, b2, s2, rest, hn, hr⟩

theorem score_move_congr [DecidableEq M] (X : Ext B M N T K H)
    (s1 s2 : State M N T K H) (board : B) (ply : Nat) (m : M)
    (hp : s1.params = s2.params) (hk : s1.killers = s2.killers)
    (hh : s1.history = s2.history)
    (ht : (X.ttGet s1.tt (X.hash board) 0).move = (X.ttGet s2.tt (X.hash board) 0).move) :
    score_move X s1 m board ply = score_move X s2 m board ply := by
  unfold score_move
  rw [hp, hk, hh, ht]

theorem order_moves_congr [DecidableEq M] (X : Ext B M N T K H)
    (s1 s2 : State M N T K H) (board : B) (ply : Nat) (l : List M)
    (hp : s1.params = s2.params) (hk : s1.killers = s2.killers)
    (hh : s1.history = s2.history)
    (ht : (X.ttGet s1.tt (X.hash board) 0).move = (X.ttGet s2.tt (X.hash board) 0).move) :
    order_moves X s1 l board ply = order_moves X s2 l board ply := by
  unfold order_moves
  have : (fun m => (m, score_move X s1 m board ply))
      = (fun m => (m, score_move X s2 m board ply)) := by
    funext m
    rw [score_move_congr X s1 s2 board ply m hp hk hh ht]
  rw [this]

/-- The root loop, cancelled or not, ends with `itermove` as it started or on
a move of its list whose completed value beat the running best and the
completed values of all moves before it. -/
theorem negamaxLoop_published (X : Ext B M N T K H) (sev : B → Bool → Int)
    (Sync : N → Nat → B → Prop)
    (hundo : ∀ b m, X.unmakeMove (X.makeMove b m) m = b)
    (hT : Tracks X sev Sync) (val : B → Int)
    (child : B → State M N T K H → Option (Int × B × State M N T K H))
    (hc : ChildSpec Sync 1 val child)
    (hk : ∀ b t r, child b t = some r → Kept X t r.2.2)
    (moves : List M) :
    ∀ board bestEval s r, Sync s.net 0 board →
      negamaxLoop X child 0 moves board bestEval s = some r →
      r.2.2.itermove = s.itermove
      ∨ ∃ before after, moves = before ++ r.2.2.itermove :: after
          ∧ bestEval < -(val (X.makeMove board r.2.2.itermove))
          ∧ ∀ x ∈ before, -(val (X.makeMove board x))
              < -(val (X.makeMove board r.2.2.itermove)) := by
  induction moves with
  | nil =>
    intro board bestEval s r _ h
    simp only [negamaxLoop, Option.some.injEq] at h
    subst h
    exact Or.inl rfl
  | cons mv rest ih =>
    intro board bestEval s r hs h
    simp only [negamaxLoop] at h
    split at h
    · exact absurd h (by simp)
    · rename_i v b2 s2 hch
      obtain ⟨hb, hkeep, hv⟩ := hc _ _ _ (hT.step _ _ mv _ hs) hch
      obtain ⟨_, hit⟩ := hk _ _ _ hch
      simp only at hb hkeep hv hit
      subst hb
      rw [hundo] at h
      have hs3 : Sync (observe X s2).net 0 board :=
        hkeep 0 board (by omega) (hT.frame _ _ mv board 0 board le_rfl hs)
      split at h
      · simp only [Option.some.injEq] at h
        subst h
        exact Or.inl hit
      · rename_i hh
        have hh2 : s2.halt = false :=
          observe_halt_false X s2 (by simpa using hh)
        have hv2 : v = val (X.makeMove board mv) := hv hh2
        split at h
        · rename_i hgt
          rw [if_pos trivial] at h
          rcases ih board (-v) { observe X s2 with itermove := mv } r hs3 h with
            e | ⟨before, after, e1, e2, e3⟩
          · simp only at e
            right
            refine ⟨[], rest, by rw [e]; rfl, by rw [e, ← hv2]; exact hgt,
              fun _ hm => absurd hm (by simp)⟩
          · right
            refine ⟨mv :: before, after, by rw [e1]; rfl, by omega, ?_⟩
            intro x hx
            rcases List.mem_cons.mp hx with e | e
            · rw [e, ← hv2]
              exact e2
            · exact e3 x e
        · rename_i hgt
          rcases ih board bestEval (observe X s2) r hs3 h with
            e | ⟨before, after, e1, e2, e3⟩
          · exact Or.inl (e.trans hit)
          · right
            refine ⟨mv :: before, after, by rw [e1]; rfl, e2, ?_⟩
            intro x hx
            rcases List.mem_cons.mp hx with e | e
            · rw [e, ← hv2]
              omega
            · exact e3 x e

/-- A root call, cancelled or not, leaves `itermove` as it found it, or the
root reached its move loop and `itermove` is what the loop published, for the
list ordered in any state with the tables of the state the call started in. -/
theorem root_published [DecidableEq M] (X : Ext B M N T K H)
    (sev : B → Bool → Int) (Sync : N → Nat → B → Prop)
    (hundo : ∀ b m, X.unmakeMove (X.makeMove b m) m = b)
    (hT : Tracks X sev Sync) (hperm : ∀ l, (X.sortMoves l).Perm l)
    (board : B) (d : Int) (ext : Int) (s : State M N T K H)
    (r : Int × B × State M N T K H) (hs : Sync s.net 0 board)
    (h : negamax X board d 0 ext s = some r) :
    r.2.2.itermove = s.itermove
    ∨ (rootLoops X board d
      ∧ ∀ s1 : State M N T K H, s1.params = s.params → s1.killers = s.killers →
          s1.history = s.history →
          (X.ttGet s1.tt (X.hash board) 0).move = (X.ttGet s.tt (X.hash board) 0).move →
          Published X sev board d (order_moves X s1 (X.legalAll board) board 0)
            r.2.2.itermove) := by
  have hpos : 0 < X.MAX_DEPTH := by
    by_contra hc
    have h0 : X.MAX_DEPTH = 0 := by omega
    simp [negamax, h0, negamaxF] at h
  rcases negamax_root_cases X board d ext s r h with
    ⟨hover, hr⟩ | ⟨_, hn, hi, _⟩ | ⟨hover, hR, o, b3, s3, hl, hcase⟩
  · left
    rw [hr]
    exact is_time_over_itermove X s
  · exact Or.inl hi
  · right
    refine ⟨hR, ?_⟩
    intro s1 hp hk hh ht
    obtain ⟨hcs, hck⟩ := rootSearch_child X sev Sync hundo hT hperm board d ext hpos hR
    have hfr := frame_is_time_over X s
    have hnet : (is_time_over X s).2.net = s.net := is_time_over_net X s
    have hs2 : Sync (is_time_over X s).2.net 0 board := by rw [hnet]; exact hs
    have hord : order_moves X s1 (X.legalAll board) board 0
        = order_moves X
            { (is_time_over X s).2 with nodes := (is_time_over X s).2.nodes + 1 }
            (X.legalAll board) board 0 := by
      apply order_moves_congr X _ _ board 0 _ (hp.trans hfr.params.symm)
        (hk.trans hfr.killers.symm) (hh.trans hfr.history.symm)
      rw [ht]
      show _ = (X.ttGet (is_time_over X s).2.tt (X.hash board) 0).move
      rw [is_time_over_tt X s]
    have hop := order_moves_perm X hperm
      { (is_time_over X s).2 with nodes := (is_time_over X s).2.nodes + 1 }
      (X.legalAll board) board 0
    have hri : r.2.2.itermove = s3.itermove := by
      rcases hcase with ⟨_, hr⟩ | ⟨best, _, hr⟩
      · rw [hr]
      · rw [hr]
    rw [hord, hri]
    simp only [rootSearch] at hl
    rcases negamaxLoop_published X sev Sync hundo hT _ _ hcs hck _ board _ _ _
        (by exact hs2) hl with e | ⟨before, after, e1, e2, e3⟩
    · left
      simp only at e
      rw [e]
      cases hol : order_moves X
          { (is_time_over X s).2 with nodes := (is_time_over X s).2.nodes + 1 }
          (X.legalAll board) board 0 with
      | nil =>
        rw [hol] at hop
        exact absurd hop.symm.eq_nil hR.2
      | cons a l => rfl
    · right
      exact ⟨before, after, e1, e2, e3⟩

/-- In a run of the `get_move` loop, the candidate of an iteration that
follows an uncancelled iteration of positive depth is that iteration's best
move or was published by the root loop, whose list is ordered with the best
move of the earlier iteration as the table move. -/
theorem get_move_loop_published [DecidableEq M] (X : Ext B M N T K H)
    (sev : B → Bool → Int) (Sync : N → Nat → B → Prop)
    (hundo : ∀ b m, X.unmakeMove (X.makeMove b m) m = b)
    (hT : Tracks X sev Sync) (hperm : ∀ l, (X.sortMoves l).Perm l)
    (htt : ∀ t (e : Entry M) p, (X.ttGet (X.ttSet t e p) e.key 0).move = e.move)
    (s : State M N T K H) (board : B) (fuel : Nat) :
    ∀ (l : Loop M N T K H) (o : Outcome M N T K H),
      Tuned X Sync s board l.st → get_move_loop X fuel board l = some o →
      ∀ pre it1 it2 post, o.iters = pre ++ it1 :: it2 :: post →
        it1.halted = false → 0 < it1.depth →
        it2.itermove = it1.itermove
        ∨ ∀ s1 : State M N T K H, s1.params = s.params → s1.killers = s.killers →
            s1.history = X.historyClear s.history →
            (X.ttGet s1.tt (X.hash board) 0).move = it1.itermove →
            Published X sev board it2.depth
              (order_moves X s1 (X.legalAll board) board 0) it2.itermove := by
  induction fuel with
  | zero => intro l o _ h; simp [get_move_loop] at h
  | succ fuel ih =>
    intro l o htu h pre it1 it2 post hits hdone hdepth
    simp only [get_move_loop] at h
    cases hp : get_move_pass X board l with
    | none => rw [hp] at h; exact absurd h (by simp)
    | some p =>
      rw [hp] at h
      rcases get_move_pass_tuned X sev Sync hundo hT hperm htt s board l p htu hp with
        hl | ⟨hobs, hd, hmax, v, s2, hn, hpe, htu2, hso, hset2⟩
      · subst hl
        simp only [Option.some.injEq] at h
        subst h
        simp at hits
      · have hit := get_move_after_iter X l v board s2
        rw [← hpe] at hit
        cases p with
        | leave mv st it =>
          simp only [Option.some.injEq] at h
          subst h
          have := congrArg List.length hits
          cases it <;> simp [Option.toList] at this <;> omega
        | again it b3 l2 =>
          simp only at h
          obtain ⟨o2, ho2, _, _, hio⟩ := outcome_push_some h
          simp only [Pass.iter, Option.some.injEq] at hit
          have hb3 : b3 = board ∧ Tuned X Sync s board l2.st
              ∧ (it.halted = false →
                  l2.st.itermove = it.itermove ∧ l2.st.tt = (observe X s2).tt) := by
            simp only [get_move_after] at hpe
            split at hpe
            · split at hpe
              · cases hpe
                exact ⟨rfl, htu2, fun _ => by rw [hit]; exact ⟨rfl, rfl⟩⟩
              · split at hpe
                · cases hpe
                · cases hpe
                  refine ⟨rfl, tuned_countConsecutive X Sync s board _ htu2, fun _ => ?_⟩
                  rw [hit]
                  exact ⟨(countConsecutive_frame _).2.1,
                    (countConsecutive_tables _).1⟩
            · split at hpe
              · cases hpe
              · cases hpe
                exact ⟨rfl, htu2, fun _ => by rw [hit]; exact ⟨rfl, rfl⟩⟩
          obtain ⟨e3, htu3, hkeep⟩ := hb3
          subst e3
          rw [hio] at hits
          cases pre with
          | cons x pre2 =>
            simp only [List.cons_append, List.cons.injEq] at hits
            exact ih l2 o2 htu3 ho2 pre2 it1 it2 post hits.2 hdone hdepth
          | nil =>
            simp only [List.nil_append, List.cons.injEq] at hits
            obtain ⟨e1, e2⟩ := hits
            subst e1
            obtain ⟨hi2, ht2⟩ := hkeep hdone
            have hh2 : (observe X s2).halt = false := by
              rw [hit] at hdone
              exact hdone
            have hset := hset2 hh2
            have hd1 : 0 < l.depth := by
              rw [hit] at hdepth
              exact hdepth
            rcases get_move_loop_first X fuel b3 l2 o2 ho2 with
              hnil | ⟨v2, b4, s4, rest, hn2, hio2⟩
            · rw [hnil] at e2
              exact absurd e2 (by simp)
            · rw [hio2] at e2
              simp only [List.cons.injEq] at e2
              obtain ⟨e4, _⟩ := e2
              subst e4
              have htu4 := tuned_skipIfStable X Sync s b3 l2.eval _
                (tuned_observe X Sync s b3 _ htu3)
              have hi4 : (skipIfStable l2.eval (observe X l2.st)).itermove = it.itermove :=
                (skipIfStable_frame l2.eval (observe X l2.st)).1.trans hi2
              have ht4 : (skipIfStable l2.eval (observe X l2.st)).tt = (observe X s2).tt :=
                (skipIfStable_tables l2.eval (observe X l2.st)).1.trans ht2
              rcases root_published X sev Sync hundo hT hperm b3 l2.depth _ _
                  (v2, b4, s4) htu4.sync hn2 with e | ⟨hR, hall⟩
              · left
                exact e.trans hi4
              · right
                intro s1 hp1 hk1 hh1 ht1
                apply hall s1 (hp1.trans htu4.params.symm) (hk1.trans htu4.killers.symm)
                  (hh1.trans htu4.history.symm)
                rw [ht1, ht4]
                have hR1 : rootLoops X b3 l.depth :=
                  ⟨fun hc => by
                    rcases hc with hc | hc
                    · omega
                    · exact hR.1 (Or.inr hc), hR.2⟩
                rw [hit]
                exact (hset.table hR1).1.symm

/-- C2 (cancellation safety of the returned move, amended): take a run of
`get_move` with an evaluator that tracks the position, a sort that permutes and
a table that returns the move just stored.  When the flag is found set after
an iteration `it2` that follows an uncancelled iteration `it1` of positive
depth, `it2` is the last iteration and the move returned is the root candidate
published when `it2` was cut short: the best move of `it1` if the cut-short
call had published nothing else, and otherwise a legal root move which the
partial iteration put in its place, namely the first move of its ordered list
(the list `order_moves` makes with the best move of `it1` as the table move),
or a later move of that list whose completed score is above `-INT_MAX` and
above the completed score of every move before it. -/
theorem cancelled_move [DecidableEq M] (X : Ext B M N T K H)
    (sev : B → Bool → Int) (Sync : N → Nat → B → Prop)
    (hundo : ∀ b m, X.unmakeMove (X.makeMove b m) m = b)
    (hT : Tracks X sev Sync) (hperm : ∀ l, (X.sortMoves l).Perm l)
    (htt : ∀ t (e : Entry M) p, (X.ttGet (X.ttSet t e p) e.key 0).move = e.move)
    (fuel : Nat) (s : State M N T K H) (board : B) (t_remain t_inc : Int)
    (o : Outcome M N T K H)
    (hrun : get_move X fuel s board t_remain t_inc = some o)
    (pre : List (Iter M)) (it1 it2 : Iter M) (post : List (Iter M))
    (hiters : o.iters = pre ++ it1 :: it2 :: post)
    (hdone : it1.halted = false) (hdepth : 0 < it1.depth)
    (hcancel : it2.halted = true) :
    post = [] ∧ o.move = it2.itermove
      ∧ (it2.itermove = it1.itermove
        ∨ (it2.itermove ∈ X.legalAll board
          ∧ ∀ s1 : State M N T K H, s1.params = s.params →
              s1.killers = s.killers → s1.history = X.historyClear s.history →
              (X.ttGet s1.tt (X.hash board) 0).move = it1.itermove →
              Published X sev board it2.depth
                (order_moves X s1 (X.legalAll board) board 0) it2.itermove)) := by
  obtain ⟨a1, a2, a3⟩ := (get_move_loop_moves X hundo hperm board fuel _ o hrun).2.2
    pre it1 it2 post hiters hcancel
  have a4 := get_move_loop_published X sev Sync hundo hT hperm htt s board fuel _ o
    (get_move_init_tuned X sev Sync hT s board t_remain t_inc) hrun pre it1 it2 post
    hiters hdone hdepth
  refine ⟨a1, a2, ?_⟩
  rcases a3 with e | e
  · exact Or.inl e
  · rcases a4 with f | f
    · exact Or.inl f
    · exact Or.inr ⟨e, f⟩

/-- C2 (amended), witnessed on the run of the counterexample: the cancelled
depth-2 iteration is the last one and its candidate, move 1, is returned; with
the depth-1 best move 0 as the table move the ordered list is `[0, 1, 2]`, and
move 1, whose completed score is 4, beat move 0, whose completed score is 1,
before the search of move 2 was cut short. -/
theorem cancelled_move_witness :
    get_move cancelTree.ext 10 (Tree.fresh noLimits) [] 0 0 = some cancelOutcome
    ∧ cancelOutcome.iters
        = [] ++ ⟨1, -INT_MAX, INT_MAX, 5, false, 0⟩ :: ⟨2, -45, 55, 0, true, 1⟩ :: []
    ∧ (cancelTree.ext.ttGet preferZero.tt (cancelTree.ext.hash []) 0).move = 0
    ∧ order_moves cancelTree.ext preferZero (cancelTree.ext.legalAll []) [] 0 = [0, 1, 2]
    ∧ rootChild cancelTree.ext cancelTree.sev 2 [] 0 = 1
    ∧ rootChild cancelTree.ext cancelTree.sev 2 [] 1 = 4
    ∧ ([] : List (Iter Nat)) = [] ∧ cancelOutcome.move = 1
    ∧ 1 ∈ cancelTree.ext.legalAll []
    ∧ Published cancelTree.ext cancelTree.sev [] 2
        (order_moves cancelTree.ext preferZero (cancelTree.ext.legalAll []) [] 0) 1 := by
  have h := cancelled_move cancelTree.ext cancelTree.sev Tree.sync
    (tree_undo cancelTree) (tree_tracks cancelTree) (tree_sort_perm cancelTree)
    (tree_table cancelTree) 10 (Tree.fresh noLimits) [] 0 0 cancelOutcome
    (Option.some_get _).symm
    [] ⟨1, -INT_MAX, INT_MAX, 5, false, 0⟩ ⟨2, -45, 55, 0, true, 1⟩ []
    (by decide) rfl (by decide) rfl
  obtain ⟨h1, h2, h3⟩ := h
  rcases h3 with e | ⟨h4, h5⟩
  · exact absurd e (by decide)
  · exact ⟨(Option.some_get _).symm, by decide, by decide, by decide, by decide,
      by decide, h1, h2, h4, h5 preferZero rfl rfl rfl (by decide)⟩

/-- C7 (ponder-hit resume): after a `ponder` that found a valid table entry
with move `m` for position `P` and searched the position after `m`, a
`get_move` on a board with the hash of that position (the engine still holding
the ponder bookkeeping) starts its loop with `depth = ponderdepth`,
`eval = pondereval` and the window `pondereval ± ASPIRATION_WINDOW`.  In every
run of that `get_move` the first `negamax` call on record is the call
`negamax(board, ponderdepth, 0, MAX_EXTENSIONS)` with that window, and when the
loop is entered (flag unset, depth within the ceilings) that call is made and
returns, the first pass of the loop goes on from its result, and every outcome
of `get_move` starts its record with it. -/
theorem ponder_hit_resume [DecidableEq M] (X : Ext B M N T K H) (fuel : Nat)
    (s : State M N T K H) (P : B) (po : PonderOutcome M N T K H)
    (hponder : ponder X fuel s P = some po)
    (hvalid : X.ttValid s.tt (X.ttGet s.tt (X.hash P) 0) (X.hash P) 0 = true)
    (hrun : s.halt = false ∧ X.hostHalt s.tick = false)
    (s' : State M N T K H) (hkey : s'.ponderkey = po.st.ponderkey)
    (hdepth : s'.ponderdepth = po.st.ponderdepth)
    (heval : s'.pondereval = po.st.pondereval)
    (board : B)
    (hboard : X.hash board
      = X.hash (X.makeMove P (X.ttGet s.tt (X.hash P) 0).move))
    (t_remain t_inc : Int) :
    (get_move_init X s' board t_remain t_inc).depth = po.st.ponderdepth
    ∧ (get_move_init X s' board t_remain t_inc).eval = po.st.pondereval
    ∧ (get_move_init X s' board t_remain t_inc).alpha
        = po.st.pondereval - s'.params.ASPIRATION_WINDOW
    ∧ (get_move_init X s' board t_remain t_inc).beta
        = po.st.pondereval + s'.params.ASPIRATION_WINDOW
    ∧ (∀ fuel2 o it rest, get_move X fuel2 s' board t_remain t_inc = some o →
        o.iters = it :: rest →
        it.depth = po.st.ponderdepth
          ∧ it.alpha = po.st.pondereval - s'.params.ASPIRATION_WINDOW
          ∧ it.beta = po.st.pondereval + s'.params.ASPIRATION_WINDOW
          ∧ ∃ b2 s2,
              negamax X board po.st.ponderdepth 0 s'.params.MAX_EXTENSIONS
                (skipIfStable po.st.pondereval
                  (observe X (get_move_init X s' board t_remain t_inc).st))
                = some (it.score, b2, s2)
              ∧ it.halted = (observe X s2).halt
              ∧ it.itermove = (observe X s2).itermove)
    ∧ (0 < X.MAX_DEPTH →
        (observe X (get_move_init X s' board t_remain t_inc).st).halt = false →
        po.st.ponderdepth ≤ (X.MAX_DEPTH : Int) →
        (s'.searchopt.maxdepth = -1 ∨ po.st.ponderdepth ≤ s'.searchopt.maxdepth) →
        ∃ v b2 s2,
          negamax X board po.st.ponderdepth 0 s'.params.MAX_EXTENSIONS
            (skipIfStable po.st.pondereval
              (observe X (get_move_init X s' board t_remain t_inc).st))
            = some (v, b2, s2)
          ∧ get_move_pass X board (get_move_init X s' board t_remain t_inc)
              = some (get_move_after X (get_move_init X s' board t_remain t_inc)
                  v b2 s2)
          ∧ ∀ fuel2 o, get_move X fuel2 s' board t_remain t_inc = some o →
              ∃ rest, o.iters
                = { depth := po.st.ponderdepth,
                    alpha := po.st.pondereval - s'.params.ASPIRATION_WINDOW,
                    beta := po.st.pondereval + s'.params.ASPIRATION_WINDOW,
                    score := v, halted := (observe X s2).halt,
                    itermove := (observe X s2).itermove } :: rest) := by
  have hk := ponder_ponderkey X fuel s P po hponder hvalid hrun
  have hhit : ¬ (X.hash board ≠ s'.ponderkey) := by
    rw [hkey, hk, hboard]
    simp
  have hinit : get_move_init X s' board t_remain t_inc =
      { depth := s'.ponderdepth, eval := s'.pondereval,
        alpha := s'.pondereval - s'.params.ASPIRATION_WINDOW,
        beta := s'.pondereval + s'.params.ASPIRATION_WINDOW,
        st := start_search_timer X
          { s' with history := X.historyClear s'.history,
                    net := X.set_board s'.net board } board t_remain t_inc } := by
    simp only [get_move_init]
    rw [if_neg hhit]
  have h1 : (get_move_init X s' board t_remain t_inc).depth = po.st.ponderdepth := by
    rw [hinit]; exact hdepth
  have h2 : (get_move_init X s' board t_remain t_inc).eval = po.st.pondereval := by
    rw [hinit]; exact heval
  have h3 : (get_move_init X s' board t_remain t_inc).alpha
      = po.st.pondereval - s'.params.ASPIRATION_WINDOW := by
    rw [hinit, ← heval]
  have h4 : (get_move_init X s' board t_remain t_inc).beta
      = po.st.pondereval + s'.params.ASPIRATION_WINDOW := by
    rw [hinit, ← heval]
  have h5 : (skipIfStable (get_move_init X s' board t_remain t_inc).eval
      (observe X (get_move_init X s' board t_remain t_inc).st)).params = s'.params := by
    rw [(skipIfStable_frame _ _).2.2.2.2.1]
    exact get_move_init_params X s' board t_remain t_inc
  have hfirst : ∀ fuel2 o, get_move X fuel2 s' board t_remain t_inc = some o →
      o.iters = []
      ∨ ∃ v b2 s2 rest,
          negamax X board po.st.ponderdepth 0 s'.params.MAX_EXTENSIONS
            (skipIfStable po.st.pondereval
              (observe X (get_move_init X s' board t_remain t_inc).st))
            = some (v, b2, s2)
          ∧ o.iters
            = { depth := po.st.ponderdepth,
                alpha := po.st.pondereval - s'.params.ASPIRATION_WINDOW,
                beta := po.st.pondereval + s'.params.ASPIRATION_WINDOW,
                score := v, halted := (observe X s2).halt,
                itermove := (observe X s2).itermove } :: rest := by
    intro fuel2 o ho
    have := get_move_loop_first X fuel2 board _ o ho
    rw [h5, h1, h2, h3, h4] at this
    exact this
  refine ⟨h1, h2, h3, h4, ?_, ?_⟩
  · intro fuel2 o it rest ho hits
    rcases hfirst fuel2 o ho with hnil | ⟨v, b2, s2, rest2, hn, hio⟩
    · rw [hnil] at hits
      exact absurd hits (by simp)
    · rw [hio] at hits
      simp only [List.cons.injEq] at hits
      obtain ⟨e, _⟩ := hits
      subst e
      exact ⟨rfl, rfl, rfl, b2, s2, hn, rfl, rfl⟩
  · intro hpos hobs hd hmax
    obtain ⟨v, b2, s2, hn, hc⟩ := get_move_pass_calls X board
      (get_move_init X s' board t_remain t_inc) hpos hobs (by rw [h1]; exact hd) (by
        have hso : (get_move_init X s' board t_remain t_inc).st.searchopt = s'.searchopt := by
          rw [hinit]
          exact (start_search_timer_frame X _ board t_remain t_inc).2.2.1
        rw [hso, h1]
        exact hmax)
    rw [h5, h1, h2] at hn
    refine ⟨v, b2, s2, hn, hc, ?_⟩
    intro fuel2 o ho
    rcases hfirst fuel2 o ho with hnil | ⟨v2, b3, s3, rest2, hn2, hio⟩
    · exfalso
      cases fuel2 with
      | zero => simp [get_move, get_move_loop] at ho
      | succ fuel2 =>
        simp only [get_move, get_move_loop, hc] at ho
        have hit := get_move_after_iter X (get_move_init X s' board t_remain t_inc) v b2 s2
        cases hga : get_move_after X (get_move_init X s' board t_remain t_inc) v b2 s2 with
        | leave mv st it =>
          rw [hga] at ho hit
          simp only [Option.some.injEq] at ho
          subst ho
          simp only [Pass.iter] at hit
          rw [hit] at hnil
          simp at hnil
        | again it b4 l2 =>
          rw [hga] at ho
          simp only at ho
          obtain ⟨o2, _, _, _, hits⟩ := outcome_push_some ho
          rw [hits] at hnil
          simp at hnil
    · rw [hn] at hn2
      simp only [Option.some.injEq, Prod.mk.injEq] at hn2
      obtain ⟨e1, e2, e3⟩ := hn2
      subst e1 e2 e3
      exact ⟨rest2, hio⟩

/-- C7, witnessed on the three-ply tree: pondering on the root with the
move 0 in the table is stopped by the host during depth 2; the `get_move` on
the position after move 0 starts at depth 2 with eval -5 and the window
`(-55, 45)`, its first `negamax` call is made at depth 2 and returns 0, and
the run goes on to depth 6. -/
theorem ponder_hit_resume_witness :
    ponder ponderTree.ext 20 ponderState [] = some pondered
    ∧ ponderTree.ext.ttValid ponderState.tt
        (ponderTree.ext.ttGet ponderState.tt (ponderTree.ext.hash []) 0)
        (ponderTree.ext.hash []) 0 = true
    ∧ (pondered.st.ponderdepth, pondered.st.pondereval) = (2, -5)
    ∧ get_move ponderTree.ext 20 ponderedReady [0] 0 0 = some ponderHit
    ∧ ponderHit.iters.map (fun i => (i.depth, i.alpha, i.beta, i.score, i.halted))
        = [(2, -55, 45, 0, false), (3, -50, 50, 0, false), (4, -50, 50, 0, false),
            (5, -50, 50, 0, false), (6, -50, 50, 0, false)]
    ∧ (negamax ponderTree.ext [0] 2 0 0
          (skipIfStable (-5) (observe ponderTree.ext
            (get_move_init ponderTree.ext ponderedReady [0] 0 0).st))).map
        (fun r => (r.1, r.2.2.halt)) = some (0, false)
    ∧ (get_move_init ponderTree.ext ponderedReady [0] 0 0).depth = 2
    ∧ (get_move_init ponderTree.ext ponderedReady [0] 0 0).eval = -5
    ∧ (get_move_init ponderTree.ext ponderedReady [0] 0 0).alpha = -5 - 50
    ∧ (get_move_init ponderTree.ext ponderedReady [0] 0 0).beta = -5 + 50
    ∧ (∃ v b2 s2,
        negamax ponderTree.ext [0] 2 0 0
            (skipIfStable (-5) (observe ponderTree.ext
              (get_move_init ponderTree.ext ponderedReady [0] 0 0).st))
          = some (v, b2, s2)
        ∧ ∃ rest, ponderHit.iters
            = { depth := 2, alpha := -5 - 50, beta := -5 + 50, score := v,
                halted := (observe ponderTree.ext s2).halt,
                itermove := (observe ponderTree.ext s2).itermove } :: rest) := by
  have hpd : pondered.st.ponderdepth = 2 := by decide
  have hpe : pondered.st.pondereval = -5 := by decide
  have hpa : ponderedReady.params.ASPIRATION_WINDOW = 50 := by decide
  have hpm : ponderedReady.params.MAX_EXTENSIONS = 0 := by decide
  have hget : get_move ponderTree.ext 20 ponderedReady [0] 0 0 = some ponderHit :=
    (Option.some_get _).symm
  have h := ponder_hit_resume ponderTree.ext 20 ponderState [] pondered
    (Option.some_get _).symm (by decide) ⟨rfl, rfl⟩ ponderedReady
    (by simp only [ponderedReady]) (by simp only [ponderedReady])
    (by simp only [ponderedReady]) [0] rfl 0 0
  rw [hpd, hpe, hpa, hpm] at h
  obtain ⟨a1, a2, a3, a4, _, a6⟩ := h
  obtain ⟨v, b2, s2, hn, _, hall⟩ := a6 (by decide) (by decide) (by decide)
    (Or.inl (by decide))
  exact ⟨(Option.some_get _).symm, by decide, by decide, hget, by decide, by decide,
    a1, a2, a3,
    a4, v, b2, s2, hn, hall 20 ponderHit hget⟩

end Raphael
